import Mathlib

/-!
# Reference LINPACK pipeline of pc2/flinpack, over exact arithmetic

Shallow embedding of the host-side reference code in
`src/host/common_functionality.cpp` (namespace `Common`) and
`src/host/linpack_functionality.cpp` (namespace `Linpack`):

* every buffer of `DATA_TYPE` is a total map from a cell index to a rational
  number, written with `Function.update`; the pivot table is a map from a
  cell index to a row index;
* loop counters and cell indices are natural numbers (all claims are about
  `n ≥ 1`, so the unsigned `n - 1` of the sources never wraps);
* every `for` loop is the iterate of its body, the body being transcribed
  statement by statement;
* division is that of `ℚ`, where `x / 0 = 0`: the theorems about computed
  values carry the hypotheses (invertible matrix, nonzero pivots) under which
  the code never divides by zero;
* the values returned by the random generator of `linpack_functionality.cpp`
  and the machine epsilon returned by `epslon` are parameters (`draw`, `eps`);
  the initial contents of freshly allocated arrays are parameters too.
-/

namespace Flinpack

/-- A buffer of `DATA_TYPE` cells in exact arithmetic. -/
abbrev Buf := Nat → ℚ

/-- A buffer of `int` cells holding row numbers (the pivot table). -/
abbrev Idx := Nat → Nat

/-! ## Loops -/

/-- State after the first `t` iterations of `for (i = lo; ...; i++) body`:
iteration number `t` (counted from zero) runs the body with `i = lo + t`. -/
def forUp {σ : Type} (body : Nat → σ → σ) (lo : Nat) : Nat → σ → σ
  | 0, s => s
  | t + 1, s => body (lo + t) (forUp body lo t s)

/-- The loop `for (i = lo; i < hi; i++) body`. -/
def forRange {σ : Type} (lo hi : Nat) (body : Nat → σ → σ) (s : σ) : σ :=
  forUp body lo (hi - lo) s

/-- State after the first `t` iterations of `for (k = hi - 1; k >= 0; k--) body`:
iteration number `t` runs the body with `k = hi - 1 - t`. -/
def forDown {σ : Type} (body : Nat → σ → σ) (hi : Nat) : Nat → σ → σ
  | 0, s => s
  | t + 1, s => body (hi - 1 - t) (forDown body hi t s)

/-- The loop `for (j = j0; j < hi; j = j + step) body`, with a bound on the
number of iterations (`hi` iterations always suffice when `step ≥ 1`). -/
def forStep {σ : Type} (body : Nat → σ → σ) (hi step : Nat) : Nat → Nat → σ → σ
  | 0, _, s => s
  | fuel + 1, j, s => if j < hi then forStep body hi step fuel (j + step) (body j s) else s

/-! ## `linpack_functionality.cpp`: factorization with partial pivoting -/

namespace Linpack

/-- Lines 184-191 of `gefa_ref`: the search for the pivot of column `k`; the
state is `(max_val, pvt_index)`. -/
def pivotSearch (a : Buf) (n lda k : Nat) : ℚ × Nat :=
  forRange (k + 1) n
    (fun i s => if s.1 < |a (i * lda + k)| then (|a (i * lda + k)|, i) else s)
    (|a (k * lda + k)|, k)

/-- Lines 193-197 of `gefa_ref`: the exchange of rows `k` and `pvt_index`. -/
def swapRows (n lda k pvt_index : Nat) (a : Buf) : Buf :=
  forRange k n
    (fun i a =>
      let tmp_val := a (k * lda + i)
      let a1 := Function.update a (k * lda + i) (a (pvt_index * lda + i))
      Function.update a1 (pvt_index * lda + i) tmp_val)
    a

/-- Lines 201-203 of `gefa_ref`: the multipliers of column `k`. -/
def scaleColumn (n lda k : Nat) (a : Buf) : Buf :=
  forRange (k + 1) n
    (fun i a => Function.update a (i * lda + k) (a (i * lda + k) * (-1 / a (k * lda + k))))
    a

/-- Lines 205-210 of `gefa_ref`: the update of the trailing block. -/
def updateTrailing (n lda k : Nat) (a : Buf) : Buf :=
  forRange (k + 1) n
    (fun j a =>
      forRange (k + 1) n
        (fun i a =>
          Function.update a (i * lda + j) (a (i * lda + j) + a (i * lda + k) * a (k * lda + j)))
        a)
    a

/-- One iteration of the outer loop of `gefa_ref` (lines 183-223). -/
def gefaStep (n lda k : Nat) (s : Buf × Idx) : Buf × Idx :=
  let pvt_index := (pivotSearch s.1 n lda k).2
  let a1 := swapRows n lda k pvt_index s.1
  let ipvt1 := Function.update s.2 k pvt_index
  let a2 := scaleColumn n lda k a1
  let a3 := updateTrailing n lda k a2
  (a3, ipvt1)

/-- Lines 179-181 of `gefa_ref`: the pivot table starts as the identity. -/
def initIpvt (n : Nat) (ipvt : Idx) : Idx :=
  forRange 0 n (fun i ipvt => Function.update ipvt i i) ipvt

/-- State of `gefa_ref` after `t` iterations of its outer loop. -/
def gefaSteps (a : Buf) (n lda : Nat) (ipvt : Idx) (t : Nat) : Buf × Idx :=
  forUp (gefaStep n lda) 0 t (a, initIpvt n ipvt)

/-- The function `gefa_ref(a, n, lda, ipvt)`: returns the factored matrix and the
pivot table. -/
def gefa_ref (a : Buf) (n lda : Nat) (ipvt : Idx) : Buf × Idx :=
  gefaSteps a n lda ipvt (n - 1)

/-- One iteration of the forward loop of `gesl_ref` (lines 236-247). -/
def forwardStep (a : Buf) (ipvt : Idx) (n lda k : Nat) (b_tmp : Buf) : Buf :=
  let b1 :=
    if ipvt k ≠ k then
      let tmp := b_tmp k
      let b0 := Function.update b_tmp k (b_tmp (ipvt k))
      Function.update b0 (ipvt k) tmp
    else b_tmp
  forRange (k + 1) n
    (fun i b_tmp => Function.update b_tmp i (b_tmp i + b_tmp k * a (lda * i + k)))
    b1

/-- One iteration of the backward loop of `gesl_ref` (lines 251-256). -/
def backStep (a : Buf) (lda k : Nat) (b_tmp : Buf) : Buf :=
  let b1 := Function.update b_tmp k (b_tmp k / a (lda * k + k))
  forRange 0 k
    (fun i b_tmp => Function.update b_tmp i (b_tmp i - b_tmp k * a (lda * i + k)))
    b1

/-- The working vector of `gesl_ref` after the copy-in loop and the forward
loop (lines 230-247). -/
def geslForward (a b : Buf) (ipvt : Idx) (n lda : Nat) (b_tmp : Buf) : Buf :=
  forRange 0 (n - 1) (forwardStep a ipvt n lda)
    (forRange 0 n (fun k b_tmp => Function.update b_tmp k (b k)) b_tmp)

/-- The function `gesl_ref(a, b, ipvt, n, lda)`: returns the final contents of
`b`. The last argument is the initial contents of the freshly allocated
`b_tmp`. -/
def gesl_ref (a b : Buf) (ipvt : Idx) (n lda : Nat) (b_tmp : Buf) : Buf :=
  let y := geslForward a b ipvt n lda b_tmp
  let x := forDown (backStep a lda) n n y
  forRange 0 n (fun k b => Function.update b k (x k)) b

end Linpack

/-! ## Mathematical views of a buffer -/

/-- The logical `n × n` matrix stored row-major with leading dimension `lda`:
`A[r][c] = a[lda*r + c]`. -/
def rowMajor (a : Buf) (lda n : Nat) : Matrix (Fin n) (Fin n) ℚ :=
  Matrix.of fun i j => a (lda * i.val + j.val)

/-- The matrix still to be reduced after `t` elimination steps: the cells below
the diagonal in the first `t` columns hold multipliers and count as zero. -/
def active (a : Buf) (lda t : Nat) : Nat → Nat → ℚ :=
  fun r c => if c < t ∧ c < r then 0 else a (r * lda + c)

/-! ## Concrete inputs -/

/-- The `2 × 2` matrix `[[0, 1], [1, 1]]`, stored with `lda = 2`. -/
def exSwap2 : Buf := fun i => if i = 0 then 0 else 1

/-- The constant vector of ones. -/
def ones : Buf := fun _ => 1

/-- The `2 × 2` matrix `[[1e-20, 1], [1, 1]]`, stored with `lda = 2`. -/
def exTiny2 : Buf := fun i => if i = 0 then 1 / 100000000000000000000 else 1

/-! ## `common_functionality.cpp`: factorization without pivoting -/

namespace Common

/-- Lines 166-168 of `gefa_ref_nopivot`: the multipliers of column `k`. -/
def scaleColumn (n lda k : Nat) (a : Buf) : Buf :=
  forRange (k + 1) n
    (fun i a => Function.update a (i * lda + k) (a (i * lda + k) * (1 / a (k * lda + k))))
    a

/-- Lines 170-175 of `gefa_ref_nopivot`: the update of the trailing block. -/
def updateTrailing (n lda k : Nat) (a : Buf) : Buf :=
  forRange (k + 1) n
    (fun j a =>
      forRange (k + 1) n
        (fun i a =>
          Function.update a (i * lda + j) (a (i * lda + j) - a (i * lda + k) * a (k * lda + j)))
        a)
    a

/-- One iteration of the outer loop of `gefa_ref_nopivot` (lines 164-176). -/
def gefaStep (n lda k : Nat) (a : Buf) : Buf :=
  updateTrailing n lda k (scaleColumn n lda k a)

/-- State of `gefa_ref_nopivot` after `t` iterations of its outer loop. -/
def gefaSteps (a : Buf) (n lda t : Nat) : Buf :=
  forUp (gefaStep n lda) 0 t a

/-- The function `gefa_ref_nopivot(a, n, lda)`: returns the factored matrix. -/
def gefa_ref_nopivot (a : Buf) (n lda : Nat) : Buf :=
  gefaSteps a n lda (n - 1)

/-- One iteration of the forward loop of `gesl_ref_nopivot` (lines 183-189). -/
def forwardStep (a : Buf) (n lda k : Nat) (b : Buf) : Buf :=
  forRange (k + 1) n (fun i b => Function.update b i (b i - b k * a (lda * i + k))) b

/-- One iteration of the backward loop of `gesl_ref_nopivot` (lines 193-199). -/
def backStep (a : Buf) (lda k : Nat) (b : Buf) : Buf :=
  let b1 := Function.update b k (b k / a (lda * k + k))
  let t := -b1 k
  forRange 0 k (fun i b => Function.update b i (b i + t * a (lda * i + k))) b1

/-- The function `gesl_ref_nopivot(a, b, n, lda)`: returns the final contents of
`b`. -/
def gesl_ref_nopivot (a b : Buf) (n lda : Nat) : Buf :=
  forDown (backStep a lda) n n (forRange 0 (n - 1) (forwardStep a n lda) b)

end Common

/-- The `2 × 2` matrix `[[1, 1], [1, 2]]`, stored with `lda = 2`. -/
def exPlain2 : Buf := fun i => if i = 3 then 2 else 1

/-! ## The triangular factors stored in a factored matrix -/

/-- The upper triangle of the factored matrix, diagonal included (the factor `U`). -/
def upper (a : Buf) (lda : Nat) : Nat → Nat → ℚ :=
  fun r c => if r ≤ c then a (r * lda + c) else 0

/-- The unit lower triangular matrix whose entries below the diagonal are the
stored ones (the factor `L` of `gefa_ref_nopivot`). -/
def lowerUnit (a : Buf) (lda : Nat) : Nat → Nat → ℚ :=
  fun r j => if j < r then a (r * lda + j) else if r = j then 1 else 0

/-- The unit lower triangular matrix whose entries below the diagonal are the
negated stored ones (the sign convention of `gefa_ref`). -/
def lowerUnitNeg (a : Buf) (lda : Nat) : Nat → Nat → ℚ :=
  fun r j => if j < r then -a (r * lda + j) else if r = j then 1 else 0

/-- The row exchanges `k <-> ipvt[k]`, `k = 0 .. t-1`, applied in this order to
the rows of `A`. -/
def permuteRows (ipvt : Idx) (t : Nat) (A : Nat → Nat → ℚ) : Nat → Nat → ℚ :=
  forUp (fun k B => fun r c => B (Equiv.swap k (ipvt k) r) c) 0 t A

/-- The unit lower triangular factor of `gefa_ref` after `t` steps, with the row
exchanges carried through: step `k` exchanges rows `k` and `ipvt[k]` of the
columns already filled, then fills column `k` with the negated stored
multipliers. -/
def lowerPermuted (a : Buf) (ipvt : Idx) (lda t : Nat) : Nat → Nat → ℚ :=
  forUp
    (fun k L => fun r j =>
      if j < k then L (Equiv.swap k (ipvt k) r) j
      else if j = k ∧ k < r then -a (r * lda + k)
      else L r j)
    0 t (fun r j => if r = j then 1 else 0)

/-- The `3 × 3` matrix `[[4, 0, 0], [2, 1, 1], [1, 2, 1]]`, stored with `lda = 3`. -/
def exLate3 : Buf := fun i =>
  if i = 0 then 4 else if i = 3 then 2 else if i = 7 then 2
  else if i = 1 ∨ i = 2 then 0 else 1

/-! ## `matgen`, `dmxpy` and `checkLINPACKresults` -/

/-- Lines 146-153 of `common_functionality.cpp` and 162-169 of
`linpack_functionality.cpp` (the same text): `b` is cleared, then `a[lda*j+i]` is
added to `b[j]` for all `i`, `j`. -/
def matgenRhs (a : Buf) (lda n : Nat) (b : Buf) : Buf :=
  forRange 0 n
    (fun j b => forRange 0 n (fun i b => Function.update b j (b j + a (lda * j + i))) b)
    (forRange 0 n (fun i b => Function.update b i 0) b)

/-- The loop computing `resid` and `normx` in `checkLINPACKresults` (the same
text in both files); the state is `(resid, normx)`. -/
def residLoop (n : Nat) (b x : Buf) : ℚ × ℚ :=
  forRange 0 n
    (fun i s => (if s.1 > |b i| then s.1 else |b i|, if s.2 > |x i| then s.2 else |x i|))
    (0, 0)

/-- Reduction of an integer to the range of a 32-bit `int`. -/
def wrapInt32 (z : Int) : Int := (z + 2147483648) % 4294967296 - 2147483648

namespace Common

/-- The statement `init = 3125*init % 65536` on an `int`. -/
def lcgNext (init : Int) : Int := Int.tmod (wrapInt32 (3125 * init)) 65536

/-- One iteration of the outer loop of `matgen` (lines 136-145); the state is
`(init, a, norma)`. -/
def matgenRow (lda n j : Nat) (s : Int × Buf × ℚ) : Int × Buf × ℚ :=
  let s1 := forRange 0 n
    (fun i s =>
      let init := lcgNext s.1
      let a := Function.update s.2.1 (lda * j + i) (((init : ℚ) - 32768) / 16384)
      let norma := if a (lda * j + i) > s.2.2 then a (lda * j + i) else s.2.2
      (init, a, norma))
    s
  (s1.1, forRange n lda (fun i a => Function.update a (lda * j + i) 0) s1.2.1, s1.2.2)

/-- Lines 134-145 of `matgen`: the state `(init, a, norma)` after the fill. -/
def matgenFill (a : Buf) (lda n : Nat) : Int × Buf × ℚ :=
  forRange 0 n (matgenRow lda n) (1325, a, 0)

/-- The function `matgen(a, lda, n, b, norma)` with the deterministic generator:
returns the final `a`, `b` and `*norma`. -/
def matgen (a : Buf) (lda n : Nat) (b : Buf) : Buf × Buf × ℚ :=
  ((matgenFill a lda n).2.1, matgenRhs (matgenFill a lda n).2.1 lda n b,
    (matgenFill a lda n).2.2)

/-- The product `x[j]*m[ldm*j+i]` of the unrolled `dmxpy`. -/
def term (ldm : Nat) (x m : Buf) (i j : Nat) : ℚ := x j * m (ldm * j + i)

/-- The function `dmxpy(n1, y, n2, ldm, x, m)`, unrolled version: returns the final
`y`. -/
def dmxpy (n1 : Nat) (y : Buf) (n2 ldm : Nat) (x m : Buf) : Buf :=
  let y1 :=
    if n2 % 2 ≥ 1 then
      let j := n2 % 2 - 1
      forRange 0 n1 (fun i y => Function.update y i (y i + term ldm x m i j)) y
    else y
  let y2 :=
    if n2 % 4 ≥ 2 then
      let j := n2 % 4 - 1
      forRange 0 n1
        (fun i y => Function.update y i ((y i + term ldm x m i (j - 1)) + term ldm x m i j)) y1
    else y1
  let y3 :=
    if n2 % 8 ≥ 4 then
      let j := n2 % 8 - 1
      forRange 0 n1
        (fun i y => Function.update y i
          ((((y i + term ldm x m i (j - 3)) + term ldm x m i (j - 2))
            + term ldm x m i (j - 1)) + term ldm x m i j)) y2
    else y2
  let y4 :=
    if n2 % 16 ≥ 8 then
      let j := n2 % 16 - 1
      forRange 0 n1
        (fun i y => Function.update y i
          ((((((((y i + term ldm x m i (j - 7)) + term ldm x m i (j - 6))
            + term ldm x m i (j - 5)) + term ldm x m i (j - 4))
            + term ldm x m i (j - 3)) + term ldm x m i (j - 2))
            + term ldm x m i (j - 1)) + term ldm x m i j)) y3
    else y3
  let jmin := n2 % 16 + 16
  forStep
    (fun j y =>
      forRange 0 n1
        (fun i y => Function.update y i
          ((((((((((((((((y i + term ldm x m i (j - 15)) + term ldm x m i (j - 14))
            + term ldm x m i (j - 13)) + term ldm x m i (j - 12))
            + term ldm x m i (j - 11)) + term ldm x m i (j - 10))
            + term ldm x m i (j - 9)) + term ldm x m i (j - 8))
            + term ldm x m i (j - 7)) + term ldm x m i (j - 6))
            + term ldm x m i (j - 5)) + term ldm x m i (j - 4))
            + term ldm x m i (j - 3)) + term ldm x m i (j - 2))
            + term ldm x m i (j - 1)) + term ldm x m i j)) y)
    n2 16 n2 (jmin - 1) y4

/-- The locals `(resid, normx, norma)` of `checkLINPACKresults` (lines 274-294).
The arguments `a0`, `x0`, `b0` are the initial contents of the local arrays. -/
def checkLocals (b_res : Buf) (lda n : Nat) (a0 x0 b0 : Buf) : ℚ × ℚ × ℚ :=
  let xb := forRange 0 n
    (fun i (s : Buf × Buf) => (Function.update s.1 i (b_res i), Function.update s.2 i (b_res i)))
    (x0, b0)
  let g := matgen a0 lda n xb.2
  let b1 := forRange 0 n (fun i b => Function.update b i (-b i)) g.2.1
  let b2 := dmxpy n b1 n lda xb.1 g.1
  let rn := residLoop n b2 xb.1
  (rn.1, rn.2, g.2.2)

/-- The function `checkLINPACKresults(b_res, lda, n)`: returns `residn`. The
machine epsilon returned by `epslon(1.0)` is the argument `eps`. -/
def checkLINPACKresults (b_res : Buf) (lda n : Nat) (eps : ℚ) (a0 x0 b0 : Buf) : ℚ :=
  (checkLocals b_res lda n a0 x0 b0).1 /
    (n * (checkLocals b_res lda n a0 x0 b0).2.2 * (checkLocals b_res lda n a0 x0 b0).2.1 * eps)

end Common

namespace Linpack

/-- One iteration of the outer loop of `matgen` (lines 153-161); the state is
`(t, a, norma)` where `t` counts the values drawn so far and `draw t` is the
value returned by the call number `t` of `dis(gen)`. -/
def matgenRow (draw : Nat → ℚ) (lda n j : Nat) (s : Nat × Buf × ℚ) : Nat × Buf × ℚ :=
  let s1 := forRange 0 n
    (fun i s =>
      let a := Function.update s.2.1 (lda * i + j) (draw s.1)
      let norma := if a (lda * i + j) > s.2.2 then a (lda * i + j) else s.2.2
      (s.1 + 1, a, norma))
    s
  (s1.1, forRange n lda (fun i a => Function.update a (lda * j + i) 0) s1.2.1, s1.2.2)

/-- Lines 150-161 of `matgen`: the state `(t, a, norma)` after the fill. -/
def matgenFill (draw : Nat → ℚ) (a : Buf) (lda n : Nat) : Nat × Buf × ℚ :=
  forRange 0 n (matgenRow draw lda n) (0, a, 0)

/-- The function `matgen(a, lda, n, b, norma)` with the seeded random generator:
returns the final `a`, `b` and `*norma`. -/
def matgen (draw : Nat → ℚ) (a : Buf) (lda n : Nat) (b : Buf) : Buf × Buf × ℚ :=
  ((matgenFill draw a lda n).2.1, matgenRhs (matgenFill draw a lda n).2.1 lda n b,
    (matgenFill draw a lda n).2.2)

/-- The function `dmxpy(n1, y, n2, ldm, x, m)`, plain version: returns the final
`y`. -/
def dmxpy (n1 : Nat) (y : Buf) (n2 ldm : Nat) (x m : Buf) : Buf :=
  forRange 0 n1
    (fun i y => forRange 0 n2 (fun j y => Function.update y i (y i + x j * m (ldm * i + j))) y)
    y

/-- The locals `(resid, normx, norma)` of `checkLINPACKresults` (lines 276-298).
The arguments `a0`, `x0`, `b0` are the initial contents of the allocated
arrays. -/
def checkLocals (draw : Nat → ℚ) (b_res : Buf) (lda n : Nat) (a0 x0 b0 : Buf) : ℚ × ℚ × ℚ :=
  let xb := forRange 0 n
    (fun i (s : Buf × Buf) => (Function.update s.1 i (b_res i), Function.update s.2 i (b_res i)))
    (x0, b0)
  let g := matgen draw a0 lda n xb.2
  let b1 := forRange 0 n (fun i b => Function.update b i (-b i)) g.2.1
  let b2 := dmxpy n b1 n lda xb.1 g.1
  let rn := residLoop n b2 xb.1
  (rn.1, rn.2, g.2.2)

/-- The function `checkLINPACKresults(b_res, lda, n)`: returns `residn`. The
machine epsilon returned by `epslon` is the argument `eps`. -/
def checkLINPACKresults (draw : Nat → ℚ) (b_res : Buf) (lda n : Nat) (eps : ℚ)
    (a0 x0 b0 : Buf) : ℚ :=
  (checkLocals draw b_res lda n a0 x0 b0).1 /
    (n * (checkLocals draw b_res lda n a0 x0 b0).2.2 *
      (checkLocals draw b_res lda n a0 x0 b0).2.1 * eps)

end Linpack

/-- The constant vector of zeros. -/
def zeros : Buf := fun _ => 0

/-- A matrix buffer whose only nonzero cell is cell `1` (row `0`, column `1` in
row-major order when the leading dimension is at least `2`). -/
def exCell1 : Buf := fun i => if i = 1 then 1 else 0

/-! ## The generator of the deterministic `matgen` -/

/-- The generator states of the specification: `s_0 = 1325` and
`s_{t+1} = 3125 * s_t mod 65536`. -/
def lcgSeq : Nat → Nat
  | 0 => 1325
  | t + 1 => 3125 * lcgSeq t % 65536

/-- The matrix entry `(init - 32768.0)/16384.0` computed from a generator state. -/
def lcgEntry (init : Int) : ℚ := ((init : ℚ) - 32768) / 16384

/-- The value of `init` in `matgen` after `t` executions of
`init = 3125*init % 65536`. -/
def lcgState (t : Nat) : Int := Common.lcgNext^[t] 1325

namespace Linpack

end Linpack

namespace Common

/-- Lines 206-211 of `dmxpy`: the cleanup of an odd column. -/
def cleanup1 (n1 n2 ldm : Nat) (x m y : Buf) : Buf :=
  if n2 % 2 ≥ 1 then
    let j := n2 % 2 - 1
    forRange 0 n1 (fun i y => Function.update y i (y i + term ldm x m i j)) y
  else y

/-- Lines 215-220 of `dmxpy`: the cleanup of an odd group of two columns. -/
def cleanup2 (n1 n2 ldm : Nat) (x m y : Buf) : Buf :=
  if n2 % 4 ≥ 2 then
    let j := n2 % 4 - 1
    forRange 0 n1
      (fun i y => Function.update y i ((y i + term ldm x m i (j - 1)) + term ldm x m i j)) y
  else y

/-- Lines 224-232 of `dmxpy`: the cleanup of an odd group of four columns. -/
def cleanup4 (n1 n2 ldm : Nat) (x m y : Buf) : Buf :=
  if n2 % 8 ≥ 4 then
    let j := n2 % 8 - 1
    forRange 0 n1
      (fun i y => Function.update y i
        ((((y i + term ldm x m i (j - 3)) + term ldm x m i (j - 2))
          + term ldm x m i (j - 1)) + term ldm x m i j)) y
  else y

/-- Lines 236-245 of `dmxpy`: the cleanup of an odd group of eight columns. -/
def cleanup8 (n1 n2 ldm : Nat) (x m y : Buf) : Buf :=
  if n2 % 16 ≥ 8 then
    let j := n2 % 16 - 1
    forRange 0 n1
      (fun i y => Function.update y i
        ((((((((y i + term ldm x m i (j - 7)) + term ldm x m i (j - 6))
          + term ldm x m i (j - 5)) + term ldm x m i (j - 4))
          + term ldm x m i (j - 3)) + term ldm x m i (j - 2))
          + term ldm x m i (j - 1)) + term ldm x m i j)) y
  else y

/-- Lines 249-269 of `dmxpy`: the main loop over groups of sixteen columns. -/
def mainGroups (n1 n2 ldm : Nat) (x m y : Buf) : Buf :=
  forStep
    (fun j y =>
      forRange 0 n1
        (fun i y => Function.update y i
          ((((((((((((((((y i + term ldm x m i (j - 15)) + term ldm x m i (j - 14))
            + term ldm x m i (j - 13)) + term ldm x m i (j - 12))
            + term ldm x m i (j - 11)) + term ldm x m i (j - 10))
            + term ldm x m i (j - 9)) + term ldm x m i (j - 8))
            + term ldm x m i (j - 7)) + term ldm x m i (j - 6))
            + term ldm x m i (j - 5)) + term ldm x m i (j - 4))
            + term ldm x m i (j - 3)) + term ldm x m i (j - 2))
            + term ldm x m i (j - 1)) + term ldm x m i j)) y)
    n2 16 n2 (n2 % 16 + 16 - 1) y

end Common

/-- The buffer `1, 2, 5, 5, ...`. -/
def exA125 : Buf := fun i => if i = 0 then 1 else if i = 1 then 2 else 5

/-- The vector `(1, 3)`. -/
def exB13 : Buf := fun i => if i = 0 then 1 else 3

/-- The `2 × 2` matrix `[[0, 1], [1, 1]]` stored with `lda = 3`, the padding cells
`2` and `5` being zero. -/
def exSwap3 : Buf := fun i => if i = 1 ∨ i = 3 ∨ i = 4 then 1 else 0

namespace Common

/-- The product `x[j]*m[ldm*j+i]` of the unrolled `dmxpy`, the multiplication being
an arbitrary binary operation `mul` on an arbitrary type of values. -/
def termOp {α : Type} (mul : α → α → α) (ldm : Nat) (x m : Nat → α) (i j : Nat) : α :=
  mul (x j) (m (ldm * j + i))

/-- Lines 206-211 of `dmxpy`, the cleanup of an odd column, with `add` and
`mul` in place of `+` and `*`. -/
def cleanup1Op {α : Type} (add mul : α → α → α) (n1 n2 ldm : Nat) (x m y : Nat → α) :
    Nat → α :=
  if n2 % 2 ≥ 1 then
    let j := n2 % 2 - 1
    forRange 0 n1
      (fun i y => Function.update y i
        (add (y i) (termOp mul ldm x m i j))) y
  else y

/-- Lines 215-220 of `dmxpy`, the cleanup of an odd group of two columns, with `add` and
`mul` in place of `+` and `*`. -/
def cleanup2Op {α : Type} (add mul : α → α → α) (n1 n2 ldm : Nat) (x m y : Nat → α) :
    Nat → α :=
  if n2 % 4 ≥ 2 then
    let j := n2 % 4 - 1
    forRange 0 n1
      (fun i y => Function.update y i
        (add (add (y i) (termOp mul ldm x m i (j - 1))) (termOp mul ldm x m i j))) y
  else y

/-- Lines 224-232 of `dmxpy`, the cleanup of an odd group of four columns, with `add` and
`mul` in place of `+` and `*`. -/
def cleanup4Op {α : Type} (add mul : α → α → α) (n1 n2 ldm : Nat) (x m y : Nat → α) :
    Nat → α :=
  if n2 % 8 ≥ 4 then
    let j := n2 % 8 - 1
    forRange 0 n1
      (fun i y => Function.update y i
        (add (add (add (add (y i) (termOp mul ldm x m i (j - 3)))
          (termOp mul ldm x m i (j - 2))) (termOp mul ldm x m i (j - 1)))
          (termOp mul ldm x m i j))) y
  else y

/-- Lines 236-245 of `dmxpy`, the cleanup of an odd group of eight columns, with `add` and
`mul` in place of `+` and `*`. -/
def cleanup8Op {α : Type} (add mul : α → α → α) (n1 n2 ldm : Nat) (x m y : Nat → α) :
    Nat → α :=
  if n2 % 16 ≥ 8 then
    let j := n2 % 16 - 1
    forRange 0 n1
      (fun i y => Function.update y i
        (add (add (add (add (add (add (add (add (y i) (termOp mul ldm x m i (j - 7)))
          (termOp mul ldm x m i (j - 6))) (termOp mul ldm x m i (j - 5)))
          (termOp mul ldm x m i (j - 4))) (termOp mul ldm x m i (j - 3)))
          (termOp mul ldm x m i (j - 2))) (termOp mul ldm x m i (j - 1)))
          (termOp mul ldm x m i j))) y
  else y

/-- Lines 249-269 of `dmxpy`, the main loop over groups of sixteen columns, with
`add` and `mul` in place of `+` and `*`. -/
def mainGroupsOp {α : Type} (add mul : α → α → α) (n1 n2 ldm : Nat) (x m y : Nat → α) :
    Nat → α :=
  forStep
    (fun j y =>
      forRange 0 n1
        (fun i y => Function.update y i
          (add (add (add (add (add (add (add (add (add (add (add (add (add (add (add (add (y i)
            (termOp mul ldm x m i (j - 15))) (termOp mul ldm x m i (j - 14)))
            (termOp mul ldm x m i (j - 13))) (termOp mul ldm x m i (j - 12)))
            (termOp mul ldm x m i (j - 11))) (termOp mul ldm x m i (j - 10)))
            (termOp mul ldm x m i (j - 9))) (termOp mul ldm x m i (j - 8)))
            (termOp mul ldm x m i (j - 7))) (termOp mul ldm x m i (j - 6)))
            (termOp mul ldm x m i (j - 5))) (termOp mul ldm x m i (j - 4)))
            (termOp mul ldm x m i (j - 3))) (termOp mul ldm x m i (j - 2)))
            (termOp mul ldm x m i (j - 1))) (termOp mul ldm x m i j))) y)
    n2 16 n2 (n2 % 16 + 16 - 1) y

/-- The function `dmxpy(n1, y, n2, ldm, x, m)`, unrolled version, over an arbitrary
type of values with arbitrary binary operations `add` and `mul` in place of `+`
and `*`: the four cleanup blocks, then the main loop. -/
def dmxpyOp {α : Type} (add mul : α → α → α) (n1 : Nat) (y : Nat → α) (n2 ldm : Nat)
    (x m : Nat → α) : Nat → α :=
  mainGroupsOp add mul n1 n2 ldm x m
    (cleanup8Op add mul n1 n2 ldm x m
      (cleanup4Op add mul n1 n2 ldm x m
        (cleanup2Op add mul n1 n2 ldm x m
          (cleanup1Op add mul n1 n2 ldm x m y))))

/-- The plain loop of the specification for the output cell `i`:
`for j in 0..n2-1: y[i] = y[i] + x[j]*m[ldm*j+i]`, with `add` and `mul` in place of
`+` and `*`; returns the final `y[i]`. -/
def dmxpyPlainCell {α : Type} (add mul : α → α → α) (y : Nat → α) (n2 ldm : Nat)
    (x m : Nat → α) (i : Nat) : α :=
  forRange 0 n2 (fun j v => add v (mul (x j) (m (ldm * j + i)))) (y i)

end Common

/-- The integer sequence `0, 1, 2, ...`. -/
def exCount : Nat → Int := fun i => (i : Int)

/-! ## A nonsingularity test on packed matrices

The definitions of this section are not functions of the program: they are a
test used in the proof of claim C15. The matrices generated by `matgen` for
`n ≤ 127` are shown nonsingular by an elimination modulo the prime
`131071 = 2^17 - 1` that is carried out on the whole matrix at once: the `n × n`
table of residues is stored in one natural number, each entry in a field of `36`
bits, each row in `36*n` bits, so that one elimination step is a fixed number of
operations on large numbers. The test is proved sound with respect to the
matrix of `Common.matgen` (`packedMatgen_eq`, `elimStep_eq`, `elimLoop_sound`,
`matgen_det_of_check`) and evaluated on the sizes `1` to `127`. -/

/-- The number whose `n` lowest digits in base `2^w` are `e 0, ..., e (n-1)`. -/
def packN (w n : Nat) (e : Nat → Nat) : Nat := ∑ j ∈ Finset.range n, e j * 2 ^ (w * j)

/-- An `n × n` table of digits in base `2^36` as one number: row `r` is the digit
number `r` in base `2^(36*n)`. -/
def packM (n : Nat) (E : Nat → Nat → Nat) : Nat :=
  packN (36 * n) n (fun r => packN 36 n (E r))

/-- The number with `n` digits `1` in base `2^w`. -/
def repunit (w n : Nat) : Nat := (2 ^ (w * n) - 1) / (2 ^ w - 1)

/-- The generator states following `s`, `count` of them, packed in base `2^w`. -/
def packedStates (w : Nat) : Nat → Nat → Nat
  | 0, _ => 0
  | j + 1, s => 3125 * s % 65536 + 2 ^ w * packedStates w j (3125 * s % 65536)

/-- The packed row of generator states that follows the packed row `R`: every
state is advanced by `n` steps. -/
def nextRow (n R : Nat) : Nat := (3125 ^ n % 65536 * R) &&& (65535 * repunit 36 n)

/-- The packed table of `count` rows of generator states starting with row `R`. -/
def packedRows (n : Nat) : Nat → Nat → Nat
  | 0, _ => 0
  | r + 1, R => R + 2 ^ (36 * n) * packedRows n r (nextRow n R)

/-- The packed table of the numbers `s + 98303`, for the states `s` that `matgen`
uses for an `n × n` matrix, in row-major order; `s + 98303` is congruent to the
numerator `s - 32768` of the matrix entry modulo `131071`. -/
def packedMatgen (n : Nat) : Nat :=
  packedRows n n (packedStates 36 n 1325) + 98303 * (repunit 36 n * repunit (36 * n) n)

/-- A number congruent to `x` modulo `131071 = 2^17 - 1`: the sum of the low `17`
bits and of the other bits. -/
def reduce17 (x : Nat) : Nat := x % 131072 + x / 131072

/-- The map `reduce17` applied to all entries of a packed table. -/
def foldDigits (n X : Nat) : Nat :=
  (X &&& (131071 * (repunit 36 n * repunit (36 * n) n))) +
    ((X >>> 17) &&& (524287 * (repunit 36 n * repunit (36 * n) n)))

/-- The residue modulo `131071` of the entry in row `i`, column `c` of a packed
table. -/
def headAt (n c i X : Nat) : Nat := (X >>> (36 * n * i + 36 * c)) % 2 ^ 36 % 131071

/-- One elimination step on a packed table, with the pivot in row `i`, column
`c`: every row `r` becomes `a * row r - (entry r c) * row i` modulo `131071`,
where `a` is the pivot. -/
def elimStep (n c i X : Nat) : Nat :=
  foldDigits n (foldDigits n
    (headAt n c i X * X +
      (262142 * repunit (36 * n) n - ((X >>> (36 * c)) &&& (68719476735 * repunit (36 * n) n))) *
        ((X >>> (36 * n * i)) % 2 ^ (36 * n))))

/-- The search for a pivot in column `c`: the rows `i % n`, `(i+1) % n`, ... are
tried, at most `fuel` of them. -/
def findPivot (n c X : Nat) : Nat → Nat → Option Nat
  | 0, _ => none
  | f + 1, i => if headAt n c (i % n) X ≠ 0 then some (i % n) else findPivot n c X f (i + 1)

/-- The elimination on the columns `c, c+1, ...`, `fuel` of them: `true` when a
pivot was found in each. -/
def elimLoop (n : Nat) : Nat → Nat → Nat → Bool
  | 0, _, _ => true
  | f + 1, c, X =>
    match findPivot n c X n c with
    | none => false
    | some i => elimLoop n f (c + 1) (elimStep n c i X)

/-- The test: `true` when the elimination modulo `131071` of the `n × n` matrix of
`matgen` finds a pivot in every column. -/
def nonsingularCheck (n : Nat) : Bool := elimLoop n n 0 (packedMatgen n)

/-- The test for the sizes `lo + 1, ..., lo + count`. -/
def nonsingularFrom (lo : Nat) : Nat → Bool
  | 0 => true
  | k + 1 => nonsingularCheck (lo + k + 1) && nonsingularFrom lo k

/-! # Lemmas and theorems -/

/-! ## Generic facts about loops and cell indices -/

theorem forUp_succ {σ : Type} (body : Nat → σ → σ) (lo t : Nat) (s : σ) :
    forUp body lo (t + 1) s = body (lo + t) (forUp body lo t s) := rfl

theorem forUp_zero {σ : Type} (body : Nat → σ → σ) (lo : Nat) (s : σ) :
    forUp body lo 0 s = s := rfl

/-- Cells outside the footprints of all iterations keep their value. -/
theorem forUp_frame {α β : Type} (body : Nat → (α → β) → (α → β)) (W : Nat → α → Prop)
    (lo : Nat) (hframe : ∀ i s x, ¬ W i x → body i s x = s x) (t : Nat) (s0 : α → β) (x : α)
    (hx : ∀ i, i < t → ¬ W (lo + i) x) : forUp body lo t s0 x = s0 x := by
  induction t with
  | zero => rfl
  | succ t ih =>
    rw [forUp_succ, hframe _ _ _ (hx t (Nat.lt_succ_self t))]
    exact ih (fun i hi => hx i (Nat.lt_succ_of_lt hi))

/-- With pairwise disjoint footprints, a cell in the footprint of iteration `i`
holds at the end what iteration `i` wrote there. -/
theorem forUp_written {α β : Type} (body : Nat → (α → β) → (α → β)) (W : Nat → α → Prop)
    (lo : Nat) (hframe : ∀ i s x, ¬ W i x → body i s x = s x) (t : Nat) (s0 : α → β)
    (i : Nat) (hi : i < t) (x : α)
    (hdisj : ∀ j, i < j → j < t → ¬ W (lo + j) x) :
    forUp body lo t s0 x = body (lo + i) (forUp body lo i s0) x := by
  induction t with
  | zero => omega
  | succ t ih =>
    rcases Nat.lt_succ_iff_lt_or_eq.mp hi with h | h
    · rw [forUp_succ, hframe _ _ _ (hdisj t h (Nat.lt_succ_self t))]
      exact ih h (fun j h1 h2 => hdisj j h1 (Nat.lt_succ_of_lt h2))
    · subst h
      rfl

/-- A cell index determines its row and column when the column is below the
leading dimension. -/
theorem cell_inj {lda r c r' c' : Nat} (hc : c < lda) (hc' : c' < lda) :
    r * lda + c = r' * lda + c' ↔ r = r' ∧ c = c' := by
  constructor
  · intro h
    have h1 : (r * lda + c) / lda = (r' * lda + c') / lda := by rw [h]
    have h2 : (r * lda + c) % lda = (r' * lda + c') % lda := by rw [h]
    have hpos : 0 < lda := by omega
    rw [Nat.mul_comm r, Nat.mul_comm r', Nat.mul_add_div hpos, Nat.mul_add_div hpos,
      Nat.div_eq_of_lt hc, Nat.div_eq_of_lt hc'] at h1
    rw [Nat.mul_comm r, Nat.mul_comm r', Nat.mul_add_mod, Nat.mul_add_mod,
      Nat.mod_eq_of_lt hc, Nat.mod_eq_of_lt hc'] at h2
    omega
  · rintro ⟨rfl, rfl⟩
    rfl

/-! ## The inner loops of `gefa_ref` in closed form -/

namespace Linpack

/-- The pivot search returns the first row, from `k` on, whose entry in column `k`
is largest in absolute value. -/
theorem pivotSearch_spec (a : Buf) (n lda k : Nat) (hk : k < n) :
    k ≤ (pivotSearch a n lda k).2 ∧ (pivotSearch a n lda k).2 < n ∧
    (pivotSearch a n lda k).1 = |a ((pivotSearch a n lda k).2 * lda + k)| ∧
    (∀ i, k ≤ i → i < n → |a (i * lda + k)| ≤ |a ((pivotSearch a n lda k).2 * lda + k)|) ∧
    (∀ i, k ≤ i → i < (pivotSearch a n lda k).2 →
      |a (i * lda + k)| < |a ((pivotSearch a n lda k).2 * lda + k)|) := by
  have key : ∀ t, k + t < n →
      k ≤ (forUp (fun i (s : ℚ × Nat) =>
          if s.1 < |a (i * lda + k)| then (|a (i * lda + k)|, i) else s) (k + 1) t
          (|a (k * lda + k)|, k)).2 ∧
      (forUp (fun i (s : ℚ × Nat) =>
          if s.1 < |a (i * lda + k)| then (|a (i * lda + k)|, i) else s) (k + 1) t
          (|a (k * lda + k)|, k)).2 ≤ k + t ∧
      (forUp (fun i (s : ℚ × Nat) =>
          if s.1 < |a (i * lda + k)| then (|a (i * lda + k)|, i) else s) (k + 1) t
          (|a (k * lda + k)|, k)).1 =
        |a ((forUp (fun i (s : ℚ × Nat) =>
          if s.1 < |a (i * lda + k)| then (|a (i * lda + k)|, i) else s) (k + 1) t
          (|a (k * lda + k)|, k)).2 * lda + k)| ∧
      (∀ i, k ≤ i → i ≤ k + t → |a (i * lda + k)| ≤
        |a ((forUp (fun i (s : ℚ × Nat) =>
          if s.1 < |a (i * lda + k)| then (|a (i * lda + k)|, i) else s) (k + 1) t
          (|a (k * lda + k)|, k)).2 * lda + k)|) ∧
      (∀ i, k ≤ i → i < (forUp (fun i (s : ℚ × Nat) =>
          if s.1 < |a (i * lda + k)| then (|a (i * lda + k)|, i) else s) (k + 1) t
          (|a (k * lda + k)|, k)).2 →
        |a (i * lda + k)| < |a ((forUp (fun i (s : ℚ × Nat) =>
          if s.1 < |a (i * lda + k)| then (|a (i * lda + k)|, i) else s) (k + 1) t
          (|a (k * lda + k)|, k)).2 * lda + k)|) := by
    intro t
    induction t with
    | zero =>
      intro _
      refine ⟨le_refl _, le_refl _, rfl, ?_, ?_⟩
      · intro i h1 h2
        have : i = k := by omega
        subst this
        exact le_refl _
      · intro i h1 h2
        simp only [forUp_zero] at h2
        omega
    | succ t ih =>
      intro ht
      obtain ⟨h1, h2, h3, h4, h5⟩ := ih (by omega)
      rw [forUp_succ]
      generalize forUp (fun i (s : ℚ × Nat) =>
          if s.1 < |a (i * lda + k)| then (|a (i * lda + k)|, i) else s) (k + 1) t
          (|a (k * lda + k)|, k) = s at h1 h2 h3 h4 h5 ⊢
      by_cases hlt : s.1 < |a ((k + 1 + t) * lda + k)|
      · rw [if_pos hlt]
        refine ⟨by omega, by omega, rfl, ?_, ?_⟩
        · intro i hi1 hi2
          rcases Nat.lt_or_ge i (k + 1 + t) with h | h
          · exact le_of_lt (lt_of_le_of_lt (h4 i hi1 (by omega)) (h3 ▸ hlt))
          · have : i = k + 1 + t := by omega
            subst this
            exact le_refl _
        · intro i hi1 hi2
          exact lt_of_le_of_lt (h4 i hi1 (by omega)) (h3 ▸ hlt)
      · rw [if_neg hlt]
        refine ⟨h1, by omega, h3, ?_, h5⟩
        intro i hi1 hi2
        rcases Nat.lt_or_ge i (k + 1 + t) with h | h
        · exact h4 i hi1 (by omega)
        · have : i = k + 1 + t := by omega
          subst this
          rw [← h3]
          exact not_lt.mp hlt
  obtain ⟨h1, h2, h3, h4, h5⟩ := key (n - (k + 1)) (by omega)
  unfold pivotSearch forRange
  refine ⟨h1, by omega, h3, ?_, h5⟩
  intro i hi1 hi2
  exact h4 i hi1 (by omega)

/-- The row exchange of `gefa_ref`, cell by cell: columns `k .. n-1` of rows `k`
and `p` are exchanged, every other cell keeps its value. -/
theorem swapRows_apply (n lda k p : Nat) (a : Buf) (hn : n ≤ lda) (r c : Nat) (hc : c < lda) :
    swapRows n lda k p a (r * lda + c) =
      if k ≤ c ∧ c < n then
        (if r = k then a (p * lda + c) else if r = p then a (k * lda + c) else a (r * lda + c))
      else a (r * lda + c) := by
  have hframe : ∀ (i : Nat) (s : Buf) (x : Nat), ¬ (x = k * lda + i ∨ x = p * lda + i) →
      (fun i (a : Buf) =>
        let tmp_val := a (k * lda + i)
        let a1 := Function.update a (k * lda + i) (a (p * lda + i))
        Function.update a1 (p * lda + i) tmp_val) i s x = s x := by
    intro i s x hx
    push_neg at hx
    simp only [Function.update_apply, hx.1, hx.2, if_false]
  unfold swapRows forRange
  by_cases h : k ≤ c ∧ c < n
  · by_cases hr : r = k ∨ r = p
    · have hcl : ∀ j, j < n → j < lda := fun j hj => lt_of_lt_of_le hj hn
      rw [forUp_written _ (fun i x => x = k * lda + i ∨ x = p * lda + i) k hframe (n - k) a
        (c - k) (by omega) (r * lda + c)
        (by
          intro j hj1 hj2
          have hjl : k + j < lda := by omega
          show ¬ (r * lda + c = k * lda + (k + j) ∨ r * lda + c = p * lda + (k + j))
          rw [cell_inj hc hjl, cell_inj hc hjl]
          omega)]
      have e1 : forUp (fun i (a : Buf) =>
          let tmp_val := a (k * lda + i)
          let a1 := Function.update a (k * lda + i) (a (p * lda + i))
          Function.update a1 (p * lda + i) tmp_val) k (c - k) a (k * lda + c) = a (k * lda + c) := by
        apply forUp_frame _ (fun i x => x = k * lda + i ∨ x = p * lda + i) k hframe
        intro j hj
        have hjl : k + j < lda := by omega
        show ¬ (_ = k * lda + (k + j) ∨ _ = p * lda + (k + j))
        rw [cell_inj hc hjl, cell_inj hc hjl]
        omega
      have e2 : forUp (fun i (a : Buf) =>
          let tmp_val := a (k * lda + i)
          let a1 := Function.update a (k * lda + i) (a (p * lda + i))
          Function.update a1 (p * lda + i) tmp_val) k (c - k) a (p * lda + c) = a (p * lda + c) := by
        apply forUp_frame _ (fun i x => x = k * lda + i ∨ x = p * lda + i) k hframe
        intro j hj
        have hjl : k + j < lda := by omega
        show ¬ (_ = k * lda + (k + j) ∨ _ = p * lda + (k + j))
        rw [cell_inj hc hjl, cell_inj hc hjl]
        omega
      have hkc : k + (c - k) = c := by omega
      simp only [hkc, Function.update_apply, cell_inj hc hc, and_true, e1, e2, h, if_true]
      by_cases hrp : r = p
      · subst hrp
        by_cases hrk : r = k
        · subst hrk
          simp
        · simp [hrk]
      · have hrk : r = k := by tauto
        subst hrk
        simp [hrp]
    · push_neg at hr
      rw [forUp_frame _ (fun i x => x = k * lda + i ∨ x = p * lda + i) k hframe]
      · simp [h, hr.1, hr.2]
      · intro j hj
        have hjl : k + j < lda := by omega
        show ¬ (_ = k * lda + (k + j) ∨ _ = p * lda + (k + j))
        rw [cell_inj hc hjl, cell_inj hc hjl]
        omega
  · rw [forUp_frame _ (fun i x => x = k * lda + i ∨ x = p * lda + i) k hframe]
    · simp [h]
    · intro j hj
      have hjl : k + j < lda := by omega
      show ¬ (_ = k * lda + (k + j) ∨ _ = p * lda + (k + j))
      rw [cell_inj hc hjl, cell_inj hc hjl]
      omega

end Linpack

/-- A loop whose iteration `i` writes the single cell `addr i`, distinct cells for
distinct iterations: untouched cells keep their value and cell `addr i` holds the
value computed by iteration `i` from the state it started in. -/
theorem forUp_update {α β : Type} [DecidableEq α] (addr : Nat → α)
    (val : Nat → (α → β) → β) (lo t : Nat) (s0 : α → β) :
    (∀ x, (∀ i, i < t → x ≠ addr (lo + i)) →
      forUp (fun i s => Function.update s (addr i) (val i s)) lo t s0 x = s0 x) ∧
    ((∀ i j, i < j → j < t → addr (lo + i) ≠ addr (lo + j)) → ∀ i, i < t →
      forUp (fun i s => Function.update s (addr i) (val i s)) lo t s0 (addr (lo + i)) =
        val (lo + i) (forUp (fun i s => Function.update s (addr i) (val i s)) lo i s0)) := by
  have hframe : ∀ (i : Nat) (s : α → β) (x : α), ¬ (x = addr i) →
      (fun i s => Function.update s (addr i) (val i s)) i s x = s x := by
    intro i s x hx
    simp only [Function.update_apply, hx, if_false]
  constructor
  · intro x hx
    exact forUp_frame _ (fun i x => x = addr i) lo hframe t s0 x hx
  · intro hinj i hi
    rw [forUp_written _ (fun i x => x = addr i) lo hframe t s0 i hi (addr (lo + i))
      (fun j h1 h2 => hinj i j h1 h2)]
    simp only [Function.update_same]

namespace Linpack

/-- The multiplier loop of `gefa_ref`, cell by cell. -/
theorem scaleColumn_apply (n lda k : Nat) (a : Buf) (hn : n ≤ lda) (hk : k < n)
    (r c : Nat) (hc : c < lda) :
    scaleColumn n lda k a (r * lda + c) =
      if c = k ∧ k < r ∧ r < n then a (r * lda + k) * (-1 / a (k * lda + k))
      else a (r * lda + c) := by
  have hkl : k < lda := lt_of_lt_of_le hk hn
  unfold scaleColumn forRange
  by_cases h : c = k ∧ k < r ∧ r < n
  · obtain ⟨rfl, h1, h2⟩ := h
    have hr : c + 1 + (r - (c + 1)) = r := by omega
    have key := (forUp_update (fun i => i * lda + c)
      (fun i (a : Buf) => a (i * lda + c) * (-1 / a (c * lda + c))) (c + 1) (n - (c + 1)) a).2
      (by intro i j hij _; rw [Ne, cell_inj hkl hkl]; omega) (r - (c + 1)) (by omega)
    simp only [hr] at key
    rw [key]
    rw [(forUp_update (fun i => i * lda + c)
      (fun i (a : Buf) => a (i * lda + c) * (-1 / a (c * lda + c))) (c + 1) (r - (c + 1)) a).1
      (r * lda + c) (by intro i hi; rw [Ne, cell_inj hkl hkl]; omega)]
    rw [(forUp_update (fun i => i * lda + c)
      (fun i (a : Buf) => a (i * lda + c) * (-1 / a (c * lda + c))) (c + 1) (r - (c + 1)) a).1
      (c * lda + c) (by intro i hi; rw [Ne, cell_inj hkl hkl]; omega)]
    simp [h1, h2]
  · rw [(forUp_update (fun i => i * lda + k)
      (fun i (a : Buf) => a (i * lda + k) * (-1 / a (k * lda + k))) (k + 1) (n - (k + 1)) a).1
      (r * lda + c) (by intro i hi; rw [Ne, cell_inj hc hkl]; omega)]
    simp [h]

/-- The inner loop of the trailing update (one column `j`), cell by cell. -/
theorem updateColumn_apply (n lda k j : Nat) (a : Buf) (hn : n ≤ lda) (hk : k < j) (hj : j < n)
    (r c : Nat) (hc : c < lda) :
    forRange (k + 1) n
        (fun i (a : Buf) =>
          Function.update a (i * lda + j) (a (i * lda + j) + a (i * lda + k) * a (k * lda + j)))
        a (r * lda + c) =
      if c = j ∧ k < r ∧ r < n then a (r * lda + j) + a (r * lda + k) * a (k * lda + j)
      else a (r * lda + c) := by
  have hjl : j < lda := lt_of_lt_of_le hj hn
  have hkl : k < lda := by omega
  unfold forRange
  by_cases h : c = j ∧ k < r ∧ r < n
  · obtain ⟨rfl, h1, h2⟩ := h
    have hr : k + 1 + (r - (k + 1)) = r := by omega
    have key := (forUp_update (fun i => i * lda + c)
      (fun i (a : Buf) => a (i * lda + c) + a (i * lda + k) * a (k * lda + c))
      (k + 1) (n - (k + 1)) a).2
      (by intro i j hij _; rw [Ne, cell_inj hjl hjl]; omega) (r - (k + 1)) (by omega)
    simp only [hr] at key
    rw [key]
    rw [(forUp_update (fun i => i * lda + c)
      (fun i (a : Buf) => a (i * lda + c) + a (i * lda + k) * a (k * lda + c))
      (k + 1) (r - (k + 1)) a).1
      (r * lda + c) (by intro i hi; rw [Ne, cell_inj hjl hjl]; omega)]
    rw [(forUp_update (fun i => i * lda + c)
      (fun i (a : Buf) => a (i * lda + c) + a (i * lda + k) * a (k * lda + c))
      (k + 1) (r - (k + 1)) a).1
      (r * lda + k) (by intro i hi; rw [Ne, cell_inj hkl hjl]; omega)]
    rw [(forUp_update (fun i => i * lda + c)
      (fun i (a : Buf) => a (i * lda + c) + a (i * lda + k) * a (k * lda + c))
      (k + 1) (r - (k + 1)) a).1
      (k * lda + c) (by intro i hi; rw [Ne, cell_inj hjl hjl]; omega)]
    simp [h1, h2]
  · rw [(forUp_update (fun i => i * lda + j)
      (fun i (a : Buf) => a (i * lda + j) + a (i * lda + k) * a (k * lda + j))
      (k + 1) (n - (k + 1)) a).1
      (r * lda + c) (by intro i hi; rw [Ne, cell_inj hc hjl]; omega)]
    simp [h]

/-- The update of the trailing block in `gefa_ref`, cell by cell. -/
theorem updateTrailing_apply (n lda k : Nat) (a : Buf) (hn : n ≤ lda) (hk : k < n)
    (r c : Nat) (hc : c < lda) :
    updateTrailing n lda k a (r * lda + c) =
      if k < r ∧ r < n ∧ k < c ∧ c < n then a (r * lda + c) + a (r * lda + k) * a (k * lda + c)
      else a (r * lda + c) := by
  have hkl : k < lda := lt_of_lt_of_le hk hn
  have hframe : ∀ (j : Nat) (s : Buf) (x : Nat), ¬ (∃ i, x = i * lda + j) →
      (fun j (a : Buf) =>
        forUp
          (fun i (a : Buf) =>
            Function.update a (i * lda + j)
              (a (i * lda + j) + a (i * lda + k) * a (k * lda + j))) (k + 1) (n - (k + 1)) a)
        j s x = s x := by
    intro j s x hx
    exact (forUp_update (fun i => i * lda + j)
      (fun i (a : Buf) => a (i * lda + j) + a (i * lda + k) * a (k * lda + j))
      (k + 1) (n - (k + 1)) s).1 x (fun i _ hxi => hx ⟨_, hxi⟩)
  unfold updateTrailing forRange
  by_cases h : k < c ∧ c < n
  · have hcset : k + 1 + (c - (k + 1)) = c := by omega
    rw [forUp_written _ (fun j x => ∃ i, x = i * lda + j) (k + 1) hframe (n - (k + 1)) a
      (c - (k + 1)) (by omega) (r * lda + c)
      (by
        rintro j hj1 hj2 ⟨i, hi⟩
        have hjl : k + 1 + j < lda := by omega
        rw [cell_inj hc hjl] at hi
        omega)]
    simp only [hcset]
    have hpre : ∀ r', forUp (fun j (a : Buf) =>
        forUp (fun i (a : Buf) =>
          Function.update a (i * lda + j)
            (a (i * lda + j) + a (i * lda + k) * a (k * lda + j))) (k + 1) (n - (k + 1)) a)
        (k + 1) (c - (k + 1)) a (r' * lda + c) = a (r' * lda + c) ∧
        forUp (fun j (a : Buf) =>
        forUp (fun i (a : Buf) =>
          Function.update a (i * lda + j)
            (a (i * lda + j) + a (i * lda + k) * a (k * lda + j))) (k + 1) (n - (k + 1)) a)
        (k + 1) (c - (k + 1)) a (r' * lda + k) = a (r' * lda + k) := by
      intro r'
      constructor
      · apply forUp_frame _ (fun j x => ∃ i, x = i * lda + j) (k + 1) hframe
        rintro j hj ⟨i, hi⟩
        have hjl : k + 1 + j < lda := by omega
        rw [cell_inj hc hjl] at hi
        omega
      · apply forUp_frame _ (fun j x => ∃ i, x = i * lda + j) (k + 1) hframe
        rintro j hj ⟨i, hi⟩
        have hjl : k + 1 + j < lda := by omega
        rw [cell_inj hkl hjl] at hi
        omega
    have e := updateColumn_apply n lda k c
      (forUp (fun j (a : Buf) =>
        forUp (fun i (a : Buf) =>
          Function.update a (i * lda + j)
            (a (i * lda + j) + a (i * lda + k) * a (k * lda + j))) (k + 1) (n - (k + 1)) a)
        (k + 1) (c - (k + 1)) a) hn h.1 h.2 r c hc
    unfold forRange at e
    rw [e, (hpre r).1, (hpre r).2, (hpre k).1]
    by_cases hr : k < r ∧ r < n
    · simp [h, hr]
    · have : ¬ (k < r ∧ r < n ∧ k < c ∧ c < n) := by tauto
      simp [hr, this]
  · rw [forUp_frame _ (fun j x => ∃ i, x = i * lda + j) (k + 1) hframe]
    · have : ¬ (k < r ∧ r < n ∧ k < c ∧ c < n) := by tauto
      simp [this]
    · rintro j hj ⟨i, hi⟩
      have hjl : k + 1 + j < lda := by omega
      rw [cell_inj hc hjl] at hi
      omega

end Linpack

namespace Linpack

/-- The row exchange read through the transposition of `k` and `p`. -/
theorem swapRows_eq_swap (n lda k p : Nat) (a : Buf) (hn : n ≤ lda) (r c : Nat)
    (hkc : k ≤ c) (hc : c < n) :
    swapRows n lda k p a (r * lda + c) = a (Equiv.swap k p r * lda + c) := by
  rw [swapRows_apply n lda k p a hn r c (lt_of_lt_of_le hc hn), Equiv.swap_apply_def]
  simp only [hkc, hc, and_self, if_true]
  split_ifs <;> rfl

/-- One outer iteration of `gefa_ref`, cell by cell. -/
theorem gefaStep_apply (n lda k : Nat) (s : Buf × Idx) (hn : n ≤ lda) (hk : k < n)
    (r c : Nat) (hc : c < lda) :
    (gefaStep n lda k s).1 (r * lda + c) =
      if k ≤ c ∧ c < n then
        (if k < r ∧ r < n then
          (if c = k then
            s.1 (Equiv.swap k (pivotSearch s.1 n lda k).2 r * lda + k) *
              (-1 / s.1 ((pivotSearch s.1 n lda k).2 * lda + k))
          else
            s.1 (Equiv.swap k (pivotSearch s.1 n lda k).2 r * lda + c) +
              s.1 (Equiv.swap k (pivotSearch s.1 n lda k).2 r * lda + k) *
                (-1 / s.1 ((pivotSearch s.1 n lda k).2 * lda + k)) *
                s.1 ((pivotSearch s.1 n lda k).2 * lda + c))
        else s.1 (Equiv.swap k (pivotSearch s.1 n lda k).2 r * lda + c))
      else s.1 (r * lda + c) := by
  have hkl : k < lda := lt_of_lt_of_le hk hn
  have hkk : Equiv.swap k (pivotSearch s.1 n lda k).2 k = (pivotSearch s.1 n lda k).2 :=
    Equiv.swap_apply_left _ _
  simp only [gefaStep]
  rw [updateTrailing_apply _ _ _ _ hn hk r c hc, scaleColumn_apply _ _ _ _ hn hk r c hc,
    scaleColumn_apply _ _ _ _ hn hk r k hkl, scaleColumn_apply _ _ _ _ hn hk k c hc]
  by_cases h1 : k ≤ c ∧ c < n
  · rw [swapRows_eq_swap _ _ _ _ _ hn r c h1.1 h1.2, swapRows_eq_swap _ _ _ _ _ hn r k
      (le_refl k) hk, swapRows_eq_swap _ _ _ _ _ hn k c h1.1 h1.2,
      swapRows_eq_swap _ _ _ _ _ hn k k (le_refl k) hk, hkk]
    by_cases h2 : k < r ∧ r < n
    · by_cases h3 : c = k
      · subst h3
        simp [h2, hk]
      · have h4 : k < c := by omega
        simp [h1, h2, h3, h4]
    · have h5 : ¬ (k < r ∧ r < n ∧ k < c ∧ c < n) := by tauto
      have h6 : ¬ (c = k ∧ k < r ∧ r < n) := by tauto
      rw [if_neg h5, if_neg h6, if_pos h1, if_neg h2]
  · have h5 : ¬ (k < r ∧ r < n ∧ k < c ∧ c < n) := by omega
    have h6 : ¬ (c = k ∧ k < r ∧ r < n) := by omega
    simp only [h1, h5, h6, if_false]
    rw [swapRows_apply _ _ _ _ _ hn r c hc]
    simp only [h1, if_false]

/-- The pivot table after one outer iteration. -/
theorem gefaStep_ipvt (n lda k : Nat) (s : Buf × Idx) :
    (gefaStep n lda k s).2 = Function.update s.2 k (pivotSearch s.1 n lda k).2 := rfl

/-- One outer iteration of `gefa_ref` on the active matrix: rows `k` and `p` are
exchanged and the stored multiplier times the pivot row is added to every row
below `k`. -/
theorem gefaStep_active (n lda k : Nat) (s : Buf × Idx) (hn : n ≤ lda) (hk : k < n)
    (r c : Nat) (hr : r < n) (hc : c < n) :
    active (gefaStep n lda k s).1 lda (k + 1) r c =
      if k < r then
        active s.1 lda k (Equiv.swap k (pivotSearch s.1 n lda k).2 r) c +
          (gefaStep n lda k s).1 (r * lda + k) *
            active s.1 lda k (pivotSearch s.1 n lda k).2 c
      else active s.1 lda k (Equiv.swap k (pivotSearch s.1 n lda k).2 r) c := by
  obtain ⟨hp1, hp2, -, hp4, -⟩ := pivotSearch_spec s.1 n lda k hk
  have hcl : c < lda := lt_of_lt_of_le hc hn
  have hkl : k < lda := lt_of_lt_of_le hk hn
  rw [gefaStep_apply n lda k s hn hk r k hkl]
  unfold active
  rw [gefaStep_apply n lda k s hn hk r c hcl]
  generalize hp : (pivotSearch s.1 n lda k).2 = p at hp1 hp2 hp4 ⊢
  have hsw : k ≤ r → k ≤ Equiv.swap k p r := by
    intro h
    rw [Equiv.swap_apply_def]
    split_ifs <;> omega
  by_cases hkr : k < r
  · have hswr := hsw (le_of_lt hkr)
    rcases Nat.lt_trichotomy c k with h | h | h
    · have e1 : ¬ (k ≤ c ∧ c < n) := by omega
      have e2 : c < k + 1 ∧ c < r := by omega
      have e3 : c < k ∧ c < Equiv.swap k p r := by omega
      have e4 : c < k ∧ c < p := by omega
      simp [hkr, e2, e3, e4]
    · subst h
      have e2 : c < c + 1 ∧ c < r := by omega
      have hswn : Equiv.swap c p r < n := by
        rw [Equiv.swap_apply_def]
        split_ifs <;> omega
      simp only [hkr, e2, if_true, lt_irrefl, false_and, if_false, le_refl, hc, and_self, hr]
      by_cases hz : s.1 (p * lda + c) = 0
      · have := hp4 _ hswr hswn
        rw [hz, abs_zero] at this
        have hz2 : s.1 (Equiv.swap c p r * lda + c) = 0 := abs_eq_zero.mp (le_antisymm this (abs_nonneg _))
        simp [hz, hz2]
      · field_simp
    · have e2 : ¬ (c < k + 1 ∧ c < r) := by omega
      have e3 : ¬ (c < k ∧ c < Equiv.swap k p r) := by omega
      have e4 : ¬ (c < k ∧ c < p) := by omega
      have e5 : k ≤ c ∧ c < n := by omega
      have e6 : ¬ c = k := by omega
      simp only [hkr, e2, e3, e4, e5, e6, if_true, if_false, hr, and_self, le_refl, hk]
  · simp only [hkr, false_and, if_false]
    rcases Nat.lt_or_ge r k with h | h
    · have e1 : Equiv.swap k p r = r := by
        rw [Equiv.swap_apply_def]
        split_ifs <;> omega
      rw [e1]
      by_cases hcr : c < r
      · have e2 : c < k + 1 ∧ c < r := by omega
        have e3 : c < k ∧ c < r := by omega
        simp [e2, e3]
      · have e2 : ¬ (c < k + 1 ∧ c < r) := by omega
        have e3 : ¬ (c < k ∧ c < r) := by omega
        simp only [e2, e3, if_false]
        split_ifs <;> rfl
    · have e1 : r = k := by omega
      subst e1
      rw [Equiv.swap_apply_left]
      by_cases hcr : c < r
      · have e2 : c < r + 1 ∧ c < r := by omega
        have e3 : c < r ∧ c < p := by omega
        simp [e2, e3]
      · have e2 : ¬ (c < r + 1 ∧ c < r) := by omega
        have e3 : ¬ (c < r ∧ c < p) := by omega
        have e4 : r ≤ c ∧ c < n := by omega
        simp only [e2, e3, e4, if_false, if_true, Equiv.swap_apply_left, and_self]

end Linpack

/-! ## Row operations on a linear system -/

/-- The transposition of two rows below `n` keeps row numbers below `n`. -/
theorem swap_lt {n k p r : Nat} (hk : k < n) (hp : p < n) (hr : r < n) :
    Equiv.swap k p r < n := by
  rw [Equiv.swap_apply_def]
  split_ifs <;> assumption

/-- Exchanging rows `k` and `p` and adding multiples of the new row `k` to the
rows below it, on both sides of a linear system, keeps every solution. -/
theorem rowStep_solution (n k p : Nat) (hk : k < n) (hp : p < n) (m : Nat → ℚ)
    (M M' : Nat → Nat → ℚ) (β β' x : Nat → ℚ)
    (hM : ∀ r c, r < n → c < n →
      M' r c = if k < r then M (Equiv.swap k p r) c + m r * M p c else M (Equiv.swap k p r) c)
    (hβ : ∀ r, r < n →
      β' r = if k < r then β (Equiv.swap k p r) + m r * β p else β (Equiv.swap k p r))
    (h : ∀ r, r < n → ∑ c ∈ Finset.range n, M r c * x c = β r) :
    ∀ r, r < n → ∑ c ∈ Finset.range n, M' r c * x c = β' r := by
  intro r hr
  rw [hβ r hr]
  by_cases hkr : k < r
  · rw [if_pos hkr, ← h _ (swap_lt hk hp hr), ← h p hp, Finset.mul_sum, ← Finset.sum_add_distrib]
    apply Finset.sum_congr rfl
    intro c hc
    rw [hM r c hr (Finset.mem_range.mp hc), if_pos hkr]
    ring
  · rw [if_neg hkr, ← h _ (swap_lt hk hp hr)]
    apply Finset.sum_congr rfl
    intro c hc
    rw [hM r c hr (Finset.mem_range.mp hc), if_neg hkr]

/-- The same row operations change the determinant by a sign at most. -/
theorem rowStep_det_iff (n k p : Nat) (hk : k < n) (hp : p < n) (m : Nat → ℚ)
    (M M' : Nat → Nat → ℚ)
    (hM : ∀ r c, r < n → c < n →
      M' r c = if k < r then M (Equiv.swap k p r) c + m r * M p c else M (Equiv.swap k p r) c) :
    (Matrix.of fun (i j : Fin n) => M' i.val j.val).det ≠ 0 ↔
      (Matrix.of fun (i j : Fin n) => M i.val j.val).det ≠ 0 := by
  have hval : ∀ i : Fin n, (Equiv.swap (⟨k, hk⟩ : Fin n) ⟨p, hp⟩ i).val = Equiv.swap k p i.val := by
    intro i
    simp only [Equiv.swap_apply_def, Fin.ext_iff]
    split_ifs <;> rfl
  have e1 : (Matrix.of fun (i j : Fin n) => M' i.val j.val).det =
      ((Matrix.of fun (i j : Fin n) => M i.val j.val).submatrix
        (Equiv.swap (⟨k, hk⟩ : Fin n) ⟨p, hp⟩) id).det := by
    apply Matrix.det_eq_of_forall_row_eq_smul_add_const
      (fun i : Fin n => if k < i.val then m i.val else 0) ⟨k, hk⟩
    · simp
    · intro i j
      simp only [Matrix.of_apply, Matrix.submatrix_apply, id, hval, Equiv.swap_apply_left]
      rw [hM i.val j.val i.isLt j.isLt]
      split_ifs <;> simp
  rw [e1, Matrix.det_permute]
  rcases Int.units_eq_one_or (Equiv.Perm.sign (Equiv.swap (⟨k, hk⟩ : Fin n) ⟨p, hp⟩)) with h | h <;>
    simp [h]

/-- Row operations keep a nonsingular matrix nonsingular. -/
theorem rowStep_det (n k p : Nat) (hk : k < n) (hp : p < n) (m : Nat → ℚ)
    (M M' : Nat → Nat → ℚ)
    (hM : ∀ r c, r < n → c < n →
      M' r c = if k < r then M (Equiv.swap k p r) c + m r * M p c else M (Equiv.swap k p r) c)
    (hdet : (Matrix.of fun (i j : Fin n) => M i.val j.val).det ≠ 0) :
    (Matrix.of fun (i j : Fin n) => M' i.val j.val).det ≠ 0 :=
  (rowStep_det_iff n k p hk hp m M M' hM).mpr hdet

/-- The active matrix before the first step is the input matrix. -/
theorem active_zero (a : Buf) (lda n : Nat) :
    (Matrix.of fun (i j : Fin n) => active a lda 0 i.val j.val) = rowMajor a lda n := by
  ext i j
  simp [active, rowMajor, Nat.mul_comm]

/-- An upper triangular matrix with nonzero determinant has a nonzero diagonal. -/
theorem diag_ne_zero_of_det (n : Nat) (M : Nat → Nat → ℚ)
    (htri : ∀ r c, r < n → c < r → M r c = 0)
    (hdet : (Matrix.of fun (i j : Fin n) => M i.val j.val).det ≠ 0) :
    ∀ k, k < n → M k k ≠ 0 := by
  intro k hk
  rw [Matrix.det_of_upperTriangular] at hdet
  · exact (Finset.prod_ne_zero_iff.mp hdet) ⟨k, hk⟩ (Finset.mem_univ _)
  · intro i j hij
    exact htri i.val j.val i.isLt hij

/-! ## The outer loop of `gefa_ref` -/

namespace Linpack

theorem gefaSteps_zero (a : Buf) (n lda : Nat) (ipvt : Idx) :
    gefaSteps a n lda ipvt 0 = (a, initIpvt n ipvt) := rfl

theorem gefaSteps_succ (a : Buf) (n lda : Nat) (ipvt : Idx) (t : Nat) :
    gefaSteps a n lda ipvt (t + 1) = gefaStep n lda t (gefaSteps a n lda ipvt t) := by
  unfold gefaSteps
  rw [forUp_succ, Nat.zero_add]

/-- The identity initialisation of the pivot table. -/
theorem initIpvt_apply (n : Nat) (ipvt : Idx) (k : Nat) :
    initIpvt n ipvt k = if k < n then k else ipvt k := by
  unfold initIpvt forRange
  by_cases h : k < n
  · have key := (forUp_update (fun i : Nat => i) (fun i (_ : Idx) => i) 0 (n - 0) ipvt).2
      (by intro i j hij _; simp only [Nat.zero_add]; omega) k (by omega)
    simp only [Nat.zero_add] at key
    rw [key, if_pos h]
  · rw [(forUp_update (fun i : Nat => i) (fun i (_ : Idx) => i) 0 (n - 0) ipvt).1 k
      (by intro i hi; simp only [Nat.zero_add]; omega), if_neg h]

/-- The pivot table after `t` outer iterations: entry `k < t` is the pivot row
chosen at step `k`, the later entries are still the identity. -/
theorem gefaSteps_ipvt (a : Buf) (n lda : Nat) (ipvt : Idx) (t k : Nat) :
    (gefaSteps a n lda ipvt t).2 k =
      if k < t then (pivotSearch (gefaSteps a n lda ipvt k).1 n lda k).2
      else if k < n then k else ipvt k := by
  induction t with
  | zero => simp [gefaSteps_zero, initIpvt_apply]
  | succ t ih =>
    rw [gefaSteps_succ, gefaStep_ipvt, Function.update_apply]
    by_cases h : k = t
    · subst h
      simp
    · rw [if_neg h, ih]
      by_cases h2 : k < t
      · have : k < t + 1 := by omega
        simp [h2, this]
      · have : ¬ k < t + 1 := by omega
        simp [h2, this]

/-- Step `k` leaves the rows above `k` and the columns left of `k` alone. -/
theorem gefaStep_stable (n lda k : Nat) (s : Buf × Idx) (hn : n ≤ lda) (hk : k < n)
    (r c : Nat) (hc : c < lda) (hrc : r < k ∨ c < k) :
    (gefaStep n lda k s).1 (r * lda + c) = s.1 (r * lda + c) := by
  obtain ⟨hp1, -, -, -, -⟩ := pivotSearch_spec s.1 n lda k hk
  rw [gefaStep_apply n lda k s hn hk r c hc]
  by_cases h1 : k ≤ c ∧ c < n
  · have hr : r < k := by omega
    have h2 : ¬ (k < r ∧ r < n) := by omega
    have e1 : Equiv.swap k (pivotSearch s.1 n lda k).2 r = r := by
      rw [Equiv.swap_apply_def]
      split_ifs <;> omega
    rw [if_pos h1, if_neg h2, e1]
  · rw [if_neg h1]

/-- What the first `t` steps have stored in the rows above `t` and in the columns
left of `t` is final. -/
theorem gefaSteps_stable (a : Buf) (n lda : Nat) (ipvt : Idx) (hn : n ≤ lda) (t d : Nat)
    (htd : t + d ≤ n - 1) (r c : Nat) (hc : c < lda) (hrc : r < t ∨ c < t) :
    (gefaSteps a n lda ipvt (t + d)).1 (r * lda + c) =
      (gefaSteps a n lda ipvt t).1 (r * lda + c) := by
  induction d with
  | zero => rfl
  | succ d ih =>
    rw [← Nat.add_assoc, gefaSteps_succ,
      gefaStep_stable n lda (t + d) _ hn (by omega) r c hc (by omega)]
    exact ih (by omega)

/-- Every active matrix met by `gefa_ref` on a nonsingular input is nonsingular. -/
theorem gefaSteps_det (a : Buf) (n lda : Nat) (ipvt : Idx) (hn : n ≤ lda)
    (hA : (rowMajor a lda n).det ≠ 0) (t : Nat) (ht : t ≤ n - 1) :
    (Matrix.of fun (i j : Fin n) =>
      active (gefaSteps a n lda ipvt t).1 lda t i.val j.val).det ≠ 0 := by
  induction t with
  | zero =>
    rw [gefaSteps_zero, active_zero]
    exact hA
  | succ t ih =>
    have hk : t < n := by omega
    obtain ⟨-, hp2, -, -, -⟩ := pivotSearch_spec (gefaSteps a n lda ipvt t).1 n lda t hk
    rw [gefaSteps_succ]
    exact rowStep_det n t _ hk hp2
      (fun r => (gefaStep n lda t (gefaSteps a n lda ipvt t)).1 (r * lda + t)) _ _
      (fun r c hr hc => gefaStep_active n lda t _ hn hk r c hr hc) (ih (by omega))

/-- On a nonsingular input `gefa_ref` leaves nonzero pivots on the diagonal. -/
theorem gefa_ref_diag_ne_zero (a : Buf) (n lda : Nat) (ipvt : Idx) (hn : n ≤ lda)
    (hA : (rowMajor a lda n).det ≠ 0) (k : Nat) (hk : k < n) :
    (gefa_ref a n lda ipvt).1 (k * lda + k) ≠ 0 := by
  have h := diag_ne_zero_of_det n (active (gefa_ref a n lda ipvt).1 lda (n - 1))
    (by
      intro r c hr hcr
      unfold active
      rw [if_pos ⟨by omega, hcr⟩])
    (gefaSteps_det a n lda ipvt hn hA (n - 1) (le_refl _)) k hk
  unfold active at h
  simpa using h

end Linpack

/-! ## The loops of `gesl_ref` in closed form -/

/-- A loop copying cells `0 .. n-1` from `src`. -/
theorem copy_apply (n : Nat) (src dst : Buf) (i : Nat) :
    forRange 0 n (fun k (d : Buf) => Function.update d k (src k)) dst i =
      if i < n then src i else dst i := by
  unfold forRange
  by_cases h : i < n
  · have key := (forUp_update (fun i : Nat => i) (fun k (_ : Buf) => src k) 0 (n - 0) dst).2
      (by intro i j hij _; simp only [Nat.zero_add]; omega) i (by omega)
    simp only [Nat.zero_add] at key
    rw [key, if_pos h]
  · rw [(forUp_update (fun i : Nat => i) (fun k (_ : Buf) => src k) 0 (n - 0) dst).1 i
      (by intro j hj; simp only [Nat.zero_add]; omega), if_neg h]

namespace Linpack

/-- One forward step of `gesl_ref`, cell by cell: entries `k` and `ipvt[k]` are
exchanged, then the entry now at `k` times the stored multiplier is added to the
entries below `k`. -/
theorem forwardStep_apply (a : Buf) (ipvt : Idx) (n lda k : Nat) (β : Buf) (i : Nat) :
    forwardStep a ipvt n lda k β i =
      if k < i ∧ i < n then
        β (Equiv.swap k (ipvt k) i) + β (ipvt k) * a (lda * i + k)
      else β (Equiv.swap k (ipvt k) i) := by
  have hb1 : ∀ j, (if ipvt k ≠ k then
        Function.update (Function.update β k (β (ipvt k))) (ipvt k) (β k)
      else β) j = β (Equiv.swap k (ipvt k) j) := by
    intro j
    rw [Equiv.swap_apply_def]
    by_cases h : ipvt k = k
    · rw [h]
      simp only [ne_eq, not_true_eq_false, if_false]
      split_ifs with h1 <;> simp [h1]
    · simp only [ne_eq, h, not_false_eq_true, if_true, Function.update_apply]
      by_cases h1 : j = ipvt k
      · subst h1
        simp [h]
      · simp only [h1, if_false]
        split_ifs <;> rfl
  unfold forwardStep forRange
  by_cases h : k < i ∧ i < n
  · have hi : k + 1 + (i - (k + 1)) = i := by omega
    have key := (forUp_update (fun i : Nat => i)
      (fun i (b : Buf) => b i + b k * a (lda * i + k)) (k + 1) (n - (k + 1))
      (if ipvt k ≠ k then
        Function.update (Function.update β k (β (ipvt k))) (ipvt k) (β k)
      else β)).2 (by intro i j hij _; omega) (i - (k + 1)) (by omega)
    simp only [hi] at key
    rw [key, if_pos h]
    rw [(forUp_update (fun i : Nat => i)
      (fun i (b : Buf) => b i + b k * a (lda * i + k)) (k + 1) (i - (k + 1)) _).1 i
      (by intro j hj; omega)]
    rw [(forUp_update (fun i : Nat => i)
      (fun i (b : Buf) => b i + b k * a (lda * i + k)) (k + 1) (i - (k + 1)) _).1 k
      (by intro j hj; omega)]
    rw [hb1 i, hb1 k, Equiv.swap_apply_left]
  · rw [(forUp_update (fun i : Nat => i)
      (fun i (b : Buf) => b i + b k * a (lda * i + k)) (k + 1) (n - (k + 1)) _).1 i
      (by intro j hj; omega), if_neg h, hb1 i]

/-- One backward step of `gesl_ref`, cell by cell. -/
theorem backStep_apply (a : Buf) (lda k : Nat) (β : Buf) (i : Nat) :
    backStep a lda k β i =
      if i = k then β k / a (lda * k + k)
      else if i < k then β i - β k / a (lda * k + k) * a (lda * i + k)
      else β i := by
  unfold backStep forRange
  by_cases h : i < k
  · have hi : 0 + i = i := Nat.zero_add i
    have key := (forUp_update (fun i : Nat => i)
      (fun i (b : Buf) => b i - b k * a (lda * i + k)) 0 (k - 0)
      (Function.update β k (β k / a (lda * k + k)))).2
      (by intro i j hij _; omega) i (by omega)
    simp only [hi] at key
    rw [key]
    rw [(forUp_update (fun i : Nat => i)
      (fun i (b : Buf) => b i - b k * a (lda * i + k)) 0 i _).1 i (by intro j hj; omega)]
    rw [(forUp_update (fun i : Nat => i)
      (fun i (b : Buf) => b i - b k * a (lda * i + k)) 0 i _).1 k (by intro j hj; omega)]
    have hik : i ≠ k := by omega
    simp [Function.update_apply, hik, h]
  · rw [(forUp_update (fun i : Nat => i)
      (fun i (b : Buf) => b i - b k * a (lda * i + k)) 0 (k - 0) _).1 i
      (by intro j hj; omega)]
    simp [Function.update_apply, h]

end Linpack

/-! ## Back substitution -/

/-- Back substitution on an upper triangular system with nonzero diagonal
returns the solution of that system. The step function is the one of the
code, given by its closed form. -/
theorem backSubst_correct (n : Nat) (U : Nat → Nat → ℚ) (step : Nat → Buf → Buf)
    (hstep : ∀ k β i, step k β i =
      if i = k then β k / U k k
      else if i < k then β i - β k / U k k * U i k
      else β i)
    (hd : ∀ k, k < n → U k k ≠ 0) (y x : Buf)
    (hx : ∀ r, r < n → ∑ c ∈ Finset.Ico r n, U r c * x c = y r) :
    ∀ c, c < n → forDown step n n y c = x c := by
  have inv : ∀ t, t ≤ n →
      (∀ j, n - t ≤ j → j < n → forDown step n t y j = x j) ∧
      (∀ i, i < n - t →
        forDown step n t y i = y i - ∑ c ∈ Finset.Ico (n - t) n, U i c * x c) := by
    intro t
    induction t with
    | zero =>
      intro _
      constructor
      · intro j h1 h2
        omega
      · intro i _
        simp [forDown]
    | succ t ih =>
      intro ht
      obtain ⟨ih1, ih2⟩ := ih (by omega)
      have hk : n - 1 - t < n := by omega
      have hkk : forDown step n t y (n - 1 - t) / U (n - 1 - t) (n - 1 - t) = x (n - 1 - t) := by
        rw [ih2 (n - 1 - t) (by omega), ← hx (n - 1 - t) hk,
          Finset.sum_eq_sum_Ico_succ_bot hk]
        have e : n - 1 - t + 1 = n - t := by omega
        rw [e]
        field_simp [hd _ hk]
      constructor
      · intro j h1 h2
        show step (n - 1 - t) (forDown step n t y) j = x j
        rw [hstep]
        by_cases hj : j = n - 1 - t
        · rw [if_pos hj, hj]
          exact hkk
        · rw [if_neg hj, if_neg (by omega)]
          exact ih1 j (by omega) h2
      · intro i hi
        show step (n - 1 - t) (forDown step n t y) i = _
        rw [hstep, if_neg (by omega), if_pos (by omega), hkk, ih2 i (by omega)]
        have e : n - (t + 1) = n - 1 - t := by omega
        rw [e, Finset.sum_eq_sum_Ico_succ_bot hk]
        have e2 : n - 1 - t + 1 = n - t := by omega
        rw [e2]
        ring
  intro c hc
  exact (inv n (le_refl n)).1 c (by omega) hc

/-- The rows of an upper triangular matrix only involve the columns from the
diagonal on. -/
theorem sum_upper (n : Nat) (M : Nat → Nat → ℚ) (x : Buf) (r : Nat) (hr : r < n)
    (htri : ∀ c, c < r → M r c = 0) :
    ∑ c ∈ Finset.range n, M r c * x c = ∑ c ∈ Finset.Ico r n, M r c * x c := by
  rw [Finset.range_eq_Ico, ← Finset.sum_Ico_consecutive _ (Nat.zero_le r) (le_of_lt hr)]
  rw [Finset.sum_eq_zero, zero_add]
  intro c hc
  rw [htri c (Finset.mem_Ico.mp hc).2, zero_mul]

namespace Linpack

/-- Forward elimination keeps the solutions: after `t` steps of `gefa_ref` on the
matrix and `t` forward steps of `gesl_ref` on the right-hand side, every
solution of the input system solves the reduced one. -/
theorem forward_invariant (a b : Buf) (n lda : Nat) (ipvt : Idx) (b_tmp x : Buf)
    (hn : n ≤ lda)
    (hx : ∀ r, r < n → ∑ c ∈ Finset.range n, a (r * lda + c) * x c = b r)
    (t : Nat) (ht : t ≤ n - 1) :
    ∀ r, r < n →
      ∑ c ∈ Finset.range n, active (gefaSteps a n lda ipvt t).1 lda t r c * x c =
        forUp (forwardStep (gefa_ref a n lda ipvt).1 (gefa_ref a n lda ipvt).2 n lda) 0 t
          (forRange 0 n (fun k (d : Buf) => Function.update d k (b k)) b_tmp) r := by
  induction t with
  | zero =>
    intro r hr
    rw [forUp_zero, copy_apply, if_pos hr, ← hx r hr]
    apply Finset.sum_congr rfl
    intro c _
    simp [active, gefaSteps_zero]
  | succ t ih =>
    have hk : t < n := by omega
    obtain ⟨-, hp2, -, -, -⟩ := pivotSearch_spec (gefaSteps a n lda ipvt t).1 n lda t hk
    have hip : (gefa_ref a n lda ipvt).2 t =
        (pivotSearch (gefaSteps a n lda ipvt t).1 n lda t).2 := by
      unfold gefa_ref
      rw [gefaSteps_ipvt, if_pos (by omega)]
    have hmul : ∀ r, (gefa_ref a n lda ipvt).1 (lda * r + t) =
        (gefaStep n lda t (gefaSteps a n lda ipvt t)).1 (r * lda + t) := by
      intro r
      unfold gefa_ref
      have e : n - 1 = t + 1 + (n - 1 - (t + 1)) := by omega
      rw [e, Nat.mul_comm lda r, gefaSteps_stable a n lda ipvt hn (t + 1) _ (by omega) r t
        (by omega) (Or.inr (Nat.lt_succ_self t)), gefaSteps_succ]
    rw [gefaSteps_succ]
    refine rowStep_solution n t _ hk hp2
      (fun r => (gefaStep n lda t (gefaSteps a n lda ipvt t)).1 (r * lda + t)) _ _ _ _ x
      (fun r c hr hc => gefaStep_active n lda t _ hn hk r c hr hc) ?_ (ih (by omega))
    intro r hr
    rw [forUp_succ, Nat.zero_add, forwardStep_apply, hip, hmul]
    by_cases h : t < r
    · rw [if_pos ⟨h, hr⟩, if_pos h]
      ring
    · rw [if_neg (by tauto), if_neg h]

/-- On a nonsingular matrix, `gefa_ref` followed by `gesl_ref` returns every
solution of the system (which is therefore the only one). -/
theorem gesl_ref_unique (a b : Buf) (n lda : Nat) (ipvt : Idx) (b_tmp x : Buf)
    (hn : n ≤ lda) (hA : (rowMajor a lda n).det ≠ 0)
    (hx : ∀ r, r < n → ∑ c ∈ Finset.range n, a (r * lda + c) * x c = b r) :
    ∀ c, c < n →
      gesl_ref (gefa_ref a n lda ipvt).1 b (gefa_ref a n lda ipvt).2 n lda b_tmp c = x c := by
  intro c hc
  unfold gesl_ref
  rw [copy_apply, if_pos hc]
  refine backSubst_correct n (fun r c => (gefa_ref a n lda ipvt).1 (lda * r + c)) _
    (fun k β i => backStep_apply _ lda k β i)
    (fun k hk => by
      show (gefa_ref a n lda ipvt).1 (lda * k + k) ≠ 0
      rw [Nat.mul_comm]
      exact gefa_ref_diag_ne_zero a n lda ipvt hn hA k hk) _ x ?_ c hc
  intro r hr
  have h := forward_invariant a b n lda ipvt b_tmp x hn hx (n - 1) (le_refl _) r hr
  rw [sum_upper n _ x r hr (by
    intro c hcr
    unfold active
    rw [if_pos ⟨by omega, hcr⟩])] at h
  rw [geslForward, forRange, Nat.sub_zero, ← h]
  apply Finset.sum_congr rfl
  intro c hc
  have hrc := (Finset.mem_Ico.mp hc).1
  unfold active gefa_ref
  rw [if_neg (by omega)]
  show (gefaSteps a n lda ipvt (n - 1)).1 (lda * r + c) * x c = _
  rw [Nat.mul_comm lda r]

end Linpack

/-! ## Claim C1: `gefa_ref` then `gesl_ref` solves the system -/

/-- A nonsingular system has a solution. -/
theorem exists_solution (a b : Buf) (n lda : Nat) (hA : (rowMajor a lda n).det ≠ 0) :
    ∃ x : Buf, ∀ r, r < n → ∑ c ∈ Finset.range n, a (r * lda + c) * x c = b r := by
  refine ⟨fun c => if h : c < n then
    ((rowMajor a lda n)⁻¹.mulVec (fun i : Fin n => b i.val)) ⟨c, h⟩ else 0, ?_⟩
  intro r hr
  have h1 : (rowMajor a lda n).mulVec
      ((rowMajor a lda n)⁻¹.mulVec (fun i : Fin n => b i.val)) = fun i : Fin n => b i.val := by
    rw [Matrix.mulVec_mulVec, Matrix.mul_nonsing_inv _ (isUnit_iff_ne_zero.mpr hA),
      Matrix.one_mulVec]
  have h2 : ∑ j : Fin n, rowMajor a lda n ⟨r, hr⟩ j *
      ((rowMajor a lda n)⁻¹.mulVec (fun i : Fin n => b i.val)) j = b r := congrFun h1 ⟨r, hr⟩
  rw [Finset.sum_range, ← h2]
  apply Finset.sum_congr rfl
  intro j _
  simp only [rowMajor, Matrix.of_apply, dif_pos j.isLt, Fin.eta, Nat.mul_comm]

namespace Linpack

/-- Claim C1. Over the rationals, for `n ≥ 1`, `lda ≥ n`, any right-hand side `b` and
any invertible `n × n` matrix `A[r][c] = a[lda*r+c]`: `gesl_ref`, run on the matrix
and pivot table returned by `gefa_ref`, overwrites `b` with an `x` such that
`A * x = b`; when `b = A * (1,...,1)` the result is the all-ones vector. -/
theorem gefa_ref_gesl_ref_solves (a b : Buf) (n lda : Nat) (ipvt : Idx) (b_tmp : Buf)
    (_hn1 : 1 ≤ n) (hn : n ≤ lda) (hA : (rowMajor a lda n).det ≠ 0) :
    (∀ r, r < n →
      ∑ c ∈ Finset.range n, a (lda * r + c) *
        gesl_ref (gefa_ref a n lda ipvt).1 b (gefa_ref a n lda ipvt).2 n lda b_tmp c = b r) ∧
    ((∀ r, r < n → b r = ∑ c ∈ Finset.range n, a (lda * r + c)) →
      ∀ c, c < n →
        gesl_ref (gefa_ref a n lda ipvt).1 b (gefa_ref a n lda ipvt).2 n lda b_tmp c = 1) := by
  constructor
  · intro r hr
    obtain ⟨x, hx⟩ := exists_solution a b n lda hA
    rw [← hx r hr]
    apply Finset.sum_congr rfl
    intro c hc
    rw [gesl_ref_unique a b n lda ipvt b_tmp x hn hA hx c (Finset.mem_range.mp hc),
      Nat.mul_comm]
  · intro hb c hc
    refine gesl_ref_unique a b n lda ipvt b_tmp ones hn hA ?_ c hc
    intro r hr
    rw [hb r hr]
    apply Finset.sum_congr rfl
    intro c _
    simp [ones, Nat.mul_comm]

/-- Claim C1 at the matrix `[[0, 1], [1, 1]]` with right-hand side `(1, 1)`. -/
theorem gefa_ref_gesl_ref_solves_witness :
    (rowMajor exSwap2 2 2).det ≠ 0 ∧
    ((∀ r, r < 2 →
      ∑ c ∈ Finset.range 2, exSwap2 (2 * r + c) *
        gesl_ref (gefa_ref exSwap2 2 2 (fun _ => 0)).1 ones (gefa_ref exSwap2 2 2 (fun _ => 0)).2 2 2 ones c
          = ones r) ∧
    ((∀ r, r < 2 → ones r = ∑ c ∈ Finset.range 2, exSwap2 (2 * r + c)) →
      ∀ c, c < 2 →
        gesl_ref (gefa_ref exSwap2 2 2 (fun _ => 0)).1 ones (gefa_ref exSwap2 2 2 (fun _ => 0)).2 2 2 ones c
          = 1)) :=
  have hdet : (rowMajor exSwap2 2 2).det ≠ 0 := by
    simp [rowMajor, Matrix.det_fin_two, exSwap2]
  ⟨hdet, gefa_ref_gesl_ref_solves exSwap2 ones 2 2 (fun _ => 0) ones (by decide) (by decide) hdet⟩

end Linpack

/-! ## Claims C4 and C5: the pivot table -/

namespace Linpack

/-- Claim C4. For `n ≥ 2` and every step `k < n - 1` of `gefa_ref`, the recorded
`ipvt[k]` is a row `p` in `[k, n)` whose entry in column `k` of the matrix at the
start of step `k` is largest in absolute value, and it is the smallest such row;
for `[[1e-20, 1], [1, 1]]` the recorded `ipvt[0]` is `1`. -/
theorem gefa_ref_pivot_choice (a : Buf) (n lda : Nat) (ipvt : Idx) (k : Nat)
    (hn2 : 2 ≤ n) (hk : k < n - 1) :
    (k ≤ (gefa_ref a n lda ipvt).2 k ∧ (gefa_ref a n lda ipvt).2 k < n ∧
      (∀ i, k ≤ i → i < n →
        |(gefaSteps a n lda ipvt k).1 (i * lda + k)| ≤
          |(gefaSteps a n lda ipvt k).1 ((gefa_ref a n lda ipvt).2 k * lda + k)|) ∧
      (∀ q, k ≤ q → q < n →
        (∀ i, k ≤ i → i < n →
          |(gefaSteps a n lda ipvt k).1 (i * lda + k)| ≤
            |(gefaSteps a n lda ipvt k).1 (q * lda + k)|) →
        (gefa_ref a n lda ipvt).2 k ≤ q)) ∧
    (gefa_ref exTiny2 2 2 ipvt).2 0 = 1 := by
  have hkn : k < n := by omega
  obtain ⟨h1, h2, -, h4, h5⟩ := pivotSearch_spec (gefaSteps a n lda ipvt k).1 n lda k hkn
  have hip : (gefa_ref a n lda ipvt).2 k =
      (pivotSearch (gefaSteps a n lda ipvt k).1 n lda k).2 := by
    unfold gefa_ref
    rw [gefaSteps_ipvt, if_pos hk]
  refine ⟨⟨hip ▸ h1, hip ▸ h2, ?_, ?_⟩, ?_⟩
  · rw [hip]
    exact h4
  · intro q hq1 hq2 hmax
    rw [hip]
    by_contra hlt
    have := h5 q hq1 (not_le.mp hlt)
    exact absurd (hmax _ h1 h2) (not_le.mpr this)
  · simp [gefa_ref, gefaSteps, forUp, gefaStep, pivotSearch, forRange, exTiny2]
    norm_num [abs_of_pos]

/-- Claim C4 at `[[0, 1], [1, 1]]`, step `0`. -/
theorem gefa_ref_pivot_choice_witness :
    (0 ≤ (gefa_ref exSwap2 2 2 (fun _ => 0)).2 0 ∧ (gefa_ref exSwap2 2 2 (fun _ => 0)).2 0 < 2 ∧
      (∀ i, 0 ≤ i → i < 2 →
        |(gefaSteps exSwap2 2 2 (fun _ => 0) 0).1 (i * 2 + 0)| ≤
          |(gefaSteps exSwap2 2 2 (fun _ => 0) 0).1
            ((gefa_ref exSwap2 2 2 (fun _ => 0)).2 0 * 2 + 0)|) ∧
      (∀ q, 0 ≤ q → q < 2 →
        (∀ i, 0 ≤ i → i < 2 →
          |(gefaSteps exSwap2 2 2 (fun _ => 0) 0).1 (i * 2 + 0)| ≤
            |(gefaSteps exSwap2 2 2 (fun _ => 0) 0).1 (q * 2 + 0)|) →
        (gefa_ref exSwap2 2 2 (fun _ => 0)).2 0 ≤ q)) ∧
    (gefa_ref exTiny2 2 2 (fun _ => 0)).2 0 = 1 :=
  gefa_ref_pivot_choice exSwap2 2 2 (fun _ => 0) 0 (by decide) (by decide)

/-- Claim C5. For `n ≥ 1` and every input, the pivot table written by `gefa_ref`
satisfies `k ≤ ipvt[k] < n` for every `k < n`, and `ipvt[n-1] = n-1`. -/
theorem gefa_ref_ipvt_range (a : Buf) (n lda : Nat) (ipvt : Idx) (hn1 : 1 ≤ n) :
    (∀ k, k < n → k ≤ (gefa_ref a n lda ipvt).2 k ∧ (gefa_ref a n lda ipvt).2 k < n) ∧
    (gefa_ref a n lda ipvt).2 (n - 1) = n - 1 := by
  constructor
  · intro k hk
    unfold gefa_ref
    rw [gefaSteps_ipvt]
    by_cases h : k < n - 1
    · rw [if_pos h]
      obtain ⟨h1, h2, -, -, -⟩ := pivotSearch_spec (gefaSteps a n lda ipvt k).1 n lda k hk
      exact ⟨h1, h2⟩
    · rw [if_neg h, if_pos hk]
      exact ⟨le_refl k, hk⟩
  · unfold gefa_ref
    rw [gefaSteps_ipvt, if_neg (lt_irrefl _), if_pos (by omega)]

/-- Claim C5 at `[[0, 1], [1, 1]]`. -/
theorem gefa_ref_ipvt_range_witness :
    (∀ k, k < 2 → k ≤ (gefa_ref exSwap2 2 2 (fun _ => 0)).2 k ∧
      (gefa_ref exSwap2 2 2 (fun _ => 0)).2 k < 2) ∧
    (gefa_ref exSwap2 2 2 (fun _ => 0)).2 (2 - 1) = 2 - 1 :=
  gefa_ref_ipvt_range exSwap2 2 2 (fun _ => 0) (by decide)

end Linpack

/-! ## The inner loops of `gefa_ref_nopivot` in closed form -/

namespace Common

/-- The multiplier loop of `gefa_ref_nopivot`, cell by cell. -/
theorem nopivot_scaleColumn_apply (n lda k : Nat) (a : Buf) (hn : n ≤ lda) (hk : k < n)
    (r c : Nat) (hc : c < lda) :
    scaleColumn n lda k a (r * lda + c) =
      if c = k ∧ k < r ∧ r < n then a (r * lda + k) * (1 / a (k * lda + k))
      else a (r * lda + c) := by
  have hkl : k < lda := lt_of_lt_of_le hk hn
  unfold scaleColumn forRange
  by_cases h : c = k ∧ k < r ∧ r < n
  · obtain ⟨rfl, h1, h2⟩ := h
    have hr : c + 1 + (r - (c + 1)) = r := by omega
    have key := (forUp_update (fun i => i * lda + c)
      (fun i (a : Buf) => a (i * lda + c) * (1 / a (c * lda + c))) (c + 1) (n - (c + 1)) a).2
      (by intro i j hij _; rw [Ne, cell_inj hkl hkl]; omega) (r - (c + 1)) (by omega)
    simp only [hr] at key
    rw [key]
    rw [(forUp_update (fun i => i * lda + c)
      (fun i (a : Buf) => a (i * lda + c) * (1 / a (c * lda + c))) (c + 1) (r - (c + 1)) a).1
      (r * lda + c) (by intro i hi; rw [Ne, cell_inj hkl hkl]; omega)]
    rw [(forUp_update (fun i => i * lda + c)
      (fun i (a : Buf) => a (i * lda + c) * (1 / a (c * lda + c))) (c + 1) (r - (c + 1)) a).1
      (c * lda + c) (by intro i hi; rw [Ne, cell_inj hkl hkl]; omega)]
    simp [h1, h2]
  · rw [(forUp_update (fun i => i * lda + k)
      (fun i (a : Buf) => a (i * lda + k) * (1 / a (k * lda + k))) (k + 1) (n - (k + 1)) a).1
      (r * lda + c) (by intro i hi; rw [Ne, cell_inj hc hkl]; omega)]
    simp [h]

/-- The inner loop of the trailing update (one column `j`), cell by cell. -/
theorem nopivot_updateColumn_apply (n lda k j : Nat) (a : Buf) (hn : n ≤ lda) (hk : k < j) (hj : j < n)
    (r c : Nat) (hc : c < lda) :
    forRange (k + 1) n
        (fun i (a : Buf) =>
          Function.update a (i * lda + j) (a (i * lda + j) - a (i * lda + k) * a (k * lda + j)))
        a (r * lda + c) =
      if c = j ∧ k < r ∧ r < n then a (r * lda + j) - a (r * lda + k) * a (k * lda + j)
      else a (r * lda + c) := by
  have hjl : j < lda := lt_of_lt_of_le hj hn
  have hkl : k < lda := by omega
  unfold forRange
  by_cases h : c = j ∧ k < r ∧ r < n
  · obtain ⟨rfl, h1, h2⟩ := h
    have hr : k + 1 + (r - (k + 1)) = r := by omega
    have key := (forUp_update (fun i => i * lda + c)
      (fun i (a : Buf) => a (i * lda + c) - a (i * lda + k) * a (k * lda + c))
      (k + 1) (n - (k + 1)) a).2
      (by intro i j hij _; rw [Ne, cell_inj hjl hjl]; omega) (r - (k + 1)) (by omega)
    simp only [hr] at key
    rw [key]
    rw [(forUp_update (fun i => i * lda + c)
      (fun i (a : Buf) => a (i * lda + c) - a (i * lda + k) * a (k * lda + c))
      (k + 1) (r - (k + 1)) a).1
      (r * lda + c) (by intro i hi; rw [Ne, cell_inj hjl hjl]; omega)]
    rw [(forUp_update (fun i => i * lda + c)
      (fun i (a : Buf) => a (i * lda + c) - a (i * lda + k) * a (k * lda + c))
      (k + 1) (r - (k + 1)) a).1
      (r * lda + k) (by intro i hi; rw [Ne, cell_inj hkl hjl]; omega)]
    rw [(forUp_update (fun i => i * lda + c)
      (fun i (a : Buf) => a (i * lda + c) - a (i * lda + k) * a (k * lda + c))
      (k + 1) (r - (k + 1)) a).1
      (k * lda + c) (by intro i hi; rw [Ne, cell_inj hjl hjl]; omega)]
    simp [h1, h2]
  · rw [(forUp_update (fun i => i * lda + j)
      (fun i (a : Buf) => a (i * lda + j) - a (i * lda + k) * a (k * lda + j))
      (k + 1) (n - (k + 1)) a).1
      (r * lda + c) (by intro i hi; rw [Ne, cell_inj hc hjl]; omega)]
    simp [h]

/-- The update of the trailing block in `gefa_ref_nopivot`, cell by cell. -/
theorem nopivot_updateTrailing_apply (n lda k : Nat) (a : Buf) (hn : n ≤ lda) (hk : k < n)
    (r c : Nat) (hc : c < lda) :
    updateTrailing n lda k a (r * lda + c) =
      if k < r ∧ r < n ∧ k < c ∧ c < n then a (r * lda + c) - a (r * lda + k) * a (k * lda + c)
      else a (r * lda + c) := by
  have hkl : k < lda := lt_of_lt_of_le hk hn
  have hframe : ∀ (j : Nat) (s : Buf) (x : Nat), ¬ (∃ i, x = i * lda + j) →
      (fun j (a : Buf) =>
        forUp
          (fun i (a : Buf) =>
            Function.update a (i * lda + j)
              (a (i * lda + j) - a (i * lda + k) * a (k * lda + j))) (k + 1) (n - (k + 1)) a)
        j s x = s x := by
    intro j s x hx
    exact (forUp_update (fun i => i * lda + j)
      (fun i (a : Buf) => a (i * lda + j) - a (i * lda + k) * a (k * lda + j))
      (k + 1) (n - (k + 1)) s).1 x (fun i _ hxi => hx ⟨_, hxi⟩)
  unfold updateTrailing forRange
  by_cases h : k < c ∧ c < n
  · have hcset : k + 1 + (c - (k + 1)) = c := by omega
    rw [forUp_written _ (fun j x => ∃ i, x = i * lda + j) (k + 1) hframe (n - (k + 1)) a
      (c - (k + 1)) (by omega) (r * lda + c)
      (by
        rintro j hj1 hj2 ⟨i, hi⟩
        have hjl : k + 1 + j < lda := by omega
        rw [cell_inj hc hjl] at hi
        omega)]
    simp only [hcset]
    have hpre : ∀ r', forUp (fun j (a : Buf) =>
        forUp (fun i (a : Buf) =>
          Function.update a (i * lda + j)
            (a (i * lda + j) - a (i * lda + k) * a (k * lda + j))) (k + 1) (n - (k + 1)) a)
        (k + 1) (c - (k + 1)) a (r' * lda + c) = a (r' * lda + c) ∧
        forUp (fun j (a : Buf) =>
        forUp (fun i (a : Buf) =>
          Function.update a (i * lda + j)
            (a (i * lda + j) - a (i * lda + k) * a (k * lda + j))) (k + 1) (n - (k + 1)) a)
        (k + 1) (c - (k + 1)) a (r' * lda + k) = a (r' * lda + k) := by
      intro r'
      constructor
      · apply forUp_frame _ (fun j x => ∃ i, x = i * lda + j) (k + 1) hframe
        rintro j hj ⟨i, hi⟩
        have hjl : k + 1 + j < lda := by omega
        rw [cell_inj hc hjl] at hi
        omega
      · apply forUp_frame _ (fun j x => ∃ i, x = i * lda + j) (k + 1) hframe
        rintro j hj ⟨i, hi⟩
        have hjl : k + 1 + j < lda := by omega
        rw [cell_inj hkl hjl] at hi
        omega
    have e := nopivot_updateColumn_apply n lda k c
      (forUp (fun j (a : Buf) =>
        forUp (fun i (a : Buf) =>
          Function.update a (i * lda + j)
            (a (i * lda + j) - a (i * lda + k) * a (k * lda + j))) (k + 1) (n - (k + 1)) a)
        (k + 1) (c - (k + 1)) a) hn h.1 h.2 r c hc
    unfold forRange at e
    rw [e, (hpre r).1, (hpre r).2, (hpre k).1]
    by_cases hr : k < r ∧ r < n
    · simp [h, hr]
    · have : ¬ (k < r ∧ r < n ∧ k < c ∧ c < n) := by tauto
      simp [hr, this]
  · rw [forUp_frame _ (fun j x => ∃ i, x = i * lda + j) (k + 1) hframe]
    · have : ¬ (k < r ∧ r < n ∧ k < c ∧ c < n) := by tauto
      simp [this]
    · rintro j hj ⟨i, hi⟩
      have hjl : k + 1 + j < lda := by omega
      rw [cell_inj hc hjl] at hi
      omega

end Common

/-! ## The outer loop of `gefa_ref_nopivot` -/

/-- An upper triangular matrix with nonzero diagonal is nonsingular. -/
theorem det_ne_zero_of_diag (n : Nat) (M : Nat → Nat → ℚ)
    (htri : ∀ r c, r < n → c < r → M r c = 0) (hd : ∀ k, k < n → M k k ≠ 0) :
    (Matrix.of fun (i j : Fin n) => M i.val j.val).det ≠ 0 := by
  rw [Matrix.det_of_upperTriangular]
  · exact Finset.prod_ne_zero_iff.mpr (fun i _ => hd i.val i.isLt)
  · intro i j hij
    exact htri i.val j.val i.isLt hij

namespace Common

theorem nopivot_gefaSteps_zero (a : Buf) (n lda : Nat) : gefaSteps a n lda 0 = a := rfl

theorem nopivot_gefaSteps_succ (a : Buf) (n lda t : Nat) :
    gefaSteps a n lda (t + 1) = gefaStep n lda t (gefaSteps a n lda t) := by
  unfold gefaSteps
  rw [forUp_succ, Nat.zero_add]

/-- One outer iteration of `gefa_ref_nopivot`, cell by cell. -/
theorem nopivot_gefaStep_apply (n lda k : Nat) (a : Buf) (hn : n ≤ lda) (hk : k < n)
    (r c : Nat) (hc : c < lda) :
    gefaStep n lda k a (r * lda + c) =
      if k < r ∧ r < n ∧ k ≤ c ∧ c < n then
        (if c = k then a (r * lda + k) * (1 / a (k * lda + k))
        else a (r * lda + c) - a (r * lda + k) * (1 / a (k * lda + k)) * a (k * lda + c))
      else a (r * lda + c) := by
  have hkl : k < lda := lt_of_lt_of_le hk hn
  unfold gefaStep
  rw [nopivot_updateTrailing_apply _ _ _ _ hn hk r c hc, nopivot_scaleColumn_apply _ _ _ _ hn hk r c hc,
    nopivot_scaleColumn_apply _ _ _ _ hn hk r k hkl, nopivot_scaleColumn_apply _ _ _ _ hn hk k c hc]
  by_cases h1 : k < r ∧ r < n
  · rcases Nat.lt_trichotomy c k with h | h | h
    · have e1 : ¬ (k < r ∧ r < n ∧ k < c ∧ c < n) := by omega
      have e2 : ¬ (c = k ∧ k < r ∧ r < n) := by omega
      have e3 : ¬ (k < r ∧ r < n ∧ k ≤ c ∧ c < n) := by omega
      rw [if_neg e1, if_neg e2, if_neg e3]
    · subst h
      have e1 : ¬ (c < r ∧ r < n ∧ c < c ∧ c < n) := by omega
      have e2 : c = c ∧ c < r ∧ r < n := by omega
      have e3 : c < r ∧ r < n ∧ c ≤ c ∧ c < n := by omega
      rw [if_neg e1, if_pos e2, if_pos e3, if_pos rfl]
    · by_cases h2 : c < n
      · have e1 : k < r ∧ r < n ∧ k < c ∧ c < n := by omega
        have e2 : ¬ (c = k ∧ k < r ∧ r < n) := by omega
        have e3 : k < r ∧ r < n ∧ k ≤ c ∧ c < n := by omega
        have e4 : k = k ∧ k < r ∧ r < n := by omega
        have e5 : ¬ (c = k ∧ k < k ∧ k < n) := by omega
        have e6 : ¬ c = k := by omega
        rw [if_pos e1, if_neg e2, if_pos e3, if_pos e4, if_neg e5, if_neg e6]
      · have e1 : ¬ (k < r ∧ r < n ∧ k < c ∧ c < n) := by omega
        have e2 : ¬ (c = k ∧ k < r ∧ r < n) := by omega
        have e3 : ¬ (k < r ∧ r < n ∧ k ≤ c ∧ c < n) := by omega
        rw [if_neg e1, if_neg e2, if_neg e3]
  · have e1 : ¬ (k < r ∧ r < n ∧ k < c ∧ c < n) := by tauto
    have e2 : ¬ (c = k ∧ k < r ∧ r < n) := by tauto
    have e3 : ¬ (k < r ∧ r < n ∧ k ≤ c ∧ c < n) := by tauto
    rw [if_neg e1, if_neg e2, if_neg e3]

/-- Step `k` leaves rows `0 .. k` and the columns left of `k` alone. -/
theorem nopivot_gefaStep_stable (n lda k : Nat) (a : Buf) (hn : n ≤ lda) (hk : k < n)
    (r c : Nat) (hc : c < lda) (hrc : r ≤ k ∨ c < k) :
    gefaStep n lda k a (r * lda + c) = a (r * lda + c) := by
  rw [nopivot_gefaStep_apply n lda k a hn hk r c hc, if_neg (by omega)]

/-- What the first `t` steps have stored in the rows above `t` and in the columns
left of `t` is final, and so is row `t` itself. -/
theorem nopivot_gefaSteps_stable (a : Buf) (n lda : Nat) (hn : n ≤ lda) (t d : Nat)
    (htd : t + d ≤ n - 1) (r c : Nat) (hc : c < lda) (hrc : r ≤ t ∨ c < t) :
    gefaSteps a n lda (t + d) (r * lda + c) = gefaSteps a n lda t (r * lda + c) := by
  induction d with
  | zero => rfl
  | succ d ih =>
    rw [← Nat.add_assoc, nopivot_gefaSteps_succ,
      nopivot_gefaStep_stable n lda (t + d) _ hn (by omega) r c hc (by omega)]
    exact ih (by omega)

/-- One outer iteration of `gefa_ref_nopivot` on the active matrix, when the
pivot is nonzero: the stored multiplier times row `k` is subtracted from every
row below `k`. -/
theorem nopivot_gefaStep_active (n lda k : Nat) (a : Buf) (hn : n ≤ lda) (hk : k < n)
    (hpiv : a (k * lda + k) ≠ 0) (r c : Nat) (hr : r < n) (hc : c < n) :
    active (gefaStep n lda k a) lda (k + 1) r c =
      if k < r then
        active a lda k (Equiv.swap k k r) c +
          (-(gefaStep n lda k a (r * lda + k))) * active a lda k k c
      else active a lda k (Equiv.swap k k r) c := by
  have hcl : c < lda := lt_of_lt_of_le hc hn
  have hkl : k < lda := lt_of_lt_of_le hk hn
  rw [Equiv.swap_self, Equiv.refl_apply, nopivot_gefaStep_apply n lda k a hn hk r k hkl]
  unfold active
  rw [nopivot_gefaStep_apply n lda k a hn hk r c hcl]
  by_cases hkr : k < r
  · rcases Nat.lt_trichotomy c k with h | h | h
    · have e1 : c < k + 1 ∧ c < r := by omega
      have e2 : c < k ∧ c < r := by omega
      have e3 : c < k ∧ c < k := by omega
      simp [hkr, e1, e2, e3]
    · subst h
      have e1 : c < c + 1 ∧ c < r := by omega
      have e2 : ¬ (c < c ∧ c < r) := by omega
      have e3 : ¬ (c < c ∧ c < c) := by omega
      have e4 : c < r ∧ r < n ∧ c ≤ c ∧ c < n := by omega
      rw [if_pos hkr, if_pos e1, if_neg e2, if_neg e3, if_pos e4, if_pos rfl]
      field_simp
    · have e1 : ¬ (c < k + 1 ∧ c < r) := by omega
      have e2 : ¬ (c < k ∧ c < r) := by omega
      have e3 : ¬ (c < k ∧ c < k) := by omega
      have e4 : k < r ∧ r < n ∧ k ≤ c ∧ c < n := by omega
      have e5 : k < r ∧ r < n ∧ k ≤ k ∧ k < n := by omega
      have e6 : ¬ c = k := by omega
      rw [if_pos hkr, if_neg e1, if_neg e2, if_neg e3, if_pos e4, if_pos e5, if_pos rfl,
        if_neg e6]
      ring
  · have e4 : ¬ (k < r ∧ r < n ∧ k ≤ c ∧ c < n) := by omega
    rw [if_neg hkr, if_neg e4]
    by_cases hcr : c < r
    · have e1 : c < k + 1 ∧ c < r := by omega
      have e2 : c < k ∧ c < r := by omega
      rw [if_pos e1, if_pos e2]
    · have e1 : ¬ (c < k + 1 ∧ c < r) := by omega
      have e2 : ¬ (c < k ∧ c < r) := by omega
      rw [if_neg e1, if_neg e2]

/-- When every pivot met is nonzero, the input matrix is nonsingular. -/
theorem det_ne_zero_of_pivots (a : Buf) (n lda : Nat) (hn : n ≤ lda)
    (hpiv : ∀ k, k < n → gefaSteps a n lda k (k * lda + k) ≠ 0) :
    (rowMajor a lda n).det ≠ 0 := by
  have chain : ∀ t, t ≤ n - 1 →
      ((Matrix.of fun (i j : Fin n) => active (gefaSteps a n lda t) lda t i.val j.val).det ≠ 0 ↔
        (rowMajor a lda n).det ≠ 0) := by
    intro t
    induction t with
    | zero =>
      intro _
      rw [nopivot_gefaSteps_zero, active_zero]
    | succ t ih =>
      intro ht
      have hk : t < n := by omega
      rw [← ih (by omega), nopivot_gefaSteps_succ]
      exact rowStep_det_iff n t t hk hk
        (fun r => -(gefaStep n lda t (gefaSteps a n lda t) (r * lda + t))) _ _
        (fun r c hr hc => nopivot_gefaStep_active n lda t _ hn hk (hpiv t hk) r c hr hc)
  rw [← chain (n - 1) (le_refl _)]
  apply det_ne_zero_of_diag
  · intro r c hr hcr
    unfold active
    rw [if_pos ⟨by omega, hcr⟩]
  · intro k hk
    unfold active
    rw [if_neg (by omega)]
    have e : n - 1 = k + (n - 1 - k) := by omega
    rw [e, nopivot_gefaSteps_stable a n lda hn k _ (by omega) k k (by omega) (Or.inl (le_refl k))]
    exact hpiv k hk

end Common

/-! ## Claim C2: `gefa_ref_nopivot` then `gesl_ref_nopivot` solves the system -/

namespace Common

/-- One forward step of `gesl_ref_nopivot`, cell by cell. -/
theorem nopivot_forwardStep_apply (a : Buf) (n lda k : Nat) (β : Buf) (i : Nat) :
    forwardStep a n lda k β i =
      if k < i ∧ i < n then β i - β k * a (lda * i + k) else β i := by
  unfold forwardStep forRange
  by_cases h : k < i ∧ i < n
  · have hi : k + 1 + (i - (k + 1)) = i := by omega
    have key := (forUp_update (fun i : Nat => i)
      (fun i (b : Buf) => b i - b k * a (lda * i + k)) (k + 1) (n - (k + 1)) β).2
      (by intro i j hij _; omega) (i - (k + 1)) (by omega)
    simp only [hi] at key
    rw [key, if_pos h]
    rw [(forUp_update (fun i : Nat => i)
      (fun i (b : Buf) => b i - b k * a (lda * i + k)) (k + 1) (i - (k + 1)) _).1 i
      (by intro j hj; omega)]
    rw [(forUp_update (fun i : Nat => i)
      (fun i (b : Buf) => b i - b k * a (lda * i + k)) (k + 1) (i - (k + 1)) _).1 k
      (by intro j hj; omega)]
  · rw [(forUp_update (fun i : Nat => i)
      (fun i (b : Buf) => b i - b k * a (lda * i + k)) (k + 1) (n - (k + 1)) _).1 i
      (by intro j hj; omega), if_neg h]

/-- One backward step of `gesl_ref_nopivot`, cell by cell. -/
theorem nopivot_backStep_apply (a : Buf) (lda k : Nat) (β : Buf) (i : Nat) :
    backStep a lda k β i =
      if i = k then β k / a (lda * k + k)
      else if i < k then β i - β k / a (lda * k + k) * a (lda * i + k)
      else β i := by
  unfold backStep forRange
  by_cases h : i < k
  · have hi : 0 + i = i := Nat.zero_add i
    have key := (forUp_update (fun i : Nat => i)
      (fun i (b : Buf) =>
        b i + -(Function.update β k (β k / a (lda * k + k)) k) * a (lda * i + k)) 0 (k - 0)
      (Function.update β k (β k / a (lda * k + k)))).2
      (by intro i j hij _; omega) i (by omega)
    simp only [hi] at key
    rw [key]
    rw [(forUp_update (fun i : Nat => i)
      (fun i (b : Buf) =>
        b i + -(Function.update β k (β k / a (lda * k + k)) k) * a (lda * i + k)) 0 i _).1 i
      (by intro j hj; omega)]
    have hik : i ≠ k := by omega
    simp only [Function.update_apply, hik, if_false, if_true, h]
    ring
  · rw [(forUp_update (fun i : Nat => i)
      (fun i (b : Buf) =>
        b i + -(Function.update β k (β k / a (lda * k + k)) k) * a (lda * i + k)) 0 (k - 0) _).1 i
      (by intro j hj; omega)]
    simp [Function.update_apply, h]

/-- Forward elimination keeps the solutions (no pivoting, nonzero pivots). -/
theorem nopivot_forward_invariant (a b : Buf) (n lda : Nat) (x : Buf) (hn : n ≤ lda)
    (hpiv : ∀ k, k < n → gefaSteps a n lda k (k * lda + k) ≠ 0)
    (hx : ∀ r, r < n → ∑ c ∈ Finset.range n, a (r * lda + c) * x c = b r)
    (t : Nat) (ht : t ≤ n - 1) :
    ∀ r, r < n →
      ∑ c ∈ Finset.range n, active (gefaSteps a n lda t) lda t r c * x c =
        forUp (forwardStep (gefa_ref_nopivot a n lda) n lda) 0 t b r := by
  induction t with
  | zero =>
    intro r hr
    rw [forUp_zero, ← hx r hr]
    apply Finset.sum_congr rfl
    intro c _
    simp [active, nopivot_gefaSteps_zero]
  | succ t ih =>
    have hk : t < n := by omega
    have hmul : ∀ r, gefa_ref_nopivot a n lda (lda * r + t) =
        gefaStep n lda t (gefaSteps a n lda t) (r * lda + t) := by
      intro r
      unfold gefa_ref_nopivot
      have e : n - 1 = t + 1 + (n - 1 - (t + 1)) := by omega
      rw [e, Nat.mul_comm lda r, nopivot_gefaSteps_stable a n lda hn (t + 1) _ (by omega) r t
        (by omega) (Or.inr (Nat.lt_succ_self t)), nopivot_gefaSteps_succ]
    rw [nopivot_gefaSteps_succ]
    refine rowStep_solution n t t hk hk
      (fun r => -(gefaStep n lda t (gefaSteps a n lda t) (r * lda + t))) _ _ _ _ x
      (fun r c hr hc => nopivot_gefaStep_active n lda t _ hn hk (hpiv t hk) r c hr hc) ?_
      (ih (by omega))
    intro r hr
    rw [forUp_succ, Nat.zero_add, nopivot_forwardStep_apply, hmul, Equiv.swap_self, Equiv.refl_apply]
    by_cases h : t < r
    · rw [if_pos ⟨h, hr⟩, if_pos h]
      ring
    · rw [if_neg (by tauto), if_neg h]

/-- With nonzero pivots, `gefa_ref_nopivot` followed by `gesl_ref_nopivot` returns
every solution of the system. -/
theorem gesl_ref_nopivot_unique (a b : Buf) (n lda : Nat) (x : Buf) (hn : n ≤ lda)
    (hpiv : ∀ k, k < n → gefaSteps a n lda k (k * lda + k) ≠ 0)
    (hx : ∀ r, r < n → ∑ c ∈ Finset.range n, a (r * lda + c) * x c = b r) :
    ∀ c, c < n → gesl_ref_nopivot (gefa_ref_nopivot a n lda) b n lda c = x c := by
  intro c hc
  unfold gesl_ref_nopivot
  refine backSubst_correct n (fun r c => gefa_ref_nopivot a n lda (lda * r + c)) _
    (fun k β i => nopivot_backStep_apply _ lda k β i)
    (fun k hk => by
      show gefa_ref_nopivot a n lda (lda * k + k) ≠ 0
      unfold gefa_ref_nopivot
      have e : n - 1 = k + (n - 1 - k) := by omega
      rw [e, Nat.mul_comm, nopivot_gefaSteps_stable a n lda hn k _ (by omega) k k (by omega)
        (Or.inl (le_refl k))]
      exact hpiv k hk) _ x ?_ c hc
  intro r hr
  have h := nopivot_forward_invariant a b n lda x hn hpiv hx (n - 1) (le_refl _) r hr
  rw [sum_upper n _ x r hr (by
    intro c hcr
    unfold active
    rw [if_pos ⟨by omega, hcr⟩])] at h
  rw [forRange, Nat.sub_zero, ← h]
  apply Finset.sum_congr rfl
  intro c hc
  have hrc := (Finset.mem_Ico.mp hc).1
  unfold active gefa_ref_nopivot
  rw [if_neg (by omega)]
  show gefaSteps a n lda (n - 1) (lda * r + c) * x c = _
  rw [Nat.mul_comm lda r]

/-- Claim C2. Over the rationals, for `n ≥ 1`, `lda ≥ n`, any `b` and any matrix
`A[r][c] = a[lda*r+c]` for which the diagonal pivot `a[k][k]` met by
`gefa_ref_nopivot` at each step `k = 0 .. n-1` (after the preceding elimination
steps) is nonzero: `gesl_ref_nopivot`, run on the output of `gefa_ref_nopivot`,
overwrites `b` with an `x` such that `A * x = b`. -/
theorem gefa_gesl_nopivot_solves (a b : Buf) (n lda : Nat) (_hn1 : 1 ≤ n) (hn : n ≤ lda)
    (hpiv : ∀ k, k < n → gefaSteps a n lda k (k * lda + k) ≠ 0) :
    ∀ r, r < n →
      ∑ c ∈ Finset.range n, a (lda * r + c) *
        gesl_ref_nopivot (gefa_ref_nopivot a n lda) b n lda c = b r := by
  intro r hr
  obtain ⟨x, hx⟩ := exists_solution a b n lda (det_ne_zero_of_pivots a n lda hn hpiv)
  rw [← hx r hr]
  apply Finset.sum_congr rfl
  intro c hc
  rw [gesl_ref_nopivot_unique a b n lda x hn hpiv hx c (Finset.mem_range.mp hc), Nat.mul_comm]

/-- The pivots met by `gefa_ref_nopivot` on `[[1, 1], [1, 2]]` are `1` and `1`. -/
theorem exPlain2_pivots : ∀ k, k < 2 → gefaSteps exPlain2 2 2 k (k * 2 + k) ≠ 0 := by
  intro k hk
  have h : k = 0 ∨ k = 1 := by omega
  rcases h with rfl | rfl
  · simp [nopivot_gefaSteps_zero, exPlain2]
  · rw [nopivot_gefaSteps_succ, nopivot_gefaStep_apply 2 2 0 _ (le_refl 2) (by decide) 1 1 (by decide)]
    norm_num [nopivot_gefaSteps_zero, exPlain2]

/-- Claim C2 at the matrix `[[1, 1], [1, 2]]` with right-hand side `(1, 1)`. -/
theorem gefa_gesl_nopivot_solves_witness :
    (∀ k, k < 2 → gefaSteps exPlain2 2 2 k (k * 2 + k) ≠ 0) ∧
    (∀ r, r < 2 →
      ∑ c ∈ Finset.range 2, exPlain2 (2 * r + c) *
        gesl_ref_nopivot (gefa_ref_nopivot exPlain2 2 2) ones 2 2 c = ones r) :=
  ⟨exPlain2_pivots,
    gefa_gesl_nopivot_solves exPlain2 ones 2 2 (by decide) (by decide) exPlain2_pivots⟩

end Common

/-! ## Row operations and the triangular factors -/

/-- One elimination step keeps the factorization `B = L * M`: when rows `k` and
`p` of `M` are exchanged and `m r` times the new row `k` is added to each row
`r > k`, the product is kept by exchanging rows `k` and `p` of `B` and of the
columns of `L` already filled, and writing `-m` into column `k` of `L`. -/
theorem lu_step (n k p : Nat) (hk : k < n) (hp : p < n) (hkp : k ≤ p) (m : Nat → ℚ)
    (B L M B' L' M' : Nat → Nat → ℚ)
    (hM : ∀ r c, r < n → c < n →
      M' r c = if k < r then M (Equiv.swap k p r) c + m r * M p c else M (Equiv.swap k p r) c)
    (hB : ∀ r c, r < n → c < n → B' r c = B (Equiv.swap k p r) c)
    (hLid : ∀ r j, r < n → j < n → k ≤ j → L r j = if r = j then 1 else 0)
    (hL : ∀ r j, r < n → j < n →
      L' r j =
        if j < k then L (Equiv.swap k p r) j
        else if j = k then (if k < r then -m r else if r = k then 1 else 0)
        else (if r = j then 1 else 0))
    (h : ∀ r c, r < n → c < n → B r c = ∑ j ∈ Finset.range n, L r j * M j c) :
    ∀ r c, r < n → c < n → B' r c = ∑ j ∈ Finset.range n, L' r j * M' j c := by
  intro r c hr hc
  have hsr : Equiv.swap k p r < n := swap_lt hk hp hr
  have hlow : ∀ j, j < k → Equiv.swap k p j = j := by
    intro j hj
    rw [Equiv.swap_apply_def]
    split_ifs <;> omega
  have hge : k ≤ r → k ≤ Equiv.swap k p r := by
    intro h1
    rw [Equiv.swap_apply_def]
    split_ifs <;> omega
  have hlt : r < k → Equiv.swap k p r = r := hlow r
  -- the left-hand side, split into the filled columns and the identity part
  have e1 : ∑ j ∈ Finset.range n, L (Equiv.swap k p r) j * M j c =
      ∑ j ∈ Finset.range n, (if j < k then L (Equiv.swap k p r) j * M j c else 0) +
        (if k ≤ r then M (Equiv.swap k p r) c else 0) := by
    have : ∀ j ∈ Finset.range n, L (Equiv.swap k p r) j * M j c =
        (if j < k then L (Equiv.swap k p r) j * M j c else 0) +
          (if j = Equiv.swap k p r then (if k ≤ r then M (Equiv.swap k p r) c else 0)
            else 0) := by
      intro j hj
      have hjn := Finset.mem_range.mp hj
      by_cases hjk : j < k
      · rw [if_pos hjk]
        by_cases hjs : j = Equiv.swap k p r
        · have hrk : ¬ k ≤ r := fun h1 => by have := hge h1; omega
          rw [if_pos hjs, if_neg hrk, add_zero]
        · rw [if_neg hjs, add_zero]
      · rw [if_neg hjk, zero_add, hLid _ j hsr hjn (by omega)]
        by_cases hjs : j = Equiv.swap k p r
        · have hrk : k ≤ r := by
            by_contra h1
            have := hlt (by omega)
            omega
          rw [if_pos hjs.symm, if_pos hjs, if_pos hrk, one_mul, hjs]
        · rw [if_neg (fun h1 => hjs h1.symm), if_neg hjs, zero_mul]
    rw [Finset.sum_congr rfl this, Finset.sum_add_distrib, Finset.sum_ite_eq']
    rw [if_pos (Finset.mem_range.mpr hsr)]
  -- the right-hand side, split in the same way
  have e2 : ∑ j ∈ Finset.range n, L' r j * M' j c =
      ∑ j ∈ Finset.range n, (if j < k then L (Equiv.swap k p r) j * M j c else 0) +
        (if k < r then -m r else if r = k then 1 else 0) * M p c +
        (if k < r then M (Equiv.swap k p r) c + m r * M p c else 0) := by
    have : ∀ j ∈ Finset.range n, L' r j * M' j c =
        (if j < k then L (Equiv.swap k p r) j * M j c else 0) +
          (if j = k then (if k < r then -m r else if r = k then 1 else 0) * M p c else 0) +
          (if j = r then (if k < r then M (Equiv.swap k p r) c + m r * M p c else 0)
            else 0) := by
      intro j hj
      have hjn := Finset.mem_range.mp hj
      rw [hL r j hr hjn, hM j c hjn hc]
      rcases Nat.lt_trichotomy j k with hjk | hjk | hjk
      · have h1 : ¬ k < j := by omega
        have h2 : ¬ j = k := by omega
        rw [if_pos hjk, if_neg h1, hlow j hjk, if_pos hjk, if_neg h2, add_zero]
        by_cases hjr : j = r
        · have h3 : ¬ k < r := by omega
          rw [if_pos hjr, if_neg h3, add_zero]
        · rw [if_neg hjr, add_zero]
      · subst hjk
        simp only [lt_irrefl, if_false, if_true, Equiv.swap_apply_left, zero_add]
        by_cases hjr : j = r
        · have h3 : ¬ j < r := by omega
          rw [if_pos hjr, if_neg h3, if_neg h3, add_zero]
        · rw [if_neg hjr, add_zero]
      · have h1 : ¬ j < k := by omega
        have h2 : ¬ j = k := by omega
        rw [if_neg h1, if_neg h2, if_neg h1, if_neg h2, if_pos hjk, zero_add, zero_add]
        by_cases hjr : j = r
        · subst hjr
          rw [if_pos rfl, if_pos rfl, if_pos hjk, one_mul]
        · rw [if_neg (fun h3 => hjr h3.symm), if_neg hjr, zero_mul]
    rw [Finset.sum_congr rfl this, Finset.sum_add_distrib, Finset.sum_add_distrib,
      Finset.sum_ite_eq', Finset.sum_ite_eq']
    rw [if_pos (Finset.mem_range.mpr hk), if_pos (Finset.mem_range.mpr hr)]
  rw [hB r c hr hc, h _ c hsr hc, e1, e2]
  rcases Nat.lt_trichotomy r k with hrk | hrk | hrk
  · have h1 : ¬ k ≤ r := by omega
    have h2 : ¬ k < r := by omega
    have h3 : ¬ r = k := by omega
    rw [if_neg h1, if_neg h2, if_neg h2, if_neg h3]
    ring
  · subst hrk
    have h2 : ¬ r < r := lt_irrefl r
    rw [if_pos (le_refl r), if_neg h2, if_neg h2, if_pos rfl, Equiv.swap_apply_left]
    ring
  · have h1 : k ≤ r := by omega
    rw [if_pos h1, if_pos hrk, if_pos hrk]
    ring

/-! ## Claim C6: the factors left by `gefa_ref_nopivot` -/

namespace Common

/-- The factorization kept by the steps of `gefa_ref_nopivot`. -/
theorem nopivot_lu_invariant (a : Buf) (n lda : Nat) (hn : n ≤ lda)
    (hpiv : ∀ k, k < n - 1 → gefaSteps a n lda k (k * lda + k) ≠ 0)
    (t : Nat) (ht : t ≤ n - 1) :
    ∀ r c, r < n → c < n →
      a (r * lda + c) =
        ∑ j ∈ Finset.range n,
          (if j < t ∧ j < r then gefaSteps a n lda t (r * lda + j)
            else if r = j then 1 else 0) *
          active (gefaSteps a n lda t) lda t j c := by
  induction t with
  | zero =>
    intro r c hr _
    simp only [Nat.not_lt_zero, false_and, if_false, ite_mul, one_mul, zero_mul,
      Finset.sum_ite_eq, Finset.mem_range, hr, if_true, nopivot_gefaSteps_zero, active]
  | succ t ih =>
    have hk : t < n := by omega
    refine lu_step n t t hk hk (le_refl t)
      (fun r => -(gefaStep n lda t (gefaSteps a n lda t) (r * lda + t)))
      (fun r c => a (r * lda + c)) _ _ (fun r c => a (r * lda + c)) _ _
      (fun r c hr hc => by
        rw [nopivot_gefaSteps_succ]
        exact nopivot_gefaStep_active n lda t _ hn hk (hpiv t (by omega)) r c hr hc)
      (fun r c _ _ => by rw [Equiv.swap_self, Equiv.refl_apply])
      (fun r j _ _ hj => by
        have e1 : ¬ (j < t ∧ j < r) := by omega
        rw [if_neg e1])
      ?_ (ih (by omega))
    intro r j hr hj
    rw [Equiv.swap_self, Equiv.refl_apply, nopivot_gefaSteps_succ, neg_neg]
    rcases Nat.lt_trichotomy j t with h | h | h
    · rw [if_pos h, nopivot_gefaStep_stable n lda t _ hn hk r j (by omega) (Or.inr h)]
      by_cases hjr : j < r
      · have e1 : j < t + 1 ∧ j < r := ⟨by omega, hjr⟩
        have e2 : j < t ∧ j < r := ⟨h, hjr⟩
        rw [if_pos e1, if_pos e2]
      · have e1 : ¬ (j < t + 1 ∧ j < r) := fun h' => hjr h'.2
        have e2 : ¬ (j < t ∧ j < r) := fun h' => hjr h'.2
        rw [if_neg e1, if_neg e2]
    · subst h
      have e0 : ¬ j < j := lt_irrefl j
      rw [if_neg e0, if_pos rfl]
      by_cases hjr : j < r
      · have e1 : j < j + 1 ∧ j < r := ⟨by omega, hjr⟩
        rw [if_pos e1, if_pos hjr]
      · have e1 : ¬ (j < j + 1 ∧ j < r) := fun h' => hjr h'.2
        rw [if_neg e1, if_neg hjr]
    · have e1 : ¬ (j < t + 1 ∧ j < r) := by omega
      have e2 : ¬ j < t := by omega
      have e3 : ¬ j = t := by omega
      rw [if_neg e1, if_neg e2, if_neg e3]

/-- Claim C6. Over the rationals, for `n ≥ 1`, `lda ≥ n` and a matrix `A` whose
pivots met by `gefa_ref_nopivot` (steps `k = 0 .. n-2`) are all nonzero: with `a'`
the matrix after `gefa_ref_nopivot`, `L` unit lower triangular with
`L[i][k] = a'[i][k]` for `i > k` and `U` the upper triangle of `a'` including the
diagonal, `L * U = A`. -/
theorem gefa_ref_nopivot_lu (a : Buf) (n lda : Nat) (hn1 : 1 ≤ n) (hn : n ≤ lda)
    (hpiv : ∀ k, k < n - 1 → gefaSteps a n lda k (k * lda + k) ≠ 0) :
    ∀ r c, r < n → c < n →
      ∑ j ∈ Finset.range n,
        lowerUnit (gefa_ref_nopivot a n lda) lda r j *
          upper (gefa_ref_nopivot a n lda) lda j c = a (lda * r + c) := by
  intro r c hr hc
  rw [Nat.mul_comm lda r, nopivot_lu_invariant a n lda hn hpiv (n - 1) (le_refl _) r c hr hc]
  apply Finset.sum_congr rfl
  intro j hj
  have hjn := Finset.mem_range.mp hj
  unfold lowerUnit upper active gefa_ref_nopivot
  congr 1
  · by_cases h : j < r
    · have e1 : j < n - 1 ∧ j < r := ⟨by omega, h⟩
      rw [if_pos h, if_pos e1]
    · have e1 : ¬ (j < n - 1 ∧ j < r) := fun h' => h h'.2
      rw [if_neg h, if_neg e1]
  · by_cases h : j ≤ c
    · have e1 : ¬ (c < n - 1 ∧ c < j) := by omega
      rw [if_pos h, if_neg e1]
    · have e1 : c < n - 1 ∧ c < j := by omega
      rw [if_neg h, if_pos e1]

/-- Claim C6 at the matrix `[[1, 1], [1, 2]]`. -/
theorem gefa_ref_nopivot_lu_witness :
    (∀ k, k < 2 - 1 → gefaSteps exPlain2 2 2 k (k * 2 + k) ≠ 0) ∧
    (∀ r c, r < 2 → c < 2 →
      ∑ j ∈ Finset.range 2,
        lowerUnit (gefa_ref_nopivot exPlain2 2 2) 2 r j *
          upper (gefa_ref_nopivot exPlain2 2 2) 2 j c = exPlain2 (2 * r + c)) :=
  ⟨fun k hk => exPlain2_pivots k (by omega),
    gefa_ref_nopivot_lu exPlain2 2 2 (by decide) (by decide)
      (fun k hk => exPlain2_pivots k (by omega))⟩

end Common

/-! ## Claim C7: the factors left by `gefa_ref` -/

theorem permuteRows_succ (ipvt : Idx) (t : Nat) (A : Nat → Nat → ℚ) (r c : Nat) :
    permuteRows ipvt (t + 1) A r c = permuteRows ipvt t A (Equiv.swap t (ipvt t) r) c := by
  unfold permuteRows
  rw [forUp_succ, Nat.zero_add]

theorem lowerPermuted_succ (a : Buf) (ipvt : Idx) (lda t r j : Nat) :
    lowerPermuted a ipvt lda (t + 1) r j =
      if j < t then lowerPermuted a ipvt lda t (Equiv.swap t (ipvt t) r) j
      else if j = t ∧ t < r then -a (r * lda + t)
      else lowerPermuted a ipvt lda t r j := by
  unfold lowerPermuted
  rw [forUp_succ, Nat.zero_add]

/-- The columns not yet filled after `t` steps are those of the identity. -/
theorem lowerPermuted_id (a : Buf) (ipvt : Idx) (lda t r j : Nat) (hj : t ≤ j) :
    lowerPermuted a ipvt lda t r j = if r = j then 1 else 0 := by
  induction t generalizing r with
  | zero => rfl
  | succ t ih =>
    have e1 : ¬ j < t := by omega
    have e2 : ¬ (j = t ∧ t < r) := by omega
    rw [lowerPermuted_succ, if_neg e1, if_neg e2]
    exact ih r (by omega)

namespace Linpack

/-- The factorization kept by the steps of `gefa_ref`: the row-exchanged input is
the product of the lower factor, with the exchanges carried through, and the
active matrix. -/
theorem lu_invariant (a : Buf) (n lda : Nat) (ipvt : Idx) (hn : n ≤ lda)
    (t : Nat) (ht : t ≤ n - 1) :
    ∀ r c, r < n → c < n →
      permuteRows (gefa_ref a n lda ipvt).2 t (fun r c => a (r * lda + c)) r c =
        ∑ j ∈ Finset.range n,
          lowerPermuted (gefa_ref a n lda ipvt).1 (gefa_ref a n lda ipvt).2 lda t r j *
            active (gefaSteps a n lda ipvt t).1 lda t j c := by
  induction t with
  | zero =>
    intro r c hr _
    simp only [permuteRows, lowerPermuted, forUp_zero, ite_mul, one_mul, zero_mul,
      Finset.sum_ite_eq, Finset.mem_range, hr, if_true, gefaSteps_zero, active,
      Nat.not_lt_zero, false_and, if_false]
  | succ t ih =>
    have hk : t < n := by omega
    obtain ⟨hp1, hp2, -, -, -⟩ := pivotSearch_spec (gefaSteps a n lda ipvt t).1 n lda t hk
    have hip : (gefa_ref a n lda ipvt).2 t =
        (pivotSearch (gefaSteps a n lda ipvt t).1 n lda t).2 := by
      unfold gefa_ref
      rw [gefaSteps_ipvt, if_pos (by omega)]
    have hmul : ∀ r, (gefa_ref a n lda ipvt).1 (r * lda + t) =
        (gefaStep n lda t (gefaSteps a n lda ipvt t)).1 (r * lda + t) := by
      intro r
      unfold gefa_ref
      have e : n - 1 = t + 1 + (n - 1 - (t + 1)) := by omega
      rw [e, gefaSteps_stable a n lda ipvt hn (t + 1) _ (by omega) r t
        (by omega) (Or.inr (Nat.lt_succ_self t)), gefaSteps_succ]
    refine lu_step n t _ hk hp2 hp1
      (fun r => (gefaStep n lda t (gefaSteps a n lda ipvt t)).1 (r * lda + t))
      _ _ _ _ _ _
      (fun r c hr hc => by
        rw [gefaSteps_succ]
        exact gefaStep_active n lda t _ hn hk r c hr hc)
      (fun r c _ _ => by rw [permuteRows_succ, hip])
      (fun r j _ _ hj => lowerPermuted_id _ _ lda t r j hj)
      ?_ (ih (by omega))
    intro r j _ _
    rw [lowerPermuted_succ, hip, hmul]
    rcases Nat.lt_trichotomy j t with h | h | h
    · rw [if_pos h, if_pos h]
    · subst h
      have e0 : ¬ j < j := lt_irrefl j
      rw [if_neg e0, if_neg e0, if_pos rfl]
      by_cases hjr : j < r
      · have e1 : j = j ∧ j < r := ⟨rfl, hjr⟩
        rw [if_pos e1, if_pos hjr]
      · have e1 : ¬ (j = j ∧ j < r) := fun h' => hjr h'.2
        rw [if_neg e1, if_neg hjr, lowerPermuted_id _ _ lda j r j (le_refl j)]
    · have e1 : ¬ j < t := by omega
      have e2 : ¬ (j = t ∧ t < r) := by omega
      have e3 : ¬ j = t := by omega
      rw [if_neg e1, if_neg e2, if_neg e1, if_neg e3,
        lowerPermuted_id _ _ lda t r j (by omega)]

/-- Claim C7, amended. Over the rationals, for `n ≥ 1`, `lda ≥ n` and an invertible
`A`: with `a'` and `ipvt` the output of `gefa_ref`, `U` the upper triangle of `a'`
including the diagonal, `P * A` the matrix `A` after the row exchanges
`k <-> ipvt[k]`, `k = 0 .. n-2`, in order, and `L` the unit lower triangular matrix
whose column `k` holds the negated stored multipliers of `a'` after the later
exchanges `j <-> ipvt[j]`, `j = k+1 .. n-2`, have been applied to its rows:
`P * A = L * U`. -/
theorem gefa_ref_plu (a : Buf) (n lda : Nat) (ipvt : Idx) (_hn1 : 1 ≤ n) (hn : n ≤ lda)
    (_hA : (rowMajor a lda n).det ≠ 0) :
    ∀ r c, r < n → c < n →
      permuteRows (gefa_ref a n lda ipvt).2 (n - 1) (fun r c => a (lda * r + c)) r c =
        ∑ j ∈ Finset.range n,
          lowerPermuted (gefa_ref a n lda ipvt).1 (gefa_ref a n lda ipvt).2 lda (n - 1) r j *
            upper (gefa_ref a n lda ipvt).1 lda j c := by
  intro r c hr hc
  have e : (fun r c => a (lda * r + c)) = (fun r c => a (r * lda + c)) := by
    funext r c
    rw [Nat.mul_comm]
  rw [e, lu_invariant a n lda ipvt hn (n - 1) (le_refl _) r c hr hc]
  apply Finset.sum_congr rfl
  intro j hj
  have hjn := Finset.mem_range.mp hj
  congr 1
  unfold upper active gefa_ref
  by_cases h : j ≤ c
  · have e1 : ¬ (c < n - 1 ∧ c < j) := by omega
    rw [if_pos h, if_neg e1]
  · have e1 : c < n - 1 ∧ c < j := by omega
    rw [if_neg h, if_pos e1]

/-- Claim C7, amended, at the matrix `[[0, 1], [1, 1]]`. -/
theorem gefa_ref_plu_witness :
    (rowMajor exSwap2 2 2).det ≠ 0 ∧
    (∀ r c, r < 2 → c < 2 →
      permuteRows (gefa_ref exSwap2 2 2 (fun _ => 0)).2 (2 - 1)
          (fun r c => exSwap2 (2 * r + c)) r c =
        ∑ j ∈ Finset.range 2,
          lowerPermuted (gefa_ref exSwap2 2 2 (fun _ => 0)).1
              (gefa_ref exSwap2 2 2 (fun _ => 0)).2 2 (2 - 1) r j *
            upper (gefa_ref exSwap2 2 2 (fun _ => 0)).1 2 j c) :=
  have hdet : (rowMajor exSwap2 2 2).det ≠ 0 := by
    simp [rowMajor, Matrix.det_fin_two, exSwap2]
  ⟨hdet, gefa_ref_plu exSwap2 2 2 (fun _ => 0) (by decide) (by decide) hdet⟩

end Linpack

namespace Linpack

/-- On `[[4, 0, 0], [2, 1, 1], [1, 2, 1]]` the first pivot is row `0`. -/
theorem exLate3_pivot0 : (pivotSearch exLate3 3 3 0).2 = 0 := by
  simp [pivotSearch, forRange, forUp, exLate3]
  norm_num [abs_of_pos]

/-- The matrix after the first step of `gefa_ref` on
`[[4, 0, 0], [2, 1, 1], [1, 2, 1]]`. -/
theorem exLate3_step1 (ipvt : Idx) :
    (gefaSteps exLate3 3 3 ipvt 1).1 (0 * 3 + 0) = 4 ∧
    (gefaSteps exLate3 3 3 ipvt 1).1 (1 * 3 + 0) = -1 / 2 ∧
    (gefaSteps exLate3 3 3 ipvt 1).1 (1 * 3 + 1) = 1 ∧
    (gefaSteps exLate3 3 3 ipvt 1).1 (2 * 3 + 1) = 2 := by
  rw [gefaSteps_succ, gefaSteps_zero]
  refine ⟨?_, ?_, ?_, ?_⟩
  · rw [gefaStep_apply 3 3 0 _ (le_refl 3) (by decide) 0 0 (by decide)]
    simp [exLate3_pivot0, exLate3]
  · rw [gefaStep_apply 3 3 0 _ (le_refl 3) (by decide) 1 0 (by decide)]
    simp [exLate3_pivot0, exLate3]
    norm_num
  · rw [gefaStep_apply 3 3 0 _ (le_refl 3) (by decide) 1 1 (by decide)]
    simp [exLate3_pivot0, exLate3]
  · rw [gefaStep_apply 3 3 0 _ (le_refl 3) (by decide) 2 1 (by decide)]
    simp [exLate3_pivot0, exLate3]

/-- Claim C7 as stated fails: for the invertible matrix
`[[4, 0, 0], [2, 1, 1], [1, 2, 1]]`, `gefa_ref` exchanges rows `1` and `2` at step
`1` but leaves the multipliers of column `0` where step `0` stored them, so with
`L[i][k] = -a'[i][k]` the entry `(1, 0)` of `L * U` is `2` while that of `P * A`
is `1`. -/
theorem gefa_ref_plu_stored_fails :
    (rowMajor exLate3 3 3).det ≠ 0 ∧
    ¬ (∀ r c, r < 3 → c < 3 →
      permuteRows (gefa_ref exLate3 3 3 (fun _ => 0)).2 (3 - 1)
          (fun r c => exLate3 (3 * r + c)) r c =
        ∑ j ∈ Finset.range 3,
          lowerUnitNeg (gefa_ref exLate3 3 3 (fun _ => 0)).1 3 r j *
            upper (gefa_ref exLate3 3 3 (fun _ => 0)).1 3 j c) := by
  constructor
  · simp [rowMajor, Matrix.det_fin_three, exLate3]
    norm_num
  · intro h
    have h10 := h 1 0 (by decide) (by decide)
    obtain ⟨s00, s10, s11, s21⟩ := exLate3_step1 (fun _ => 0)
    have hip0 : (gefa_ref exLate3 3 3 (fun _ => 0)).2 0 = 0 := by
      unfold gefa_ref
      rw [gefaSteps_ipvt, if_pos (by decide), gefaSteps_zero]
      exact exLate3_pivot0
    have hip1 : (gefa_ref exLate3 3 3 (fun _ => 0)).2 1 = 2 := by
      unfold gefa_ref
      rw [gefaSteps_ipvt, if_pos (by decide)]
      simp only [pivotSearch, forRange, forUp]
      norm_num at s11 s21 ⊢
      rw [s11, s21]
      norm_num
    have ha0 : (gefa_ref exLate3 3 3 (fun _ => 0)).1 (0 * 3 + 0) = 4 := by
      unfold gefa_ref
      rw [show 3 - 1 = 1 + 1 from rfl,
        gefaSteps_stable exLate3 3 3 _ (le_refl 3) 1 1 (by decide) 0 0 (by decide)
          (Or.inl (by decide))]
      exact s00
    have ha3 : (gefa_ref exLate3 3 3 (fun _ => 0)).1 (1 * 3 + 0) = -1 / 2 := by
      unfold gefa_ref
      rw [show 3 - 1 = 1 + 1 from rfl,
        gefaSteps_stable exLate3 3 3 _ (le_refl 3) 1 1 (by decide) 1 0 (by decide)
          (Or.inr (by decide))]
      exact s10
    rw [show 3 - 1 = 1 + 1 from rfl, permuteRows_succ, permuteRows_succ, hip1, hip0] at h10
    simp only [permuteRows, forUp_zero, Equiv.swap_self, Equiv.refl_apply,
      Equiv.swap_apply_left, Finset.sum_range_succ, Finset.sum_range_zero,
      lowerUnitNeg, upper] at h10
    norm_num [ha0, ha3, exLate3] at h10

end Linpack

/-! ## Claim C3: the right-hand side built by `matgen` -/

/-- A loop adding `term i` to one cell. -/
theorem accum_apply (cell : Nat) (term : Nat → ℚ) (t : Nat) (y : Buf) :
    forUp (fun i (y : Buf) => Function.update y cell (y cell + term i)) 0 t y =
      Function.update y cell (y cell + ∑ i ∈ Finset.range t, term i) := by
  induction t with
  | zero => simp [forUp]
  | succ t ih =>
    rw [forUp_succ, ih, Nat.zero_add, Finset.sum_range_succ]
    simp only [Function.update_same, Function.update_idem, add_assoc]

/-- Two nested loops adding `term i j`, for all `j`, to cell `i`. -/
theorem accumRows_apply (term : Nat → Nat → ℚ) (n1 n2 : Nat) (y : Buf) (i : Nat) :
    forRange 0 n1
        (fun i (y : Buf) =>
          forRange 0 n2 (fun j (y : Buf) => Function.update y i (y i + term i j)) y) y i =
      if i < n1 then y i + ∑ j ∈ Finset.range n2, term i j else y i := by
  have hbody : ∀ (i : Nat) (s : Buf),
      forRange 0 n2 (fun j (y : Buf) => Function.update y i (y i + term i j)) s =
        Function.update s i (s i + ∑ j ∈ Finset.range n2, term i j) := by
    intro i s
    rw [forRange, Nat.sub_zero, accum_apply]
  rw [forRange, Nat.sub_zero]
  simp only [hbody]
  by_cases h : i < n1
  · have key := (forUp_update (fun i : Nat => i)
      (fun i (s : Buf) => s i + ∑ j ∈ Finset.range n2, term i j) 0 n1 y).2
      (by intro i j hij _; omega) i h
    simp only [Nat.zero_add] at key
    rw [key, if_pos h,
      (forUp_update (fun i : Nat => i)
        (fun i (s : Buf) => s i + ∑ j ∈ Finset.range n2, term i j) 0 i y).1 i
        (by intro j hj; omega)]
  · rw [(forUp_update (fun i : Nat => i)
      (fun i (s : Buf) => s i + ∑ j ∈ Finset.range n2, term i j) 0 n1 y).1 i
      (by intro j hj; omega), if_neg h]

/-- The right-hand side loops of `matgen`: `b[j]` is the sum of row `j`. -/
theorem matgenRhs_apply (a : Buf) (lda n : Nat) (b : Buf) (j : Nat) :
    matgenRhs a lda n b j =
      if j < n then ∑ i ∈ Finset.range n, a (lda * j + i) else b j := by
  unfold matgenRhs
  rw [accumRows_apply (fun j i => a (lda * j + i)) n n _ j, copy_apply n (fun _ => 0) b j]
  by_cases h : j < n
  · simp [h]
  · simp [h]

/-- Claim C3. For `n ≥ 1` and `lda ≥ n`, both `matgen` implementations (the LCG one
and the seeded random one, whatever values `draw` the generator returns) return
`b` with `b[j] = Σ_{i<n} a[lda*j+i]` on the final matrix, that is `b = A*(1,...,1)`
for the row-major `A[j][i] = a[lda*j+i]`. -/
theorem matgen_rhs_row_sums (a b : Buf) (lda n : Nat) (draw : Nat → ℚ)
    (_hn1 : 1 ≤ n) (_hn : n ≤ lda) :
    (∀ j, j < n →
      (Common.matgen a lda n b).2.1 j =
        ∑ i ∈ Finset.range n, (Common.matgen a lda n b).1 (lda * j + i) * ones i) ∧
    (∀ j, j < n →
      (Linpack.matgen draw a lda n b).2.1 j =
        ∑ i ∈ Finset.range n, (Linpack.matgen draw a lda n b).1 (lda * j + i) * ones i) := by
  constructor
  · intro j hj
    simp only [Common.matgen, matgenRhs_apply, if_pos hj, ones, mul_one]
  · intro j hj
    simp only [Linpack.matgen, matgenRhs_apply, if_pos hj, ones, mul_one]

/-- Claim C3 at `n = lda = 2`. -/
theorem matgen_rhs_row_sums_witness :
    (∀ j, j < 2 →
      (Common.matgen ones 2 2 ones).2.1 j =
        ∑ i ∈ Finset.range 2, (Common.matgen ones 2 2 ones).1 (2 * j + i) * ones i) ∧
    (∀ j, j < 2 →
      (Linpack.matgen ones ones 2 2 ones).2.1 j =
        ∑ i ∈ Finset.range 2, (Linpack.matgen ones ones 2 2 ones).1 (2 * j + i) * ones i) :=
  matgen_rhs_row_sums ones ones 2 2 ones (by decide) (by decide)

/-! ## Claim C10: the residual computed by `checkLINPACKresults` (linpack) -/

/-- A loop negating cells `0 .. n-1`. -/
theorem negate_apply (n : Nat) (b : Buf) (i : Nat) :
    forRange 0 n (fun i (b : Buf) => Function.update b i (-b i)) b i =
      if i < n then -b i else b i := by
  unfold forRange
  by_cases h : i < n
  · have key := (forUp_update (fun i : Nat => i) (fun i (b : Buf) => -b i) 0 (n - 0) b).2
      (by intro i j hij _; omega) i (by omega)
    simp only [Nat.zero_add] at key
    rw [key, if_pos h,
      (forUp_update (fun i : Nat => i) (fun i (b : Buf) => -b i) 0 i b).1 i
        (by intro j hj; omega)]
  · rw [(forUp_update (fun i : Nat => i) (fun i (b : Buf) => -b i) 0 (n - 0) b).1 i
      (by intro j hj; omega), if_neg h]

/-- The loop copying `b_res` into both `x` and `b`. -/
theorem copyBoth_apply (n : Nat) (b_res x0 b0 : Buf) :
    forRange 0 n
        (fun i (s : Buf × Buf) =>
          (Function.update s.1 i (b_res i), Function.update s.2 i (b_res i))) (x0, b0) =
      (forRange 0 n (fun k (d : Buf) => Function.update d k (b_res k)) x0,
        forRange 0 n (fun k (d : Buf) => Function.update d k (b_res k)) b0) := by
  unfold forRange
  induction (n - 0) with
  | zero => rfl
  | succ t ih => rw [forUp_succ, ih, forUp_succ, forUp_succ]

/-- The running maxima of `residLoop` after `t` iterations are the largest of
`0` and the absolute values seen. -/
theorem maxLoop_spec (f g : Nat → ℚ) (t : Nat) :
    (∀ i, i < t →
      f i ≤ (forUp (fun i (s : ℚ × ℚ) =>
        (if s.1 > f i then s.1 else f i, if s.2 > g i then s.2 else g i)) 0 t (0, 0)).1) ∧
    (∀ i, i < t →
      g i ≤ (forUp (fun i (s : ℚ × ℚ) =>
        (if s.1 > f i then s.1 else f i, if s.2 > g i then s.2 else g i)) 0 t (0, 0)).2) ∧
    ((forUp (fun i (s : ℚ × ℚ) =>
        (if s.1 > f i then s.1 else f i, if s.2 > g i then s.2 else g i)) 0 t (0, 0)).1 = 0 ∨
      ∃ i, i < t ∧ (forUp (fun i (s : ℚ × ℚ) =>
        (if s.1 > f i then s.1 else f i, if s.2 > g i then s.2 else g i)) 0 t (0, 0)).1 = f i) ∧
    ((forUp (fun i (s : ℚ × ℚ) =>
        (if s.1 > f i then s.1 else f i, if s.2 > g i then s.2 else g i)) 0 t (0, 0)).2 = 0 ∨
      ∃ i, i < t ∧ (forUp (fun i (s : ℚ × ℚ) =>
        (if s.1 > f i then s.1 else f i, if s.2 > g i then s.2 else g i)) 0 t (0, 0)).2 = g i) := by
  induction t with
  | zero =>
    refine ⟨fun i hi => absurd hi (Nat.not_lt_zero i), fun i hi => absurd hi (Nat.not_lt_zero i),
      Or.inl rfl, Or.inl rfl⟩
  | succ t ih =>
    obtain ⟨h1, h2, h3, h4⟩ := ih
    rw [forUp_succ, Nat.zero_add]
    generalize forUp (fun i (s : ℚ × ℚ) =>
        (if s.1 > f i then s.1 else f i, if s.2 > g i then s.2 else g i)) 0 t (0, 0) = s
      at h1 h2 h3 h4 ⊢
    refine ⟨?_, ?_, ?_, ?_⟩
    · intro i hi
      show f i ≤ if s.1 > f t then s.1 else f t
      rcases Nat.lt_succ_iff_lt_or_eq.mp hi with h | h
      · split_ifs with hc
        · exact h1 i h
        · exact le_trans (h1 i h) (not_lt.mp hc)
      · subst h
        split_ifs with hc
        · exact le_of_lt hc
        · exact le_refl _
    · intro i hi
      show g i ≤ if s.2 > g t then s.2 else g t
      rcases Nat.lt_succ_iff_lt_or_eq.mp hi with h | h
      · split_ifs with hc
        · exact h2 i h
        · exact le_trans (h2 i h) (not_lt.mp hc)
      · subst h
        split_ifs with hc
        · exact le_of_lt hc
        · exact le_refl _
    · show (if s.1 > f t then s.1 else f t) = 0 ∨
        ∃ i, i < t + 1 ∧ (if s.1 > f t then s.1 else f t) = f i
      split_ifs with hc
      · rcases h3 with h | ⟨i, hi, h⟩
        · exact Or.inl h
        · exact Or.inr ⟨i, Nat.lt_succ_of_lt hi, h⟩
      · exact Or.inr ⟨t, Nat.lt_succ_self t, rfl⟩
    · show (if s.2 > g t then s.2 else g t) = 0 ∨
        ∃ i, i < t + 1 ∧ (if s.2 > g t then s.2 else g t) = g i
      split_ifs with hc
      · rcases h4 with h | ⟨i, hi, h⟩
        · exact Or.inl h
        · exact Or.inr ⟨i, Nat.lt_succ_of_lt hi, h⟩
      · exact Or.inr ⟨t, Nat.lt_succ_self t, rfl⟩

/-- The loop computing `resid` and `normx`: both are maxima of absolute values over
`0 .. n-1`, for `n ≥ 1`. -/
theorem residLoop_spec (n : Nat) (b x : Buf) (hn1 : 1 ≤ n) :
    (∀ i, i < n → |b i| ≤ (residLoop n b x).1) ∧
    (∃ i, i < n ∧ (residLoop n b x).1 = |b i|) ∧
    (∀ i, i < n → |x i| ≤ (residLoop n b x).2) ∧
    (∃ i, i < n ∧ (residLoop n b x).2 = |x i|) := by
  obtain ⟨h1, h2, h3, h4⟩ := maxLoop_spec (fun i => |b i|) (fun i => |x i|) n
  unfold residLoop forRange
  rw [Nat.sub_zero]
  refine ⟨h1, ?_, h2, ?_⟩
  · rcases h3 with h | h
    · refine ⟨0, hn1, ?_⟩
      have := h1 0 hn1
      rw [h] at this ⊢
      exact le_antisymm (abs_nonneg _) this
    · exact h
  · rcases h4 with h | h
    · refine ⟨0, hn1, ?_⟩
      have := h2 0 hn1
      rw [h] at this ⊢
      exact le_antisymm (abs_nonneg _) this
    · exact h

namespace Linpack

/-- The plain `dmxpy`, cell by cell. -/
theorem dmxpy_apply (n1 : Nat) (y : Buf) (n2 ldm : Nat) (x m : Buf) (i : Nat) :
    dmxpy n1 y n2 ldm x m i =
      if i < n1 then y i + ∑ j ∈ Finset.range n2, x j * m (ldm * i + j) else y i := by
  unfold dmxpy
  exact accumRows_apply (fun i j => x j * m (ldm * i + j)) n1 n2 y i

/-- The vector handed to the residual loop by `checkLINPACKresults`. -/
theorem checkLocals_eq (draw : Nat → ℚ) (b_res : Buf) (lda n : Nat) (a0 x0 b0 : Buf) :
    ∃ b2 x : Buf,
      checkLocals draw b_res lda n a0 x0 b0 =
        ((residLoop n b2 x).1, (residLoop n b2 x).2, (matgen draw a0 lda n b0).2.2) ∧
      (∀ i, i < n → x i = b_res i) ∧
      (∀ i, i < n → b2 i =
        ∑ j ∈ Finset.range n, (matgen draw a0 lda n b0).1 (lda * i + j) * b_res j -
          ∑ j ∈ Finset.range n, (matgen draw a0 lda n b0).1 (lda * i + j)) := by
  refine ⟨_, _, rfl, ?_, ?_⟩
  · intro i hi
    rw [copyBoth_apply]
    simp only [copy_apply, if_pos hi]
  · intro i hi
    rw [dmxpy_apply, if_pos hi, negate_apply, if_pos hi]
    simp only [matgen, matgenRhs_apply, if_pos hi, copyBoth_apply]
    rw [neg_add_eq_sub]
    congr 1
    apply Finset.sum_congr rfl
    intro j hj
    rw [copy_apply, if_pos (Finset.mem_range.mp hj), mul_comm]

/-- Claim C10. For `n ≥ 1`, `lda ≥ n`, every fill `draw` of the regenerated matrix
`A` and every input `x = b_res`, `checkLINPACKresults` of `linpack_functionality.cpp`
computes `resid = max_i |Σ_j A[i][j]*x[j] - b_gen[i]|` with `b_gen = A*(1,...,1)` and
`normx = max_i |x[i]|` (each maximum bounds all values and is attained), and returns
`resid / (n*norma*normx*eps)`; `resid = 0` when `x` is the all-ones vector. -/
theorem checkLINPACKresults_spec (draw : Nat → ℚ) (b_res : Buf) (lda n : Nat) (eps : ℚ)
    (a0 x0 b0 : Buf) (hn1 : 1 ≤ n) (_hn : n ≤ lda) :
    (∀ i, i < n →
      |∑ j ∈ Finset.range n, (matgen draw a0 lda n b0).1 (lda * i + j) * b_res j -
          ∑ j ∈ Finset.range n, (matgen draw a0 lda n b0).1 (lda * i + j)| ≤
        (checkLocals draw b_res lda n a0 x0 b0).1) ∧
    (∃ i, i < n ∧ (checkLocals draw b_res lda n a0 x0 b0).1 =
      |∑ j ∈ Finset.range n, (matgen draw a0 lda n b0).1 (lda * i + j) * b_res j -
          ∑ j ∈ Finset.range n, (matgen draw a0 lda n b0).1 (lda * i + j)|) ∧
    (∀ i, i < n → |b_res i| ≤ (checkLocals draw b_res lda n a0 x0 b0).2.1) ∧
    (∃ i, i < n ∧ (checkLocals draw b_res lda n a0 x0 b0).2.1 = |b_res i|) ∧
    checkLINPACKresults draw b_res lda n eps a0 x0 b0 =
      (checkLocals draw b_res lda n a0 x0 b0).1 /
        (n * (matgen draw a0 lda n b0).2.2 * (checkLocals draw b_res lda n a0 x0 b0).2.1 * eps) ∧
    ((∀ i, i < n → b_res i = 1) → (checkLocals draw b_res lda n a0 x0 b0).1 = 0) := by
  obtain ⟨b2, x, he, hx, hb⟩ := checkLocals_eq draw b_res lda n a0 x0 b0
  obtain ⟨h1, ⟨i2, hi2, h2⟩, h3, ⟨i4, hi4, h4⟩⟩ := residLoop_spec n b2 x hn1
  have hnorma : (checkLocals draw b_res lda n a0 x0 b0).2.2 = (matgen draw a0 lda n b0).2.2 := by
    rw [he]
  have hres : (checkLocals draw b_res lda n a0 x0 b0).1 = (residLoop n b2 x).1 := by rw [he]
  have hnx : (checkLocals draw b_res lda n a0 x0 b0).2.1 = (residLoop n b2 x).2 := by rw [he]
  refine ⟨?_, ?_, ?_, ?_, ?_, ?_⟩
  · intro i hi
    rw [hres, ← hb i hi]
    exact h1 i hi
  · exact ⟨i2, hi2, by rw [hres, h2, hb i2 hi2]⟩
  · intro i hi
    rw [hnx, ← hx i hi]
    exact h3 i hi
  · exact ⟨i4, hi4, by rw [hnx, h4, hx i4 hi4]⟩
  · unfold checkLINPACKresults
    rw [hnorma]
  · intro hones
    rw [hres, h2, hb i2 hi2]
    have : ∑ j ∈ Finset.range n, (matgen draw a0 lda n b0).1 (lda * i2 + j) * b_res j =
        ∑ j ∈ Finset.range n, (matgen draw a0 lda n b0).1 (lda * i2 + j) := by
      apply Finset.sum_congr rfl
      intro j hj
      rw [hones j (Finset.mem_range.mp hj), mul_one]
    rw [this, sub_self, abs_zero]

/-- Claim C10 at `n = lda = 2` with the all-ones input. -/
theorem checkLINPACKresults_spec_witness :
    (∀ i, i < 2 →
      |∑ j ∈ Finset.range 2, (matgen ones ones 2 2 ones).1 (2 * i + j) * ones j -
          ∑ j ∈ Finset.range 2, (matgen ones ones 2 2 ones).1 (2 * i + j)| ≤
        (checkLocals ones ones 2 2 ones ones ones).1) ∧
    (∃ i, i < 2 ∧ (checkLocals ones ones 2 2 ones ones ones).1 =
      |∑ j ∈ Finset.range 2, (matgen ones ones 2 2 ones).1 (2 * i + j) * ones j -
          ∑ j ∈ Finset.range 2, (matgen ones ones 2 2 ones).1 (2 * i + j)|) ∧
    (∀ i, i < 2 → |ones i| ≤ (checkLocals ones ones 2 2 ones ones ones).2.1) ∧
    (∃ i, i < 2 ∧ (checkLocals ones ones 2 2 ones ones ones).2.1 = |ones i|) ∧
    checkLINPACKresults ones ones 2 2 1 ones ones ones =
      (checkLocals ones ones 2 2 ones ones ones).1 /
        ((2 : Nat) * (matgen ones ones 2 2 ones).2.2 *
          (checkLocals ones ones 2 2 ones ones ones).2.1 * 1) ∧
    ((∀ i, i < 2 → ones i = 1) → (checkLocals ones ones 2 2 ones ones ones).1 = 0) :=
  checkLINPACKresults_spec ones ones 2 2 1 ones ones ones (by decide) (by decide)

end Linpack

/-! ## Claims C8 and C9: the unrolled `dmxpy` reads the matrix transposed -/

/-- A loop rewriting every cell `i < n` from its own value. -/
theorem mapLoop_apply (n : Nat) (f : Nat → ℚ → ℚ) (y : Buf) (i : Nat) :
    forRange 0 n (fun i (y : Buf) => Function.update y i (f i (y i))) y i =
      if i < n then f i (y i) else y i := by
  unfold forRange
  by_cases h : i < n
  · have key := (forUp_update (fun i : Nat => i) (fun i (y : Buf) => f i (y i)) 0 (n - 0) y).2
      (by intro i j hij _; omega) i (by omega)
    simp only [Nat.zero_add] at key
    rw [key, if_pos h,
      (forUp_update (fun i : Nat => i) (fun i (y : Buf) => f i (y i)) 0 i y).1 i
        (by intro j hj; omega)]
  · rw [(forUp_update (fun i : Nat => i) (fun i (y : Buf) => f i (y i)) 0 (n - 0) y).1 i
      (by intro j hj; omega), if_neg h]

namespace Common

/-- The unrolled `dmxpy` on two columns: one group of two. -/
theorem dmxpy_two (n1 : Nat) (y : Buf) (ldm : Nat) (x m : Buf) (i : Nat) (hi : i < n1) :
    dmxpy n1 y 2 ldm x m i = (y i + x 0 * m (ldm * 0 + i)) + x 1 * m (ldm * 1 + i) := by
  have h := mapLoop_apply n1 (fun i v => (v + term ldm x m i 0) + term ldm x m i 1) y i
  rw [if_pos hi] at h
  simp only [dmxpy, forStep, Nat.reduceMod, ge_iff_le, Nat.reduceLeDiff, if_false, if_true,
    Nat.reduceAdd, Nat.reduceSub, Nat.reduceLT, Nat.lt_irrefl, le_refl]
  exact h

/-- The unrolled `dmxpy` on seventeen columns: column `0` alone, then one group of
sixteen. -/
theorem dmxpy_seventeen (n1 : Nat) (y : Buf) (ldm : Nat) (x m : Buf) (i : Nat) (hi : i < n1) :
    dmxpy n1 y 17 ldm x m i =
      ((((((((((((((((y i + term ldm x m i 0)
        + term ldm x m i 1) + term ldm x m i 2) + term ldm x m i 3) + term ldm x m i 4)
        + term ldm x m i 5) + term ldm x m i 6) + term ldm x m i 7) + term ldm x m i 8)
        + term ldm x m i 9) + term ldm x m i 10) + term ldm x m i 11) + term ldm x m i 12)
        + term ldm x m i 13) + term ldm x m i 14) + term ldm x m i 15) + term ldm x m i 16 := by
  have h1 := mapLoop_apply n1 (fun i v => v + term ldm x m i 0) y i
  have h2 := mapLoop_apply n1 (fun i v =>
      ((((((((((((((((v + term ldm x m i 1) + term ldm x m i 2)
        + term ldm x m i 3) + term ldm x m i 4) + term ldm x m i 5) + term ldm x m i 6)
        + term ldm x m i 7) + term ldm x m i 8) + term ldm x m i 9) + term ldm x m i 10)
        + term ldm x m i 11) + term ldm x m i 12) + term ldm x m i 13) + term ldm x m i 14)
        + term ldm x m i 15) + term ldm x m i 16))
      (forRange 0 n1 (fun i (y : Buf) => Function.update y i (y i + term ldm x m i 0)) y) i
  rw [if_pos hi] at h1 h2
  rw [h1] at h2
  simp only [dmxpy, forStep, Nat.reduceMod, ge_iff_le, Nat.reduceLeDiff, if_false, if_true,
    Nat.reduceAdd, Nat.reduceSub, Nat.reduceLT, Nat.lt_irrefl, le_refl]
  exact h2

/-- Claim C8 fails on the code. On a `17 × 17` matrix whose only nonzero entry is
`m[1] = 1`, with `x` all ones and `y` zero, the plain `dmxpy` of
`linpack_functionality.cpp` returns `y[0] = 1` (it reads `m[ldm*i+j]`) and the
unrolled `dmxpy` of `common_functionality.cpp` returns `y[0] = 0` (it reads
`m[ldm*j+i]`); for `n1 = n2 = 1` the two agree. -/
theorem dmxpy_unrolled_vs_plain :
    Linpack.dmxpy 17 zeros 17 17 ones exCell1 0 = 1 ∧
    Common.dmxpy 17 zeros 17 17 ones exCell1 0 = 0 ∧
    (∀ (y x m : Buf) (ldm : Nat),
      Common.dmxpy 1 y 1 ldm x m 0 = Linpack.dmxpy 1 y 1 ldm x m 0) := by
  refine ⟨?_, ?_, ?_⟩
  · rw [Linpack.dmxpy_apply, if_pos (by decide)]
    simp [Finset.sum_range_succ, zeros, ones, exCell1]
  · rw [dmxpy_seventeen 17 _ 17 _ _ 0 (by decide)]
    simp [term, zeros, ones, exCell1]
  · intro y x m ldm
    have h := mapLoop_apply 1 (fun i v => v + term ldm x m i 0) y 0
    rw [if_pos (by decide)] at h
    rw [Linpack.dmxpy_apply, if_pos (by decide)]
    simp only [dmxpy, forStep, Nat.reduceMod, ge_iff_le, Nat.reduceLeDiff, if_false, if_true,
      Nat.reduceAdd, Nat.reduceSub, Nat.reduceLT, Nat.lt_irrefl, le_refl]
    rw [h]
    simp [term, Finset.sum_range_succ]

end Common

namespace Common

/-- The first four states of the generator of `matgen`. -/
theorem lcgNext_values :
    lcgNext 1325 = 11857 ∧ lcgNext 11857 = 25285 ∧ lcgNext 25285 = 44745 ∧
      lcgNext 44745 = 39837 := by
  decide

/-- The `2 × 2` matrix generated by `matgen` with `lda = 2`. -/
theorem matgenFill_two (a0 : Buf) :
    (matgenFill a0 2 2).2.1 0 = -20911 / 16384 ∧ (matgenFill a0 2 2).2.1 1 = -7483 / 16384 ∧
    (matgenFill a0 2 2).2.1 2 = 11977 / 16384 ∧ (matgenFill a0 2 2).2.1 3 = 7069 / 16384 := by
  obtain ⟨h1, h2, h3, h4⟩ := lcgNext_values
  refine ⟨?_, ?_, ?_, ?_⟩ <;>
    simp [matgenFill, matgenRow, forRange, forUp, Function.update_apply, h1, h2, h3, h4] <;>
    norm_num

/-- The vector whose largest absolute value is `resid`, for `n = lda = 2` and the
all-ones input: column sums minus row sums of the generated matrix. -/
theorem checkLocals_two (a0 x0 b0 : Buf) :
    ∃ b2 x : Buf,
      checkLocals ones 2 2 a0 x0 b0 =
        ((residLoop 2 b2 x).1, (residLoop 2 b2 x).2, (matgen a0 2 2 b0).2.2) ∧
      b2 0 = 4865 / 4096 ∧ b2 1 = -4865 / 4096 := by
  obtain ⟨e0, e1, e2, e3⟩ := matgenFill_two a0
  refine ⟨_, _, rfl, ?_, ?_⟩
  · rw [dmxpy_two 2 _ 2 _ _ 0 (by decide), negate_apply, if_pos (by decide), copyBoth_apply]
    simp only [matgen, matgenRhs_apply, copy_apply, Finset.sum_range_succ, Finset.sum_range_zero]
    norm_num [e0, e1, e2, e3, ones]
  · rw [dmxpy_two 2 _ 2 _ _ 1 (by decide), negate_apply, if_pos (by decide), copyBoth_apply]
    simp only [matgen, matgenRhs_apply, copy_apply, Finset.sum_range_succ, Finset.sum_range_zero]
    norm_num [e0, e1, e2, e3, ones]

/-- Claim C9 fails on the code. For `n = lda = 2` and the all-ones vector,
`checkLINPACKresults` of `common_functionality.cpp` computes `resid = 4865/4096`,
not `0`: `matgen` builds `b` from the row sums `Σ_i a[lda*j+i]` while the unrolled
`dmxpy` adds the column sums `Σ_j a[lda*j+i]`. -/
theorem checkLINPACKresults_ones_resid :
    (checkLocals ones 2 2 zeros zeros zeros).1 = 4865 / 4096 := by
  obtain ⟨b2, x, he, h0, h1⟩ := checkLocals_two zeros zeros zeros
  rw [he]
  simp only [residLoop, forRange, forUp, h0, h1]
  norm_num [abs_of_pos]

end Common

/-! ## The generator of the deterministic `matgen` -/

theorem lcgSeq_lt (t : Nat) : lcgSeq t < 65536 := by
  cases t with
  | zero => decide
  | succ t => exact Nat.mod_lt _ (by decide)

/-- On a state in `[0, 65536)` the 32-bit computation of `3125*init % 65536` is the
mathematical one. -/
theorem lcgNext_natCast (s : Nat) (hs : s < 65536) :
    Common.lcgNext (s : Int) = ((3125 * s % 65536 : Nat) : Int) := by
  have h1 : wrapInt32 (3125 * (s : Int)) = 3125 * (s : Int) := by
    unfold wrapInt32
    omega
  unfold Common.lcgNext
  rw [h1, Int.tmod_eq_emod (by omega) (by decide)]
  push_cast
  rfl

/-- The state of the code after `t` updates is the state `s_t` of the
specification. -/
theorem lcgState_eq (t : Nat) : lcgState t = (lcgSeq t : Int) := by
  induction t with
  | zero => rfl
  | succ t ih =>
    unfold lcgState at ih ⊢
    rw [Function.iterate_succ_apply', ih, lcgNext_natCast _ (lcgSeq_lt t)]
    rfl

theorem lcgState_add (t i : Nat) : Common.lcgNext^[i] (lcgState t) = lcgState (t + i) := by
  unfold lcgState
  rw [← Function.iterate_add_apply, Nat.add_comm]

/-! ## The fill loops of the deterministic `matgen` in closed form -/

/-- A loop zeroing the cells `lda*j+i` for `lo ≤ i < hi`. -/
theorem pad_apply (lda j lo hi : Nat) (a : Buf) :
    (∀ i, lo ≤ i → i < hi →
      forRange lo hi (fun i (a : Buf) => Function.update a (lda * j + i) 0) a (lda * j + i) = 0) ∧
    (∀ x, (∀ i, lo ≤ i → i < hi → x ≠ lda * j + i) →
      forRange lo hi (fun i (a : Buf) => Function.update a (lda * j + i) 0) a x = a x) := by
  unfold forRange
  constructor
  · intro i h1 h2
    have hi' : lo + (i - lo) = i := by omega
    have key := (forUp_update (fun i => lda * j + i) (fun _ (_ : Buf) => (0 : ℚ)) lo (hi - lo) a).2
      (by intro i j hij _; omega) (i - lo) (by omega)
    simp only [hi'] at key
    exact key
  · intro x hx
    exact (forUp_update (fun i => lda * j + i) (fun _ (_ : Buf) => (0 : ℚ)) lo (hi - lo) a).1 x
      (by intro i hi'; exact hx (lo + i) (by omega) (by omega))

/-- A loop writing `v i` to the cells `addr i`, `i < t` (distinct cells). -/
theorem write_apply (addr : Nat → Nat) (v : Nat → ℚ) (t : Nat) (a : Buf)
    (hinj : ∀ i j, i < j → j < t → addr i ≠ addr j) :
    (∀ i, i < t → forUp (fun i (a : Buf) => Function.update a (addr i) (v i)) 0 t a (addr i) = v i) ∧
    (∀ x, (∀ i, i < t → x ≠ addr i) →
      forUp (fun i (a : Buf) => Function.update a (addr i) (v i)) 0 t a x = a x) := by
  constructor
  · intro i hi
    have key := (forUp_update addr (fun i (_ : Buf) => v i) 0 t a).2
      (by intro i j hij hj; simp only [Nat.zero_add]; exact hinj i j hij hj) i hi
    simp only [Nat.zero_add] at key
    exact key
  · intro x hx
    exact (forUp_update addr (fun i (_ : Buf) => v i) 0 t a).1 x
      (by intro i hi; simp only [Nat.zero_add]; exact hx i hi)

namespace Common

/-- The inner loop of `matgen` (lines 137-141), component by component: the
generator state, the matrix and the running maximum. -/
theorem matgenInner_eq (lda j t : Nat) (init : Int) (a : Buf) (norma : ℚ) :
    forUp
        (fun i (s : Int × Buf × ℚ) =>
          let init := lcgNext s.1
          let a := Function.update s.2.1 (lda * j + i) (((init : ℚ) - 32768) / 16384)
          let norma := if a (lda * j + i) > s.2.2 then a (lda * j + i) else s.2.2
          (init, a, norma))
        0 t (init, a, norma) =
      (lcgNext^[t] init,
        forUp (fun i (a : Buf) => Function.update a (lda * j + i) (lcgEntry (lcgNext^[i + 1] init)))
          0 t a,
        forUp (fun i (m : ℚ) =>
          if lcgEntry (lcgNext^[i + 1] init) > m then lcgEntry (lcgNext^[i + 1] init) else m)
          0 t norma) := by
  induction t with
  | zero => rfl
  | succ t ih =>
    rw [forUp_succ, ih, forUp_succ, forUp_succ]
    simp only [Nat.zero_add, Function.update_same, Function.iterate_succ_apply', lcgEntry]

/-- One row of `matgen`, component by component. -/
theorem matgenRow_eq (lda n j : Nat) (init : Int) (a : Buf) (norma : ℚ) :
    matgenRow lda n j (init, a, norma) =
      (lcgNext^[n] init,
        forRange n lda (fun i (a : Buf) => Function.update a (lda * j + i) 0)
          (forUp (fun i (a : Buf) =>
            Function.update a (lda * j + i) (lcgEntry (lcgNext^[i + 1] init))) 0 n a),
        forUp (fun i (m : ℚ) =>
          if lcgEntry (lcgNext^[i + 1] init) > m then lcgEntry (lcgNext^[i + 1] init) else m)
          0 n norma) := by
  unfold matgenRow forRange
  simp only [Nat.sub_zero]
  rw [matgenInner_eq]

/-- The outer loop of `matgen`, component by component, after `t` rows. -/
theorem matgenRows_eq (lda n t : Nat) (a : Buf) :
    forUp (matgenRow lda n) 0 t (1325, a, 0) =
      (lcgState (t * n),
        forUp (fun j (a : Buf) =>
          forRange n lda (fun i (a : Buf) => Function.update a (lda * j + i) 0)
            (forUp (fun i (a : Buf) =>
              Function.update a (lda * j + i) (lcgEntry (lcgState (j * n + (i + 1))))) 0 n a))
          0 t a,
        forUp (fun j (m : ℚ) =>
          forUp (fun i (m : ℚ) =>
            if lcgEntry (lcgState (j * n + (i + 1))) > m then lcgEntry (lcgState (j * n + (i + 1)))
            else m) 0 n m)
          0 t 0) := by
  induction t with
  | zero =>
    simp only [forUp_zero, Nat.zero_mul]
    rfl
  | succ t ih =>
    rw [forUp_succ, ih, Nat.zero_add, matgenRow_eq, forUp_succ, forUp_succ, Nat.zero_add]
    simp only [lcgState_add, Nat.succ_mul]

/-- The matrix written by `matgen`, cell by cell: entry `(r, c)` with `c < n` comes
from generator state number `r*n + c + 1`, the padding of the rows `r < n` is
zero and the other cells keep their value. -/
theorem matgenFill_apply (a : Buf) (lda n : Nat) (hn : n ≤ lda) (r c : Nat) (hc : c < lda) :
    (matgenFill a lda n).2.1 (lda * r + c) =
      if r < n then (if c < n then lcgEntry (lcgState (r * n + (c + 1))) else 0)
      else a (lda * r + c) := by
  have hcell : ∀ {r c r' c' : Nat}, c < lda → c' < lda →
      (lda * r + c = lda * r' + c' ↔ r = r' ∧ c = c') := by
    intro r c r' c' h1 h2
    rw [Nat.mul_comm lda r, Nat.mul_comm lda r']
    exact cell_inj h1 h2
  have hrow : ∀ (j : Nat) (s : Buf) (c : Nat), c < lda →
      forRange n lda (fun i (a : Buf) => Function.update a (lda * j + i) 0)
          (forUp (fun i (a : Buf) =>
            Function.update a (lda * j + i) (lcgEntry (lcgState (j * n + (i + 1))))) 0 n s)
          (lda * j + c) =
        if c < n then lcgEntry (lcgState (j * n + (c + 1))) else 0 := by
    intro j s c hc
    by_cases hcn : c < n
    · rw [(pad_apply lda j n lda _).2 _ (by intro i h1 _; omega), if_pos hcn]
      exact (write_apply (fun i => lda * j + i)
        (fun i => lcgEntry (lcgState (j * n + (i + 1)))) n s
        (by intro i1 i2 hij _; show lda * j + i1 ≠ lda * j + i2; omega)).1 c hcn
    · rw [(pad_apply lda j n lda _).1 c (by omega) hc, if_neg hcn]
  have hframe : ∀ (j : Nat) (s : Buf) (x : Nat), ¬ (∃ i, i < lda ∧ x = lda * j + i) →
      (fun j (a : Buf) =>
        forRange n lda (fun i (a : Buf) => Function.update a (lda * j + i) 0)
          (forUp (fun i (a : Buf) =>
            Function.update a (lda * j + i) (lcgEntry (lcgState (j * n + (i + 1))))) 0 n a))
        j s x = s x := by
    intro j s x hx
    show forRange n lda (fun i (a : Buf) => Function.update a (lda * j + i) 0)
          (forUp (fun i (a : Buf) =>
            Function.update a (lda * j + i) (lcgEntry (lcgState (j * n + (i + 1))))) 0 n s) x
        = s x
    rw [(pad_apply lda j n lda _).2 x (fun i _ h2 h3 => hx ⟨i, h2, h3⟩)]
    exact (write_apply (fun i => lda * j + i)
      (fun i => lcgEntry (lcgState (j * n + (i + 1)))) n s
      (by intro i1 i2 hij _; show lda * j + i1 ≠ lda * j + i2; omega)).2 x
      (fun i h2 h3 => hx ⟨i, by omega, h3⟩)
  unfold matgenFill forRange
  rw [Nat.sub_zero, matgenRows_eq]
  show forUp (fun j (a : Buf) =>
        forRange n lda (fun i (a : Buf) => Function.update a (lda * j + i) 0)
          (forUp (fun i (a : Buf) =>
            Function.update a (lda * j + i) (lcgEntry (lcgState (j * n + (i + 1))))) 0 n a))
      0 n a (lda * r + c) = _
  by_cases hr : r < n
  · rw [forUp_written _ (fun j x => ∃ i, i < lda ∧ x = lda * j + i) 0 hframe n a r hr
      (lda * r + c)
      (by
        rintro j hj1 hj2 ⟨i, hi, hx⟩
        rw [hcell hc hi] at hx
        omega)]
    simp only [Nat.zero_add]
    rw [hrow r _ c hc, if_pos hr]
  · rw [forUp_frame _ (fun j x => ∃ i, i < lda ∧ x = lda * j + i) 0 hframe n a (lda * r + c)
      (by
        rintro j hj ⟨i, hi, hx⟩
        rw [hcell hc hi] at hx
        omega), if_neg hr]

/-- The value of `*norma` returned by `matgen` does not depend on the initial
contents of `a`. -/
theorem matgenFill_norma_indep (a1 a2 : Buf) (lda n : Nat) :
    (matgenFill a1 lda n).2.2 = (matgenFill a2 lda n).2.2 := by
  unfold matgenFill forRange
  rw [Nat.sub_zero, matgenRows_eq, matgenRows_eq]

end Common

/-! ## The fill loops of the seeded `matgen` in closed form -/

namespace Linpack

/-- The inner loop of `matgen` (lines 154-157), component by component: the number
of values drawn, the matrix and the running maximum. -/
theorem seeded_matgenInner_eq (draw : Nat → ℚ) (lda j t c0 : Nat) (a : Buf) (norma : ℚ) :
    forUp
        (fun i (s : Nat × Buf × ℚ) =>
          let a := Function.update s.2.1 (lda * i + j) (draw s.1)
          let norma := if a (lda * i + j) > s.2.2 then a (lda * i + j) else s.2.2
          (s.1 + 1, a, norma))
        0 t (c0, a, norma) =
      (c0 + t,
        forUp (fun i (a : Buf) => Function.update a (lda * i + j) (draw (c0 + i))) 0 t a,
        forUp (fun i (m : ℚ) => if draw (c0 + i) > m then draw (c0 + i) else m) 0 t norma) := by
  induction t with
  | zero => rfl
  | succ t ih =>
    rw [forUp_succ, ih, forUp_succ, forUp_succ]
    simp only [Nat.zero_add, Function.update_same, Nat.add_assoc]

/-- The outer loop of `matgen`, component by component, after `t` iterations. -/
theorem seeded_matgenRows_eq (draw : Nat → ℚ) (lda n t : Nat) (a : Buf) :
    forUp (matgenRow draw lda n) 0 t (0, a, 0) =
      (t * n,
        forUp (fun j (a : Buf) =>
          forRange n lda (fun i (a : Buf) => Function.update a (lda * j + i) 0)
            (forUp (fun i (a : Buf) => Function.update a (lda * i + j) (draw (j * n + i))) 0 n a))
          0 t a,
        forUp (fun j (m : ℚ) =>
          forUp (fun i (m : ℚ) => if draw (j * n + i) > m then draw (j * n + i) else m) 0 n m)
          0 t 0) := by
  induction t with
  | zero =>
    simp only [forUp_zero, Nat.zero_mul]
  | succ t ih =>
    rw [forUp_succ, ih, Nat.zero_add, forUp_succ, forUp_succ, Nat.zero_add]
    unfold matgenRow forRange
    simp only [Nat.sub_zero]
    rw [seeded_matgenInner_eq]
    simp only [Nat.succ_mul]

/-- The matrix written by the seeded `matgen`, cell by cell: entry `(r, c)` with
`c < n` holds the value drawn at call number `c*n + r`, the padding of the rows
`r < n` is zero and the other cells keep their value. -/
theorem seeded_matgenFill_apply (draw : Nat → ℚ) (a : Buf) (lda n : Nat) (hn : n ≤ lda)
    (r c : Nat) (hc : c < lda) :
    (matgenFill draw a lda n).2.1 (lda * r + c) =
      if r < n then (if c < n then draw (c * n + r) else 0)
      else a (lda * r + c) := by
  have hcell : ∀ {r c r' c' : Nat}, c < lda → c' < lda →
      (lda * r + c = lda * r' + c' ↔ r = r' ∧ c = c') := by
    intro r c r' c' h1 h2
    rw [Nat.mul_comm lda r, Nat.mul_comm lda r']
    exact cell_inj h1 h2
  have hinjcol : ∀ (j : Nat), j < n → ∀ i1 i2, i1 < i2 → i2 < n →
      (fun i => lda * i + j) i1 ≠ (fun i => lda * i + j) i2 := by
    intro j hj i1 i2 h12 _
    show lda * i1 + j ≠ lda * i2 + j
    rw [Ne, hcell (by omega) (by omega)]
    omega
  -- what iteration `j < n` leaves in the cells of column `j` and in the padding of row `j`
  have hcol : ∀ (j : Nat) (s : Buf) (r : Nat), j < n → r < n →
      forRange n lda (fun i (a : Buf) => Function.update a (lda * j + i) 0)
          (forUp (fun i (a : Buf) => Function.update a (lda * i + j) (draw (j * n + i))) 0 n s)
          (lda * r + j) = draw (j * n + r) := by
    intro j s r hj hr
    rw [(pad_apply lda j n lda _).2 _ (by
      intro i h1 h2
      rw [Ne, hcell (by omega) h2]
      omega)]
    exact (write_apply (fun i => lda * i + j) (fun i => draw (j * n + i)) n s
      (hinjcol j hj)).1 r hr
  have hpad : ∀ (j : Nat) (s : Buf) (c : Nat), n ≤ c → c < lda →
      forRange n lda (fun i (a : Buf) => Function.update a (lda * j + i) 0)
          (forUp (fun i (a : Buf) => Function.update a (lda * i + j) (draw (j * n + i))) 0 n s)
          (lda * j + c) = 0 := by
    intro j s c h1 h2
    exact (pad_apply lda j n lda _).1 c h1 h2
  have hframe : ∀ (j : Nat) (s : Buf) (x : Nat),
      ¬ ((∃ i, i < n ∧ x = lda * i + j) ∨ (∃ i, n ≤ i ∧ i < lda ∧ x = lda * j + i)) →
      (fun j (a : Buf) =>
        forRange n lda (fun i (a : Buf) => Function.update a (lda * j + i) 0)
          (forUp (fun i (a : Buf) => Function.update a (lda * i + j) (draw (j * n + i))) 0 n a))
        j s x = s x := by
    intro j s x hx
    show forRange n lda (fun i (a : Buf) => Function.update a (lda * j + i) 0)
          (forUp (fun i (a : Buf) => Function.update a (lda * i + j) (draw (j * n + i))) 0 n s) x
        = s x
    rw [(pad_apply lda j n lda _).2 x (fun i h1 h2 h3 => hx (Or.inr ⟨i, h1, h2, h3⟩))]
    exact (forUp_update (fun i => lda * i + j) (fun i (_ : Buf) => draw (j * n + i)) 0 n s).1 x
      (by
        intro i hi h3
        simp only [Nat.zero_add] at h3
        exact hx (Or.inl ⟨i, hi, h3⟩))
  unfold matgenFill forRange
  rw [Nat.sub_zero, seeded_matgenRows_eq]
  show forUp (fun j (a : Buf) =>
        forRange n lda (fun i (a : Buf) => Function.update a (lda * j + i) 0)
          (forUp (fun i (a : Buf) => Function.update a (lda * i + j) (draw (j * n + i))) 0 n a))
      0 n a (lda * r + c) = _
  by_cases hr : r < n
  · rw [if_pos hr]
    by_cases hcn : c < n
    · rw [forUp_written _
        (fun j x => (∃ i, i < n ∧ x = lda * i + j) ∨ (∃ i, n ≤ i ∧ i < lda ∧ x = lda * j + i))
        0 hframe n a c hcn (lda * r + c)
        (by
          rintro j hj1 hj2 (⟨i, hi, hx⟩ | ⟨i, hi1, hi2, hx⟩)
          · rw [hcell hc (by omega)] at hx
            omega
          · rw [hcell hc hi2] at hx
            omega)]
      simp only [Nat.zero_add]
      rw [hcol c _ r hcn hr, if_pos hcn]
    · rw [forUp_written _
        (fun j x => (∃ i, i < n ∧ x = lda * i + j) ∨ (∃ i, n ≤ i ∧ i < lda ∧ x = lda * j + i))
        0 hframe n a r hr (lda * r + c)
        (by
          rintro j hj1 hj2 (⟨i, hi, hx⟩ | ⟨i, hi1, hi2, hx⟩)
          · rw [hcell hc (by omega)] at hx
            omega
          · rw [hcell hc hi2] at hx
            omega)]
      simp only [Nat.zero_add]
      rw [hpad r _ c (by omega) hc, if_neg hcn]
  · rw [forUp_frame _
      (fun j x => (∃ i, i < n ∧ x = lda * i + j) ∨ (∃ i, n ≤ i ∧ i < lda ∧ x = lda * j + i))
      0 hframe n a (lda * r + c)
      (by
        rintro j hj (⟨i, hi, hx⟩ | ⟨i, hi1, hi2, hx⟩)
        · rw [hcell hc (by omega)] at hx
          omega
        · rw [hcell hc hi2] at hx
          omega), if_neg hr]

/-- The value of `*norma` returned by the seeded `matgen` does not depend on the
initial contents of `a`. -/
theorem seeded_matgenFill_norma_indep (draw : Nat → ℚ) (a1 a2 : Buf) (lda n : Nat) :
    (matgenFill draw a1 lda n).2.2 = (matgenFill draw a2 lda n).2.2 := by
  unfold matgenFill forRange
  rw [Nat.sub_zero, seeded_matgenRows_eq, seeded_matgenRows_eq]

end Linpack

/-! ## Claims C11, C12 and C14: the matrices generated by `matgen` -/

/-- Claim C11. For `n ≥ 1` and `lda ≥ n`, the deterministic `matgen` sets the entry
generated `t`-th in row-major order (`t = j*n + i`) to
`a[lda*j+i] = (s_{t+1} - 32768)/16384` with `s_0 = 1325`,
`s_{t+1} = 3125*s_t mod 65536`; every such entry is a multiple of `1/16384` in
`[-2, 2)`. -/
theorem matgen_entry (a b : Buf) (lda n : Nat) (_hn1 : 1 ≤ n) (hn : n ≤ lda)
    (j i : Nat) (hj : j < n) (hi : i < n) :
    (Common.matgen a lda n b).1 (lda * j + i) = ((lcgSeq (j * n + i + 1) : ℚ) - 32768) / 16384 ∧
    (∃ z : Int, (Common.matgen a lda n b).1 (lda * j + i) = (z : ℚ) / 16384) ∧
    -2 ≤ (Common.matgen a lda n b).1 (lda * j + i) ∧
    (Common.matgen a lda n b).1 (lda * j + i) < 2 := by
  have e : (Common.matgen a lda n b).1 (lda * j + i) =
      ((lcgSeq (j * n + i + 1) : ℚ) - 32768) / 16384 := by
    show (Common.matgenFill a lda n).2.1 (lda * j + i) = _
    rw [Common.matgenFill_apply a lda n hn j i (by omega), if_pos hj, if_pos hi, lcgEntry,
      lcgState_eq, Int.cast_natCast, Nat.add_assoc]
  have h1 : ((lcgSeq (j * n + i + 1) : Nat) : ℚ) < 65536 := by
    exact_mod_cast lcgSeq_lt (j * n + i + 1)
  have h0 : (0 : ℚ) ≤ ((lcgSeq (j * n + i + 1) : Nat) : ℚ) := Nat.cast_nonneg _
  rw [e]
  refine ⟨rfl, ⟨(lcgSeq (j * n + i + 1) : Int) - 32768, by push_cast; rfl⟩, ?_, ?_⟩
  · rw [le_div_iff₀ (by norm_num)]
    linarith
  · rw [div_lt_iff₀ (by norm_num)]
    linarith

/-- Claim C11 at `n = lda = 2`, entry `(1, 0)`. -/
theorem matgen_entry_witness :
    (Common.matgen zeros 2 2 zeros).1 (2 * 1 + 0) = ((lcgSeq (1 * 2 + 0 + 1) : ℚ) - 32768) / 16384 ∧
    (∃ z : Int, (Common.matgen zeros 2 2 zeros).1 (2 * 1 + 0) = (z : ℚ) / 16384) ∧
    -2 ≤ (Common.matgen zeros 2 2 zeros).1 (2 * 1 + 0) ∧
    (Common.matgen zeros 2 2 zeros).1 (2 * 1 + 0) < 2 :=
  matgen_entry zeros zeros 2 2 (by decide) (by decide) 1 0 (by decide) (by decide)

/-- Claim C12. For `n ≥ 1` and `lda ≥ n`, after either `matgen` every padding cell
`a[lda*j+i]` with `j < n` and `n ≤ i < lda` is zero (also in
`linpack_functionality.cpp`, where the random values are written at the
transposed index `a[lda*i+j]`). -/
theorem matgen_padding_zero (a b : Buf) (lda n : Nat) (draw : Nat → ℚ) (_hn1 : 1 ≤ n)
    (hn : n ≤ lda) (j i : Nat) (hj : j < n) (hi1 : n ≤ i) (hi2 : i < lda) :
    (Common.matgen a lda n b).1 (lda * j + i) = 0 ∧
    (Linpack.matgen draw a lda n b).1 (lda * j + i) = 0 := by
  constructor
  · show (Common.matgenFill a lda n).2.1 (lda * j + i) = 0
    rw [Common.matgenFill_apply a lda n hn j i hi2, if_pos hj, if_neg (by omega)]
  · show (Linpack.matgenFill draw a lda n).2.1 (lda * j + i) = 0
    rw [Linpack.seeded_matgenFill_apply draw a lda n hn j i hi2, if_pos hj, if_neg (by omega)]

/-- Claim C12 at `n = 2`, `lda = 3`, padding cell of row `1`, from buffers of ones. -/
theorem matgen_padding_zero_witness :
    (Common.matgen ones 3 2 ones).1 (3 * 1 + 2) = 0 ∧
    (Linpack.matgen ones ones 3 2 ones).1 (3 * 1 + 2) = 0 :=
  matgen_padding_zero ones ones 3 2 ones (by decide) (by decide) 1 2 (by decide) (by decide)
    (by decide)

/-- Claim C14. For `n ≥ 1` and `lda ≥ n`, the outputs of `matgen` (all `lda*n` cells
of `a`, the `n` cells of `b`, and `norma`) do not depend on the initial contents
of the buffers: two runs from any initial `a`, `b` give the same outputs, for
the deterministic generator and, with the same stream of drawn values (the
generator is re-seeded with the same constant), for the seeded one. -/
theorem matgen_deterministic (a1 a2 b1 b2 : Buf) (lda n : Nat) (draw : Nat → ℚ)
    (hn1 : 1 ≤ n) (hn : n ≤ lda) :
    ((∀ x, x < lda * n → (Common.matgen a1 lda n b1).1 x = (Common.matgen a2 lda n b2).1 x) ∧
      (∀ j, j < n → (Common.matgen a1 lda n b1).2.1 j = (Common.matgen a2 lda n b2).2.1 j) ∧
      (Common.matgen a1 lda n b1).2.2 = (Common.matgen a2 lda n b2).2.2) ∧
    ((∀ x, x < lda * n →
        (Linpack.matgen draw a1 lda n b1).1 x = (Linpack.matgen draw a2 lda n b2).1 x) ∧
      (∀ j, j < n →
        (Linpack.matgen draw a1 lda n b1).2.1 j = (Linpack.matgen draw a2 lda n b2).2.1 j) ∧
      (Linpack.matgen draw a1 lda n b1).2.2 = (Linpack.matgen draw a2 lda n b2).2.2) := by
  have hlda : 0 < lda := by omega
  have hc1 : ∀ r c, r < n → c < lda →
      (Common.matgenFill a1 lda n).2.1 (lda * r + c) =
        (Common.matgenFill a2 lda n).2.1 (lda * r + c) := by
    intro r c hr hc
    rw [Common.matgenFill_apply a1 lda n hn r c hc, Common.matgenFill_apply a2 lda n hn r c hc,
      if_pos hr, if_pos hr]
  have hc2 : ∀ r c, r < n → c < lda →
      (Linpack.matgenFill draw a1 lda n).2.1 (lda * r + c) =
        (Linpack.matgenFill draw a2 lda n).2.1 (lda * r + c) := by
    intro r c hr hc
    rw [Linpack.seeded_matgenFill_apply draw a1 lda n hn r c hc,
      Linpack.seeded_matgenFill_apply draw a2 lda n hn r c hc, if_pos hr, if_pos hr]
  have hsplit : ∀ x, x < lda * n → x / lda < n ∧ x % lda < lda ∧ lda * (x / lda) + x % lda = x :=
    fun x hx => ⟨Nat.div_lt_of_lt_mul hx, Nat.mod_lt x hlda, Nat.div_add_mod x lda⟩
  refine ⟨⟨?_, ?_, ?_⟩, ⟨?_, ?_, ?_⟩⟩
  · intro x hx
    obtain ⟨h1, h2, h3⟩ := hsplit x hx
    rw [← h3]
    exact hc1 _ _ h1 h2
  · intro j hj
    simp only [Common.matgen, matgenRhs_apply, if_pos hj]
    exact Finset.sum_congr rfl (fun i hi => hc1 j i hj (by have := Finset.mem_range.mp hi; omega))
  · exact Common.matgenFill_norma_indep a1 a2 lda n
  · intro x hx
    obtain ⟨h1, h2, h3⟩ := hsplit x hx
    rw [← h3]
    exact hc2 _ _ h1 h2
  · intro j hj
    simp only [Linpack.matgen, matgenRhs_apply, if_pos hj]
    exact Finset.sum_congr rfl (fun i hi => hc2 j i hj (by have := Finset.mem_range.mp hi; omega))
  · exact Linpack.seeded_matgenFill_norma_indep draw a1 a2 lda n

/-- Claim C14 at `n = 2`, `lda = 3`, from buffers of zeros and buffers of ones. -/
theorem matgen_deterministic_witness :
    ((∀ x, x < 3 * 2 → (Common.matgen zeros 3 2 zeros).1 x = (Common.matgen ones 3 2 ones).1 x) ∧
      (∀ j, j < 2 → (Common.matgen zeros 3 2 zeros).2.1 j = (Common.matgen ones 3 2 ones).2.1 j) ∧
      (Common.matgen zeros 3 2 zeros).2.2 = (Common.matgen ones 3 2 ones).2.2) ∧
    ((∀ x, x < 3 * 2 →
        (Linpack.matgen ones zeros 3 2 zeros).1 x = (Linpack.matgen ones ones 3 2 ones).1 x) ∧
      (∀ j, j < 2 →
        (Linpack.matgen ones zeros 3 2 zeros).2.1 j = (Linpack.matgen ones ones 3 2 ones).2.1 j) ∧
      (Linpack.matgen ones zeros 3 2 zeros).2.2 = (Linpack.matgen ones ones 3 2 ones).2.2) :=
  matgen_deterministic zeros ones zeros ones 3 2 ones (by decide) (by decide)

/-! ## Claim C13: the value of `norma` -/

/-- A running maximum started at `m0`: it bounds `m0` and every value seen, and it
is `m0` or one of the values seen. -/
theorem runMax_spec (f : Nat → ℚ) (t : Nat) (m0 : ℚ) :
    m0 ≤ forUp (fun i (m : ℚ) => if f i > m then f i else m) 0 t m0 ∧
    (∀ i, i < t → f i ≤ forUp (fun i (m : ℚ) => if f i > m then f i else m) 0 t m0) ∧
    (forUp (fun i (m : ℚ) => if f i > m then f i else m) 0 t m0 = m0 ∨
      ∃ i, i < t ∧ forUp (fun i (m : ℚ) => if f i > m then f i else m) 0 t m0 = f i) := by
  induction t with
  | zero => exact ⟨le_refl _, fun i hi => absurd hi (Nat.not_lt_zero i), Or.inl rfl⟩
  | succ t ih =>
    obtain ⟨h1, h2, h3⟩ := ih
    rw [forUp_succ, Nat.zero_add]
    generalize forUp (fun i (m : ℚ) => if f i > m then f i else m) 0 t m0 = s at h1 h2 h3 ⊢
    by_cases hc : f t > s
    · rw [if_pos hc]
      refine ⟨le_trans h1 (le_of_lt hc), ?_, Or.inr ⟨t, Nat.lt_succ_self t, rfl⟩⟩
      intro i hi
      rcases Nat.lt_succ_iff_lt_or_eq.mp hi with h | h
      · exact le_trans (h2 i h) (le_of_lt hc)
      · rw [h]
    · rw [if_neg hc]
      refine ⟨h1, ?_, ?_⟩
      · intro i hi
        rcases Nat.lt_succ_iff_lt_or_eq.mp hi with h | h
        · exact h2 i h
        · rw [h]
          exact not_lt.mp hc
      · rcases h3 with h | ⟨i, hi, h⟩
        · exact Or.inl h
        · exact Or.inr ⟨i, Nat.lt_succ_of_lt hi, h⟩

/-- Two nested running maxima started at `0`. -/
theorem runMax2_spec (f : Nat → Nat → ℚ) (n t : Nat) :
    0 ≤ forUp (fun j (m : ℚ) =>
      forUp (fun i (m : ℚ) => if f j i > m then f j i else m) 0 n m) 0 t 0 ∧
    (∀ j i, j < t → i < n → f j i ≤ forUp (fun j (m : ℚ) =>
      forUp (fun i (m : ℚ) => if f j i > m then f j i else m) 0 n m) 0 t 0) ∧
    (forUp (fun j (m : ℚ) =>
        forUp (fun i (m : ℚ) => if f j i > m then f j i else m) 0 n m) 0 t 0 = 0 ∨
      ∃ j i, j < t ∧ i < n ∧ forUp (fun j (m : ℚ) =>
        forUp (fun i (m : ℚ) => if f j i > m then f j i else m) 0 n m) 0 t 0 = f j i) := by
  induction t with
  | zero =>
    exact ⟨le_refl _, fun j i hj _ => absurd hj (Nat.not_lt_zero j), Or.inl rfl⟩
  | succ t ih =>
    obtain ⟨h1, h2, h3⟩ := ih
    rw [forUp_succ, Nat.zero_add]
    generalize forUp (fun j (m : ℚ) =>
      forUp (fun i (m : ℚ) => if f j i > m then f j i else m) 0 n m) 0 t 0 = s at h1 h2 h3 ⊢
    obtain ⟨g1, g2, g3⟩ := runMax_spec (f t) n s
    refine ⟨le_trans h1 g1, ?_, ?_⟩
    · intro j i hj hi
      rcases Nat.lt_succ_iff_lt_or_eq.mp hj with h | h
      · exact le_trans (h2 j i h hi) g1
      · rw [h]
        exact g2 i hi
    · rcases g3 with g | ⟨i, hi, g⟩
      · rcases h3 with h | ⟨j, i, hj, hi, h⟩
        · exact Or.inl (g.trans h)
        · exact Or.inr ⟨j, i, Nat.lt_succ_of_lt hj, hi, g.trans h⟩
      · exact Or.inr ⟨t, i, Nat.lt_succ_self t, hi, g⟩

/-- The value of `*norma` returned by either `matgen` is the largest of `0` and the
entries of the generated matrix: it is nonnegative, bounds every entry, and is
`0` or one of the entries. -/
theorem matgen_norma_spec (a b : Buf) (lda n : Nat) (draw : Nat → ℚ) (hn : n ≤ lda) :
    (0 ≤ (Common.matgen a lda n b).2.2 ∧
      (∀ j i, j < n → i < n →
        (Common.matgen a lda n b).1 (lda * j + i) ≤ (Common.matgen a lda n b).2.2) ∧
      ((Common.matgen a lda n b).2.2 = 0 ∨
        ∃ j i, j < n ∧ i < n ∧
          (Common.matgen a lda n b).2.2 = (Common.matgen a lda n b).1 (lda * j + i))) ∧
    (0 ≤ (Linpack.matgen draw a lda n b).2.2 ∧
      (∀ j i, j < n → i < n →
        (Linpack.matgen draw a lda n b).1 (lda * j + i) ≤ (Linpack.matgen draw a lda n b).2.2) ∧
      ((Linpack.matgen draw a lda n b).2.2 = 0 ∨
        ∃ j i, j < n ∧ i < n ∧
          (Linpack.matgen draw a lda n b).2.2 =
            (Linpack.matgen draw a lda n b).1 (lda * j + i))) := by
  have e1 : ∀ j i, j < n → i < n →
      (Common.matgen a lda n b).1 (lda * j + i) = lcgEntry (lcgState (j * n + (i + 1))) := by
    intro j i hj hi
    show (Common.matgenFill a lda n).2.1 (lda * j + i) = _
    rw [Common.matgenFill_apply a lda n hn j i (by omega), if_pos hj, if_pos hi]
  have e2 : ∀ j i, j < n → i < n →
      (Linpack.matgen draw a lda n b).1 (lda * j + i) = draw (i * n + j) := by
    intro j i hj hi
    show (Linpack.matgenFill draw a lda n).2.1 (lda * j + i) = _
    rw [Linpack.seeded_matgenFill_apply draw a lda n hn j i (by omega), if_pos hj, if_pos hi]
  have n1 : (Common.matgen a lda n b).2.2 =
      forUp (fun j (m : ℚ) =>
        forUp (fun i (m : ℚ) =>
          if lcgEntry (lcgState (j * n + (i + 1))) > m then lcgEntry (lcgState (j * n + (i + 1)))
          else m) 0 n m) 0 n 0 := by
    show (Common.matgenFill a lda n).2.2 = _
    unfold Common.matgenFill forRange
    rw [Nat.sub_zero, Common.matgenRows_eq]
  have n2 : (Linpack.matgen draw a lda n b).2.2 =
      forUp (fun j (m : ℚ) =>
        forUp (fun i (m : ℚ) => if draw (j * n + i) > m then draw (j * n + i) else m) 0 n m)
        0 n 0 := by
    show (Linpack.matgenFill draw a lda n).2.2 = _
    unfold Linpack.matgenFill forRange
    rw [Nat.sub_zero, Linpack.seeded_matgenRows_eq]
  obtain ⟨p1, p2, p3⟩ := runMax2_spec (fun j i => lcgEntry (lcgState (j * n + (i + 1)))) n n
  obtain ⟨q1, q2, q3⟩ := runMax2_spec (fun j i => draw (j * n + i)) n n
  rw [n1, n2]
  refine ⟨⟨p1, ?_, ?_⟩, ⟨q1, ?_, ?_⟩⟩
  · intro j i hj hi
    rw [e1 j i hj hi]
    exact p2 j i hj hi
  · rcases p3 with h | ⟨j, i, hj, hi, h⟩
    · exact Or.inl h
    · exact Or.inr ⟨j, i, hj, hi, by rw [e1 j i hj hi]; exact h⟩
  · intro j i hj hi
    rw [e2 j i hj hi]
    exact q2 i j hi hj
  · rcases q3 with h | ⟨j, i, hj, hi, h⟩
    · exact Or.inl h
    · exact Or.inr ⟨i, j, hi, hj, by rw [e2 i j hi hj]; exact h⟩

/-- Claim C13 fails on the code. For `n = lda = 1` the deterministic `matgen`
generates the single entry `-20911/16384` and returns `norma = 0`, which is not
an entry of the matrix: the running maximum starts at `0.0`. -/
theorem matgen_norma_one :
    (Common.matgen zeros 1 1 zeros).1 0 = -20911 / 16384 ∧
    (Common.matgen zeros 1 1 zeros).2.2 = 0 := by
  obtain ⟨h1, -, -, -⟩ := Common.lcgNext_values
  constructor <;>
    simp [Common.matgen, Common.matgenFill, Common.matgenRow, forRange, forUp,
      Function.update_apply, h1] <;>
    norm_num

/-! ## Claim C15: singular generated matrices -/

/-- The generator states in closed form. -/
theorem lcgSeq_closed (t : Nat) : lcgSeq t = 3125 ^ t * 1325 % 65536 := by
  induction t with
  | zero => rfl
  | succ t ih =>
    show 3125 * lcgSeq t % 65536 = _
    rw [ih, Nat.mul_mod, Nat.mod_mod, ← Nat.mul_mod, pow_succ]
    congr 1
    ring

/-- The generator has period `16384`. -/
theorem lcgSeq_period (t : Nat) : lcgSeq (t + 16384) = lcgSeq t := by
  have h : 3125 ^ 16384 % 65536 = 1 := by norm_num
  rw [lcgSeq_closed, lcgSeq_closed, pow_add, Nat.mul_assoc, Nat.mul_comm (3125 ^ 16384),
    ← Nat.mul_assoc, Nat.mul_mod, h, Nat.mul_one, Nat.mod_mod]

/-- The first nine states of the generator of `matgen`. -/
theorem lcgState_values :
    lcgState 1 = 11857 ∧ lcgState 2 = 25285 ∧ lcgState 3 = 44745 ∧ lcgState 4 = 39837 ∧
    lcgState 5 = 37761 ∧ lcgState 6 = 38325 ∧ lcgState 7 = 31353 ∧ lcgState 8 = 1805 ∧
    lcgState 9 = 4529 := by
  decide

/-- The entries of the matrix generated by `matgen`, as a matrix. -/
theorem rowMajor_matgen (a b : Buf) (lda n : Nat) (hn : n ≤ lda) (i j : Fin n) :
    rowMajor (Common.matgen a lda n b).1 lda n i j =
      lcgEntry (lcgState (i.val * n + (j.val + 1))) := by
  show (Common.matgenFill a lda n).2.1 (lda * i.val + j.val) = _
  rw [Common.matgenFill_apply a lda n hn i.val j.val (by omega), if_pos i.isLt, if_pos j.isLt]

/-- Claim C15 as stated fails: for `n = lda = 256` rows `0` and `64` of the matrix
generated by the deterministic `matgen` are equal, because the generator has
period `16384 = 64 * 256`, so the matrix is singular. -/
theorem matgen_singular_256 :
    (rowMajor (Common.matgen zeros 256 256 zeros).1 256 256).det = 0 := by
  apply Matrix.det_zero_of_row_eq (show (0 : Fin 256) ≠ 64 by decide)
  funext j
  rw [rowMajor_matgen zeros zeros 256 256 (le_refl _), rowMajor_matgen zeros zeros 256 256 (le_refl _),
    lcgState_eq, lcgState_eq]
  have e : (64 : Fin 256).val * 256 + (j.val + 1) = (0 : Fin 256).val * 256 + (j.val + 1) + 16384 := by
    have h64 : (64 : Fin 256).val = 64 := rfl
    rw [h64, Fin.val_zero]
    omega
  rw [e, lcgSeq_period]

/-! ## Claim C16: a zero pivot column is not detected -/

namespace Linpack

end Linpack

/-! ## Claim C18: the row exchange of `gefa_ref` -/

namespace Linpack

/-- On `[[4, 0, 0], [2, 1, 1], [1, 2, 1]]` the second pivot is row `2`, and after
the first step cell `(2, 0)` holds the multiplier `-1/4`. -/
theorem exLate3_pivot1 (ipvt : Idx) :
    (pivotSearch (gefaSteps exLate3 3 3 ipvt 1).1 3 3 1).2 = 2 ∧
    (gefaSteps exLate3 3 3 ipvt 1).1 (2 * 3 + 0) = -1 / 4 := by
  obtain ⟨-, -, s11, s21⟩ := exLate3_step1 ipvt
  constructor
  · simp only [pivotSearch, forRange, forUp]
    norm_num at s11 s21 ⊢
    rw [s11, s21]
    norm_num
  · rw [gefaSteps_succ, gefaSteps_zero,
      gefaStep_apply 3 3 0 _ (le_refl 3) (by decide) 2 0 (by decide)]
    simp [exLate3_pivot0, exLate3]

/-- Claim C18 as stated fails: at step `1` of `gefa_ref` on
`[[4, 0, 0], [2, 1, 1], [1, 2, 1]]` the pivot row is `2`, and after the exchange
cell `(1, 0)` still holds its own previous value `-1/2`, not the previous value
`-1/4` of cell `(2, 0)`: column `0` is not exchanged. -/
theorem gefa_ref_swap_not_full_row :
    (pivotSearch (gefaSteps exLate3 3 3 (fun _ => 0) 1).1 3 3 1).2 = 2 ∧
    swapRows 3 3 1 2 (gefaSteps exLate3 3 3 (fun _ => 0) 1).1 (1 * 3 + 0) = -1 / 2 ∧
    (gefaSteps exLate3 3 3 (fun _ => 0) 1).1 (2 * 3 + 0) = -1 / 4 := by
  obtain ⟨hp, h20⟩ := exLate3_pivot1 (fun _ => 0)
  obtain ⟨-, s10, -, -⟩ := exLate3_step1 (fun _ => 0)
  refine ⟨hp, ?_, h20⟩
  have hkc : ¬ (1 ≤ 0 ∧ 0 < 3) := by omega
  rw [swapRows_apply 3 3 1 2 _ (le_refl 3) 1 0 (by decide), if_neg hkc]
  exact s10

/-- Claim C18, amended. For `lda ≥ n`, the exchange of rows `k` and `pvt_index` in
`gefa_ref` covers the columns `k .. n-1` only: for `c` in `[k, n)`, `a[k][c]` and
`a[pvt_index][c]` hold each other's previous values, and every cell in a column
`c < k` or `c ≥ n` (in particular the stored multipliers and the padding) keeps
its value. -/
theorem gefa_ref_swap_columns (a : Buf) (n lda k pvt_index : Nat) (hn : n ≤ lda) :
    (∀ c, k ≤ c → c < n →
      swapRows n lda k pvt_index a (k * lda + c) = a (pvt_index * lda + c) ∧
      swapRows n lda k pvt_index a (pvt_index * lda + c) = a (k * lda + c)) ∧
    (∀ r c, c < lda → (c < k ∨ n ≤ c) →
      swapRows n lda k pvt_index a (r * lda + c) = a (r * lda + c)) := by
  constructor
  · intro c h1 h2
    have hc : c < lda := by omega
    have hkc : k ≤ c ∧ c < n := ⟨h1, h2⟩
    constructor
    · rw [swapRows_apply n lda k pvt_index a hn k c hc, if_pos hkc, if_pos rfl]
    · rw [swapRows_apply n lda k pvt_index a hn pvt_index c hc, if_pos hkc]
      by_cases h : pvt_index = k
      · rw [if_pos h, h]
      · rw [if_neg h, if_pos rfl]
  · intro r c hc h
    have hkc : ¬ (k ≤ c ∧ c < n) := by omega
    rw [swapRows_apply n lda k pvt_index a hn r c hc, if_neg hkc]

/-- Claim C18, amended, at `n = 2`, `lda = 3`, rows `0` and `1`. -/
theorem gefa_ref_swap_columns_witness :
    (∀ c, 0 ≤ c → c < 2 →
      swapRows 2 3 0 1 exSwap2 (0 * 3 + c) = exSwap2 (1 * 3 + c) ∧
      swapRows 2 3 0 1 exSwap2 (1 * 3 + c) = exSwap2 (0 * 3 + c)) ∧
    (∀ r c, c < 3 → (c < 0 ∨ 2 ≤ c) →
      swapRows 2 3 0 1 exSwap2 (r * 3 + c) = exSwap2 (r * 3 + c)) :=
  gefa_ref_swap_columns exSwap2 2 3 0 1 (by decide)

end Linpack

/-! ## Claim C20: the two solvers agree -/

/-- Claim C20. Over the rationals, for `n ≥ 1`, `lda ≥ n`, every `b` and every matrix
`A` on which `gefa_ref_nopivot` meets only nonzero pivots (`A` is then
invertible), `gesl_ref` after `gefa_ref` and `gesl_ref_nopivot` after
`gefa_ref_nopivot` return the same solution vector. -/
theorem pivot_nopivot_same_solution (a b : Buf) (n lda : Nat) (ipvt : Idx) (b_tmp : Buf)
    (_hn1 : 1 ≤ n) (hn : n ≤ lda)
    (hpiv : ∀ k, k < n → Common.gefaSteps a n lda k (k * lda + k) ≠ 0) :
    (rowMajor a lda n).det ≠ 0 ∧
    ∀ c, c < n →
      Linpack.gesl_ref (Linpack.gefa_ref a n lda ipvt).1 b (Linpack.gefa_ref a n lda ipvt).2
          n lda b_tmp c =
        Common.gesl_ref_nopivot (Common.gefa_ref_nopivot a n lda) b n lda c := by
  have hA := Common.det_ne_zero_of_pivots a n lda hn hpiv
  refine ⟨hA, ?_⟩
  intro c hc
  obtain ⟨x, hx⟩ := exists_solution a b n lda hA
  rw [Linpack.gesl_ref_unique a b n lda ipvt b_tmp x hn hA hx c hc,
    Common.gesl_ref_nopivot_unique a b n lda x hn hpiv hx c hc]

/-- Claim C20 at the matrix `[[1, 1], [1, 2]]` with right-hand side `(1, 1)`. -/
theorem pivot_nopivot_same_solution_witness :
    (∀ k, k < 2 → Common.gefaSteps exPlain2 2 2 k (k * 2 + k) ≠ 0) ∧
    ((rowMajor exPlain2 2 2).det ≠ 0 ∧
    ∀ c, c < 2 →
      Linpack.gesl_ref (Linpack.gefa_ref exPlain2 2 2 (fun _ => 0)).1 ones
          (Linpack.gefa_ref exPlain2 2 2 (fun _ => 0)).2 2 2 zeros c =
        Common.gesl_ref_nopivot (Common.gefa_ref_nopivot exPlain2 2 2) ones 2 2 c) :=
  ⟨Common.exPlain2_pivots,
    pivot_nopivot_same_solution exPlain2 ones 2 2 (fun _ => 0) zeros (by decide) (by decide)
      Common.exPlain2_pivots⟩

/-! ## Claim C19: the unrolled `dmxpy` in closed form -/

namespace Common

/-- A group of one column. -/
theorem group1_apply (n1 ldm : Nat) (x m y : Buf) (j i : Nat) (hi : i < n1) :
    forRange 0 n1 (fun i (y : Buf) => Function.update y i (y i + term ldm x m i j)) y i =
      y i + term ldm x m i j := by
  have h := mapLoop_apply n1 (fun i v => v + term ldm x m i j) y i
  rw [if_pos hi] at h
  exact h

/-- A group of two columns. -/
theorem group2_apply (n1 ldm : Nat) (x m y : Buf) (j1 j2 i : Nat) (hi : i < n1) :
    forRange 0 n1
        (fun i (y : Buf) =>
          Function.update y i ((y i + term ldm x m i j1) + term ldm x m i j2)) y i =
      (y i + term ldm x m i j1) + term ldm x m i j2 := by
  have h := mapLoop_apply n1 (fun i v => (v + term ldm x m i j1) + term ldm x m i j2) y i
  rw [if_pos hi] at h
  exact h

/-- A group of four columns. -/
theorem group4_apply (n1 ldm : Nat) (x m y : Buf) (j1 j2 j3 j4 i : Nat) (hi : i < n1) :
    forRange 0 n1
        (fun i (y : Buf) =>
          Function.update y i
            ((((y i + term ldm x m i j1) + term ldm x m i j2) + term ldm x m i j3)
              + term ldm x m i j4)) y i =
      (((y i + term ldm x m i j1) + term ldm x m i j2) + term ldm x m i j3)
        + term ldm x m i j4 := by
  have h := mapLoop_apply n1
    (fun i v => (((v + term ldm x m i j1) + term ldm x m i j2) + term ldm x m i j3)
      + term ldm x m i j4) y i
  rw [if_pos hi] at h
  exact h

/-- A group of eight columns. -/
theorem group8_apply (n1 ldm : Nat) (x m y : Buf) (j1 j2 j3 j4 j5 j6 j7 j8 i : Nat)
    (hi : i < n1) :
    forRange 0 n1
        (fun i (y : Buf) =>
          Function.update y i
            ((((((((y i + term ldm x m i j1) + term ldm x m i j2) + term ldm x m i j3)
              + term ldm x m i j4) + term ldm x m i j5) + term ldm x m i j6)
              + term ldm x m i j7) + term ldm x m i j8)) y i =
      (((((((y i + term ldm x m i j1) + term ldm x m i j2) + term ldm x m i j3)
        + term ldm x m i j4) + term ldm x m i j5) + term ldm x m i j6)
        + term ldm x m i j7) + term ldm x m i j8 := by
  have h := mapLoop_apply n1
    (fun i v => (((((((v + term ldm x m i j1) + term ldm x m i j2) + term ldm x m i j3)
        + term ldm x m i j4) + term ldm x m i j5) + term ldm x m i j6)
        + term ldm x m i j7) + term ldm x m i j8) y i
  rw [if_pos hi] at h
  exact h

/-- Sixteen consecutive terms added one after the other, as a sum. -/
theorem sum16 (T : Nat → ℚ) (v : ℚ) (base : Nat) :
    (((((((((((((((v + T (base + 15 - 15)) + T (base + 15 - 14)) + T (base + 15 - 13))
      + T (base + 15 - 12)) + T (base + 15 - 11)) + T (base + 15 - 10)) + T (base + 15 - 9))
      + T (base + 15 - 8)) + T (base + 15 - 7)) + T (base + 15 - 6)) + T (base + 15 - 5))
      + T (base + 15 - 4)) + T (base + 15 - 3)) + T (base + 15 - 2)) + T (base + 15 - 1))
      + T (base + 15) =
    v + ∑ j ∈ Finset.Ico base (base + 16), T j := by
  have e : base + 16 - base = 16 := by omega
  have ee : ∀ k, k ≤ 15 → base + 15 - k = base + (15 - k) := fun k hk => by omega
  rw [Finset.sum_Ico_eq_sum_range, e, ee 15 (by decide), ee 14 (by decide), ee 13 (by decide),
    ee 12 (by decide), ee 11 (by decide), ee 10 (by decide), ee 9 (by decide), ee 8 (by decide),
    ee 7 (by decide), ee 6 (by decide), ee 5 (by decide), ee 4 (by decide), ee 3 (by decide),
    ee 2 (by decide), ee 1 (by decide)]
  simp only [Finset.sum_range_succ, Finset.sum_range_zero, zero_add, Nat.reduceSub]
  ring

/-- A group of sixteen columns `base .. base + 15`, as the main loop runs it with
`j = base + 15`. -/
theorem group16_apply (n1 ldm : Nat) (x m y : Buf) (base i : Nat) (hi : i < n1) :
    forRange 0 n1
        (fun i (y : Buf) => Function.update y i
          ((((((((((((((((y i + term ldm x m i (base + 15 - 15))
            + term ldm x m i (base + 15 - 14))
            + term ldm x m i (base + 15 - 13)) + term ldm x m i (base + 15 - 12))
            + term ldm x m i (base + 15 - 11)) + term ldm x m i (base + 15 - 10))
            + term ldm x m i (base + 15 - 9)) + term ldm x m i (base + 15 - 8))
            + term ldm x m i (base + 15 - 7)) + term ldm x m i (base + 15 - 6))
            + term ldm x m i (base + 15 - 5)) + term ldm x m i (base + 15 - 4))
            + term ldm x m i (base + 15 - 3)) + term ldm x m i (base + 15 - 2))
            + term ldm x m i (base + 15 - 1)) + term ldm x m i (base + 15))) y i =
      y i + ∑ j ∈ Finset.Ico base (base + 16), term ldm x m i j := by
  have h := mapLoop_apply n1
    (fun i v => (((((((((((((((v + term ldm x m i (base + 15 - 15))
            + term ldm x m i (base + 15 - 14))
            + term ldm x m i (base + 15 - 13)) + term ldm x m i (base + 15 - 12))
            + term ldm x m i (base + 15 - 11)) + term ldm x m i (base + 15 - 10))
            + term ldm x m i (base + 15 - 9)) + term ldm x m i (base + 15 - 8))
            + term ldm x m i (base + 15 - 7)) + term ldm x m i (base + 15 - 6))
            + term ldm x m i (base + 15 - 5)) + term ldm x m i (base + 15 - 4))
            + term ldm x m i (base + 15 - 3)) + term ldm x m i (base + 15 - 2))
            + term ldm x m i (base + 15 - 1)) + term ldm x m i (base + 15)) y i
  rw [if_pos hi] at h
  exact h.trans (sum16 (fun j => term ldm x m i j) (y i) base)

/-- The main loop of the unrolled `dmxpy`: with `q` groups of sixteen left from
column `base` on, it adds the columns `base .. n2-1`. -/
theorem mainLoop_apply (n1 ldm : Nat) (x m : Buf) (n2 i : Nat) (hi : i < n1) (q : Nat) :
    ∀ (base fuel : Nat) (s : Buf), q ≤ fuel → n2 = base + 16 * q →
      forStep
        (fun j (y : Buf) =>
          forRange 0 n1
            (fun i (y : Buf) => Function.update y i
              ((((((((((((((((y i + term ldm x m i (j - 15)) + term ldm x m i (j - 14))
                + term ldm x m i (j - 13)) + term ldm x m i (j - 12))
                + term ldm x m i (j - 11)) + term ldm x m i (j - 10))
                + term ldm x m i (j - 9)) + term ldm x m i (j - 8))
                + term ldm x m i (j - 7)) + term ldm x m i (j - 6))
                + term ldm x m i (j - 5)) + term ldm x m i (j - 4))
                + term ldm x m i (j - 3)) + term ldm x m i (j - 2))
                + term ldm x m i (j - 1)) + term ldm x m i j)) y)
        n2 16 fuel (base + 15) s i =
      s i + ∑ j ∈ Finset.Ico base n2, term ldm x m i j := by
  induction q with
  | zero =>
    intro base fuel s _ hn2
    have hnot : ¬ base + 15 < n2 := by omega
    have e : n2 = base := by omega
    cases fuel with
    | zero => simp [forStep, e]
    | succ fuel => simp [forStep, hnot, e]
  | succ q ih =>
    intro base fuel s hf hn2
    obtain ⟨fuel', rfl⟩ : ∃ f, fuel = f + 1 := ⟨fuel - 1, by omega⟩
    have hlt : base + 15 < n2 := by omega
    have hb : base + 15 + 16 = base + 16 + 15 := by omega
    rw [forStep, if_pos hlt, hb, ih (base + 16) fuel' _ (by omega) (by omega),
      group16_apply n1 ldm x m s base i hi, add_assoc,
      Finset.sum_Ico_consecutive _ (by omega) (by omega)]

/-- The unrolled `dmxpy` is its four cleanup groups followed by the main loop. -/
theorem dmxpy_stages (n1 : Nat) (y : Buf) (n2 ldm : Nat) (x m : Buf) :
    dmxpy n1 y n2 ldm x m =
      mainGroups n1 n2 ldm x m
        (cleanup8 n1 n2 ldm x m (cleanup4 n1 n2 ldm x m (cleanup2 n1 n2 ldm x m
          (cleanup1 n1 n2 ldm x m y)))) := rfl

/-- The unrolled `dmxpy`, cell by cell. -/
theorem dmxpy_unrolled_apply (n1 : Nat) (y : Buf) (n2 ldm : Nat) (x m : Buf) (i : Nat)
    (hi : i < n1) :
    dmxpy n1 y n2 ldm x m i = y i + ∑ j ∈ Finset.range n2, term ldm x m i j := by
  have h1 : ∀ s : Buf, cleanup1 n1 n2 ldm x m s i =
      s i + ∑ j ∈ Finset.Ico 0 (n2 % 2), term ldm x m i j := by
    intro s
    unfold cleanup1
    by_cases h : n2 % 2 ≥ 1
    · have e : n2 % 2 = 1 := by omega
      have e0 : n2 % 2 - 1 = 0 := by omega
      rw [if_pos h]
      simp only [group1_apply n1 ldm x m s _ i hi, e0]
      rw [e, Finset.sum_Ico_succ_top (by omega), Finset.Ico_self, Finset.sum_empty, zero_add]
    · have e : n2 % 2 = 0 := by omega
      rw [if_neg h, e, Finset.Ico_self, Finset.sum_empty, add_zero]
  have h2 : ∀ s : Buf, cleanup2 n1 n2 ldm x m s i =
      s i + ∑ j ∈ Finset.Ico (n2 % 2) (n2 % 4), term ldm x m i j := by
    intro s
    unfold cleanup2
    by_cases h : n2 % 4 ≥ 2
    · have e : n2 % 4 = n2 % 2 + 1 + 1 := by omega
      have e1 : n2 % 4 - 1 - 1 = n2 % 2 := by omega
      have e2 : n2 % 4 - 1 = n2 % 2 + 1 := by omega
      rw [if_pos h]
      simp only [group2_apply n1 ldm x m s _ _ i hi]
      rw [e1, e2, e, Finset.sum_Ico_succ_top (by omega), Finset.sum_Ico_succ_top (by omega),
        Finset.Ico_self, Finset.sum_empty, zero_add, add_assoc]
    · have e : n2 % 4 = n2 % 2 := by omega
      rw [if_neg h, e, Finset.Ico_self, Finset.sum_empty, add_zero]
  have h3 : ∀ s : Buf, cleanup4 n1 n2 ldm x m s i =
      s i + ∑ j ∈ Finset.Ico (n2 % 4) (n2 % 8), term ldm x m i j := by
    intro s
    unfold cleanup4
    by_cases h : n2 % 8 ≥ 4
    · have e : n2 % 8 = n2 % 4 + 1 + 1 + 1 + 1 := by omega
      have e1 : n2 % 8 - 1 - 3 = n2 % 4 := by omega
      have e2 : n2 % 8 - 1 - 2 = n2 % 4 + 1 := by omega
      have e3 : n2 % 8 - 1 - 1 = n2 % 4 + 1 + 1 := by omega
      have e4 : n2 % 8 - 1 = n2 % 4 + 1 + 1 + 1 := by omega
      rw [if_pos h]
      simp only [group4_apply n1 ldm x m s _ _ _ _ i hi]
      rw [e1, e2, e3, e4, e, Finset.sum_Ico_succ_top (by omega),
        Finset.sum_Ico_succ_top (by omega), Finset.sum_Ico_succ_top (by omega),
        Finset.sum_Ico_succ_top (by omega), Finset.Ico_self, Finset.sum_empty, zero_add]
      ring
    · have e : n2 % 8 = n2 % 4 := by omega
      rw [if_neg h, e, Finset.Ico_self, Finset.sum_empty, add_zero]
  have h4 : ∀ s : Buf, cleanup8 n1 n2 ldm x m s i =
      s i + ∑ j ∈ Finset.Ico (n2 % 8) (n2 % 16), term ldm x m i j := by
    intro s
    unfold cleanup8
    by_cases h : n2 % 16 ≥ 8
    · have e : n2 % 16 = n2 % 8 + 1 + 1 + 1 + 1 + 1 + 1 + 1 + 1 := by omega
      have e1 : n2 % 16 - 1 - 7 = n2 % 8 := by omega
      have e2 : n2 % 16 - 1 - 6 = n2 % 8 + 1 := by omega
      have e3 : n2 % 16 - 1 - 5 = n2 % 8 + 1 + 1 := by omega
      have e4 : n2 % 16 - 1 - 4 = n2 % 8 + 1 + 1 + 1 := by omega
      have e5 : n2 % 16 - 1 - 3 = n2 % 8 + 1 + 1 + 1 + 1 := by omega
      have e6 : n2 % 16 - 1 - 2 = n2 % 8 + 1 + 1 + 1 + 1 + 1 := by omega
      have e7 : n2 % 16 - 1 - 1 = n2 % 8 + 1 + 1 + 1 + 1 + 1 + 1 := by omega
      have e8 : n2 % 16 - 1 = n2 % 8 + 1 + 1 + 1 + 1 + 1 + 1 + 1 := by omega
      rw [if_pos h]
      simp only [group8_apply n1 ldm x m s _ _ _ _ _ _ _ _ i hi]
      rw [e1, e2, e3, e4, e5, e6, e7, e8, e, Finset.sum_Ico_succ_top (by omega),
        Finset.sum_Ico_succ_top (by omega), Finset.sum_Ico_succ_top (by omega),
        Finset.sum_Ico_succ_top (by omega), Finset.sum_Ico_succ_top (by omega),
        Finset.sum_Ico_succ_top (by omega), Finset.sum_Ico_succ_top (by omega),
        Finset.sum_Ico_succ_top (by omega), Finset.Ico_self, Finset.sum_empty, zero_add]
      ring
    · have e : n2 % 16 = n2 % 8 := by omega
      rw [if_neg h, e, Finset.Ico_self, Finset.sum_empty, add_zero]
  have hj : n2 % 16 + 16 - 1 = n2 % 16 + 15 := by omega
  rw [dmxpy_stages]
  unfold mainGroups
  rw [hj, mainLoop_apply n1 ldm x m n2 i hi (n2 / 16) (n2 % 16) n2 _ (Nat.div_le_self n2 16)
    (by omega), h4, h3, h2, h1, Finset.range_eq_Ico, add_assoc, add_assoc, add_assoc,
    ← Finset.sum_Ico_consecutive (fun j => term ldm x m i j) (Nat.zero_le (n2 % 2))
      (show n2 % 2 ≤ n2 by exact Nat.mod_le n2 2),
    ← Finset.sum_Ico_consecutive (fun j => term ldm x m i j)
      (show n2 % 2 ≤ n2 % 4 by omega) (show n2 % 4 ≤ n2 by exact Nat.mod_le n2 4),
    ← Finset.sum_Ico_consecutive (fun j => term ldm x m i j)
      (show n2 % 4 ≤ n2 % 8 by omega) (show n2 % 8 ≤ n2 by exact Nat.mod_le n2 8),
    ← Finset.sum_Ico_consecutive (fun j => term ldm x m i j)
      (show n2 % 8 ≤ n2 % 16 by omega) (show n2 % 16 ≤ n2 by exact Nat.mod_le n2 16)]
  ring

end Common

namespace Common

/-- Claim C19. For `n1, n2 ≥ 0` and any `ldm`, the unrolled `dmxpy` leaves
`y'[i] = y[i] + Σ_{j<n2} x[j]*m[ldm*j+i]` for every `i < n1` in exact arithmetic,
for every residue of `n2` modulo `16`: the cleanup groups of 1, 2, 4 and 8
columns and the main groups of 16 cover each column once; for `n2 < 16` the main
loop does not run. -/
theorem dmxpy_unrolled_sum (n1 : Nat) (y : Buf) (n2 ldm : Nat) (x m : Buf) (i : Nat)
    (hi : i < n1) :
    dmxpy n1 y n2 ldm x m i = y i + ∑ j ∈ Finset.range n2, x j * m (ldm * j + i) ∧
    (n2 < 16 → ∀ s : Buf, mainGroups n1 n2 ldm x m s = s) := by
  constructor
  · exact dmxpy_unrolled_apply n1 y n2 ldm x m i hi
  · intro h s
    have e : n2 % 16 = n2 := Nat.mod_eq_of_lt h
    have hnot : ¬ n2 + 16 - 1 < n2 := by omega
    unfold mainGroups
    rw [e]
    cases n2 with
    | zero => rfl
    | succ k => rw [forStep, if_neg hnot]

/-- Claim C19 at `n1 = n2 = ldm = 17`, cell `0`, with a matrix of ones. -/
theorem dmxpy_unrolled_sum_witness :
    dmxpy 17 zeros 17 17 ones ones 0 =
      zeros 0 + ∑ j ∈ Finset.range 17, ones j * ones (17 * j + 0) ∧
    (17 < 16 → ∀ s : Buf, mainGroups 17 17 17 ones ones s = s) :=
  dmxpy_unrolled_sum 17 zeros 17 17 ones ones 0 (by decide)

end Common

/-! ## Claim C17: the leading dimension is not checked -/

/-- The first iteration of a backward loop over `n ≥ 1` rows divides the last
component by `d (n - 1)`; the later iterations leave it alone. -/
theorem forDown_last (step : Nat → Buf → Buf) (d : Nat → ℚ)
    (hk : ∀ k β, step k β k = β k / d k) (hgt : ∀ k β i, k < i → step k β i = β i)
    (n : Nat) (y : Buf) (t : Nat) (ht1 : 1 ≤ t) (ht : t ≤ n) :
    forDown step n t y (n - 1) = y (n - 1) / d (n - 1) := by
  induction t with
  | zero => omega
  | succ t ih =>
    show step (n - 1 - t) (forDown step n t y) (n - 1) = _
    by_cases h0 : t = 0
    · subst h0
      rw [Nat.sub_zero, hk]
      rfl
    · rw [hgt _ _ _ (by omega)]
      exact ih (by omega) (by omega)

/-- Claim C17 as stated fails: called with `n = 2` and `lda = 1 < n`, none of the
functions rejects the call; each runs its loops and writes its buffers: both
`matgen` write cell `0` of the matrix, `gefa_ref` writes the pivot table,
`gefa_ref_nopivot` changes cell `2` of `1, 2, 5` from `5` to `1`, and both
solvers overwrite `b[0] = 1`. -/
theorem lda_below_n_not_rejected :
    (Common.matgen zeros 1 2 zeros).1 0 = -20911 / 16384 ∧
    (Linpack.matgen ones zeros 1 2 zeros).1 0 = 1 ∧
    (Linpack.gefa_ref zeros 2 1 (fun _ => 7)).2 1 = 1 ∧
    Common.gefa_ref_nopivot exA125 2 1 2 = 1 ∧
    Linpack.gesl_ref ones exB13 (fun i => i) 2 1 zeros 0 = -3 ∧
    Common.gesl_ref_nopivot ones exB13 2 1 0 = -1 := by
  obtain ⟨h1, h2, h3, h4⟩ := Common.lcgNext_values
  refine ⟨?_, ?_, ?_, ?_, ?_, ?_⟩
  · simp [Common.matgen, Common.matgenFill, Common.matgenRow, forRange, forUp,
      Function.update_apply, h1, h2, h3, h4]
    norm_num
  · simp [Linpack.matgen, Linpack.matgenFill, Linpack.matgenRow, forRange, forUp,
      Function.update_apply, ones]
  · unfold Linpack.gefa_ref
    rw [Linpack.gefaSteps_ipvt]
    simp
  · simp [Common.gefa_ref_nopivot, Common.gefaSteps, Common.gefaStep, Common.scaleColumn,
      Common.updateTrailing, forRange, forUp, Function.update_apply, exA125]
    norm_num
  · simp [Linpack.gesl_ref, Linpack.geslForward, forRange, forUp, forDown,
      Linpack.forwardStep_apply, Linpack.backStep_apply, Function.update_apply, ones, exB13, zeros]
  · simp [Common.gesl_ref_nopivot, forRange, forUp, forDown,
      Common.nopivot_forwardStep_apply, Common.nopivot_backStep_apply, ones, exB13]
    norm_num

/-- Claim C17, amended. No function checks `lda` against `n`: called with `n ≥ 1` and
`lda < n`, both `matgen` still fill `b[j]` with `Σ_i a[lda*j+i]`, `gefa_ref` still
writes a pivot table with `k ≤ ipvt[k] < n`, and both solvers still return
`b[n-1]` as the forward-eliminated component divided by the cell
`a[lda*(n-1)+n-1]`; `lda ≥ n` is a documented precondition that is not enforced. -/
theorem lda_below_n_runs (a b : Buf) (n lda : Nat) (ipvt : Idx) (b_tmp : Buf)
    (draw : Nat → ℚ) (hn1 : 1 ≤ n) (_hlda : lda < n) :
    (∀ j, j < n →
      (Common.matgen a lda n b).2.1 j =
        ∑ i ∈ Finset.range n, (Common.matgen a lda n b).1 (lda * j + i)) ∧
    (∀ j, j < n →
      (Linpack.matgen draw a lda n b).2.1 j =
        ∑ i ∈ Finset.range n, (Linpack.matgen draw a lda n b).1 (lda * j + i)) ∧
    (∀ k, k < n → k ≤ (Linpack.gefa_ref a n lda ipvt).2 k ∧
      (Linpack.gefa_ref a n lda ipvt).2 k < n) ∧
    Linpack.gesl_ref a b ipvt n lda b_tmp (n - 1) =
      Linpack.geslForward a b ipvt n lda b_tmp (n - 1) / a (lda * (n - 1) + (n - 1)) ∧
    Common.gesl_ref_nopivot a b n lda (n - 1) =
      forRange 0 (n - 1) (Common.forwardStep a n lda) b (n - 1) /
        a (lda * (n - 1) + (n - 1)) := by
  refine ⟨?_, ?_, ?_, ?_, ?_⟩
  · intro j hj
    simp only [Common.matgen, matgenRhs_apply, if_pos hj]
  · intro j hj
    simp only [Linpack.matgen, matgenRhs_apply, if_pos hj]
  · intro k hk
    unfold Linpack.gefa_ref
    rw [Linpack.gefaSteps_ipvt]
    by_cases h : k < n - 1
    · rw [if_pos h]
      obtain ⟨h1, h2, -, -, -⟩ :=
        Linpack.pivotSearch_spec (Linpack.gefaSteps a n lda ipvt k).1 n lda k hk
      exact ⟨h1, h2⟩
    · rw [if_neg h, if_pos hk]
      exact ⟨le_refl k, hk⟩
  · unfold Linpack.gesl_ref
    rw [copy_apply, if_pos (by omega)]
    exact forDown_last (Linpack.backStep a lda) (fun k => a (lda * k + k))
      (fun k β => by rw [Linpack.backStep_apply, if_pos rfl])
      (fun k β i hki => by
        have e1 : ¬ i = k := by omega
        have e2 : ¬ i < k := by omega
        rw [Linpack.backStep_apply, if_neg e1, if_neg e2])
      n _ n hn1 (le_refl n)
  · unfold Common.gesl_ref_nopivot
    exact forDown_last (Common.backStep a lda) (fun k => a (lda * k + k))
      (fun k β => by rw [Common.nopivot_backStep_apply, if_pos rfl])
      (fun k β i hki => by
        have e1 : ¬ i = k := by omega
        have e2 : ¬ i < k := by omega
        rw [Common.nopivot_backStep_apply, if_neg e1, if_neg e2])
      n _ n hn1 (le_refl n)

/-- Claim C17, amended, at `n = 2`, `lda = 1`. -/
theorem lda_below_n_runs_witness :
    (∀ j, j < 2 →
      (Common.matgen ones 1 2 exB13).2.1 j =
        ∑ i ∈ Finset.range 2, (Common.matgen ones 1 2 exB13).1 (1 * j + i)) ∧
    (∀ j, j < 2 →
      (Linpack.matgen ones ones 1 2 exB13).2.1 j =
        ∑ i ∈ Finset.range 2, (Linpack.matgen ones ones 1 2 exB13).1 (1 * j + i)) ∧
    (∀ k, k < 2 → k ≤ (Linpack.gefa_ref ones 2 1 (fun i => i)).2 k ∧
      (Linpack.gefa_ref ones 2 1 (fun i => i)).2 k < 2) ∧
    Linpack.gesl_ref ones exB13 (fun i => i) 2 1 zeros (2 - 1) =
      Linpack.geslForward ones exB13 (fun i => i) 2 1 zeros (2 - 1) / ones (1 * (2 - 1) + (2 - 1)) ∧
    Common.gesl_ref_nopivot ones exB13 2 1 (2 - 1) =
      forRange 0 (2 - 1) (Common.forwardStep ones 2 1) exB13 (2 - 1) /
        ones (1 * (2 - 1) + (2 - 1)) :=
  lda_below_n_runs ones exB13 2 1 (fun i => i) zeros ones (by decide) (by decide)

/-! ## Claim C26: the generator update in 32-bit arithmetic -/

/-- Every generator state is odd. -/
theorem lcgSeq_odd (t : Nat) : lcgSeq t % 2 = 1 := by
  induction t with
  | zero => rfl
  | succ t ih =>
    show 3125 * lcgSeq t % 65536 % 2 = 1
    omega

/-- The value of `init` when `matgen` returns: `n*n` updates have been executed. -/
theorem matgenFill_init (a : Buf) (lda n : Nat) :
    (Common.matgenFill a lda n).1 = lcgState (n * n) := by
  unfold Common.matgenFill forRange
  rw [Nat.sub_zero, Common.matgenRows_eq]

/-- Claim C26. In the deterministic `matgen` the statement
`init = 3125*init % 65536`, evaluated on 32-bit signed integers, never
overflows, whatever the number `t` of updates executed before: `init` is an odd
value in `[1, 65535]`, the product `3125*init` is at most `204796875 < 2^31`, so
the reduction to 32 bits leaves it unchanged, and the next value of `init` is the
mathematical `(3125*init) mod 65536`, state `s_{t+1}` of the specification. The
loop of `matgen` executes `n*n` such updates. -/
theorem lcg_update_no_overflow (t : Nat) :
    (lcgState t % 2 = 1 ∧ 1 ≤ lcgState t ∧ lcgState t ≤ 65535) ∧
    (0 ≤ 3125 * lcgState t ∧ 3125 * lcgState t ≤ 204796875 ∧ (204796875 : Int) < 2 ^ 31) ∧
    wrapInt32 (3125 * lcgState t) = 3125 * lcgState t ∧
    Common.lcgNext (lcgState t) = 3125 * lcgState t % 65536 ∧
    lcgState (t + 1) = Common.lcgNext (lcgState t) ∧
    lcgState t = (lcgSeq t : Int) ∧
    ∀ (a : Buf) (lda n : Nat), (Common.matgenFill a lda n).1 = lcgState (n * n) := by
  have h1 := lcgSeq_lt t
  have h2 := lcgSeq_odd t
  have e := lcgState_eq t
  have e1 : lcgState (t + 1) = Common.lcgNext (lcgState t) := by
    unfold lcgState
    rw [Function.iterate_succ_apply']
  have e2 : Common.lcgNext (lcgState t) = 3125 * lcgState t % 65536 := by
    rw [e, lcgNext_natCast _ h1]
    push_cast
    rfl
  have hw : wrapInt32 (3125 * lcgState t) = 3125 * lcgState t := by
    rw [e]
    unfold wrapInt32
    omega
  refine ⟨⟨?_, ?_, ?_⟩, ⟨?_, ?_, by norm_num⟩, hw, e2, e1, e, matgenFill_init⟩ <;>
    rw [e] <;> omega

/-! ## Claim C23: the period of the generator -/

/-- Adding a multiple of the period does not change the generator state. -/
theorem lcgSeq_period_mul (t q : Nat) : lcgSeq (t + 16384 * q) = lcgSeq t := by
  induction q with
  | zero => rfl
  | succ q ih =>
    rw [Nat.mul_succ, ← Nat.add_assoc, lcgSeq_period, ih]

/-- Claim C23. The generator states `s_0 = 1325`, `s_{t+1} = 3125*s_t mod 65536`
satisfy `s_{t+16384} = s_t` for every `t`, and so do the values of `init` in the
code. Hence, for `lda ≥ n`, two entries of the matrix generated by the
deterministic `matgen` whose row-major positions `j*n+i` differ by a multiple of
`16384` are equal, and for `n = 256` and every `lda ≥ 256` row `64` of the
generated matrix is identical to row `0`. -/
theorem matgen_period (a b : Buf) (lda n : Nat) (hn : n ≤ lda) :
    (∀ t, lcgSeq (t + 16384) = lcgSeq t) ∧
    (∀ t, lcgState (t + 16384) = lcgState t) ∧
    (∀ j i j2 i2 q, j < n → i < n → j2 < n → i2 < n → j2 * n + i2 = j * n + i + 16384 * q →
      (Common.matgen a lda n b).1 (lda * j2 + i2) = (Common.matgen a lda n b).1 (lda * j + i)) ∧
    (∀ (a1 b1 : Buf) (lda1 : Nat), 256 ≤ lda1 → ∀ i, i < 256 →
      (Common.matgen a1 lda1 256 b1).1 (lda1 * 64 + i) =
        (Common.matgen a1 lda1 256 b1).1 (lda1 * 0 + i)) := by
  have key : ∀ (a b : Buf) (lda n : Nat), n ≤ lda →
      ∀ j i j2 i2 q, j < n → i < n → j2 < n → i2 < n → j2 * n + i2 = j * n + i + 16384 * q →
      (Common.matgen a lda n b).1 (lda * j2 + i2) =
        (Common.matgen a lda n b).1 (lda * j + i) := by
    intro a b lda n hn j i j2 i2 q hj hi hj2 hi2 h
    show (Common.matgenFill a lda n).2.1 (lda * j2 + i2) =
      (Common.matgenFill a lda n).2.1 (lda * j + i)
    rw [Common.matgenFill_apply a lda n hn j2 i2 (by omega), if_pos hj2, if_pos hi2,
      Common.matgenFill_apply a lda n hn j i (by omega), if_pos hj, if_pos hi,
      lcgState_eq, lcgState_eq]
    have e : j2 * n + (i2 + 1) = j * n + (i + 1) + 16384 * q := by omega
    rw [e, lcgSeq_period_mul]
  refine ⟨lcgSeq_period, ?_, key a b lda n hn, ?_⟩
  · intro t
    rw [lcgState_eq, lcgState_eq, lcgSeq_period]
  · intro a1 b1 lda1 h1 i hi
    exact key a1 b1 lda1 256 h1 0 i 64 i 1 (by decide) hi (by decide) hi (by omega)

/-- Claim C23 at `n = lda = 256`, from buffers of zeros. -/
theorem matgen_period_witness :
    (∀ t, lcgSeq (t + 16384) = lcgSeq t) ∧
    (∀ t, lcgState (t + 16384) = lcgState t) ∧
    (∀ j i j2 i2 q, j < 256 → i < 256 → j2 < 256 → i2 < 256 →
      j2 * 256 + i2 = j * 256 + i + 16384 * q →
      (Common.matgen zeros 256 256 zeros).1 (256 * j2 + i2) =
        (Common.matgen zeros 256 256 zeros).1 (256 * j + i)) ∧
    (∀ (a1 b1 : Buf) (lda1 : Nat), 256 ≤ lda1 → ∀ i, i < 256 →
      (Common.matgen a1 lda1 256 b1).1 (lda1 * 64 + i) =
        (Common.matgen a1 lda1 256 b1).1 (lda1 * 0 + i)) :=
  matgen_period zeros zeros 256 256 (le_refl 256)

/-! ## Claim C24: the sign of `norma` -/

/-- Claim C24. With the deterministic `matgen` and `lda ≥ n`, the returned `norma`
is strictly positive if and only if `n ≥ 2`. For `n = 1` the single entry of the
matrix is negative and `norma = 0`, so that the denominator
`n*norma*normx*eps` of the normalised residual in `checkLINPACKresults` is
zero, whatever the vector checked and the value of `eps`. -/
theorem matgen_norma_pos_iff (a b : Buf) (lda n : Nat) (hn : n ≤ lda) :
    (0 < (Common.matgen a lda n b).2.2 ↔ 2 ≤ n) ∧
    (n = 1 → (Common.matgen a lda n b).1 0 < 0 ∧ (Common.matgen a lda n b).2.2 = 0) ∧
    (n = 1 → ∀ (b_res a0 x0 b0 : Buf) (eps : ℚ),
      (n : ℚ) * (Common.checkLocals b_res lda n a0 x0 b0).2.2 *
        (Common.checkLocals b_res lda n a0 x0 b0).2.1 * eps = 0) := by
  obtain ⟨v1, -, v3, -⟩ := lcgState_values
  have hentry : ∀ (a b : Buf) j i, j < n → i < n →
      (Common.matgen a lda n b).1 (lda * j + i) = lcgEntry (lcgState (j * n + (i + 1))) := by
    intro a b j i hj hi
    show (Common.matgenFill a lda n).2.1 (lda * j + i) = _
    rw [Common.matgenFill_apply a lda n hn j i (by omega), if_pos hj, if_pos hi]
  have hone : ∀ (a b : Buf), n = 1 →
      (Common.matgen a lda n b).1 0 < 0 ∧ (Common.matgen a lda n b).2.2 = 0 := by
    intro a b h1
    obtain ⟨⟨p1, -, p3⟩, -⟩ := matgen_norma_spec a b lda n (fun _ => 0) hn
    have e0 := hentry a b 0 0 (by omega) (by omega)
    rw [Nat.mul_zero, Nat.zero_add, Nat.zero_mul, Nat.zero_add, Nat.zero_add, v1] at e0
    have hneg : (Common.matgen a lda n b).1 0 < 0 := by
      rw [e0]
      norm_num [lcgEntry]
    refine ⟨hneg, ?_⟩
    rcases p3 with h | ⟨j, i, hj, hi, h⟩
    · exact h
    · have hj0 : j = 0 := by omega
      have hi0 : i = 0 := by omega
      rw [hj0, hi0, Nat.mul_zero, Nat.zero_add] at h
      rw [h] at p1
      exact absurd hneg (not_lt.mpr p1)
  refine ⟨⟨?_, ?_⟩, hone a b, ?_⟩
  · intro hpos
    by_contra hlt
    obtain ⟨⟨-, -, p3⟩, -⟩ := matgen_norma_spec a b lda n (fun _ => 0) hn
    have hcase : n = 0 ∨ n = 1 := by omega
    rcases hcase with h0 | h1
    · rcases p3 with h | ⟨j, i, hj, -, -⟩
      · rw [h] at hpos
        exact lt_irrefl _ hpos
      · omega
    · rw [(hone a b h1).2] at hpos
      exact lt_irrefl _ hpos
  · intro h2
    obtain ⟨⟨-, p2, -⟩, -⟩ := matgen_norma_spec a b lda n (fun _ => 0) hn
    have hj : 2 / n < n := by
      rcases Nat.lt_or_ge 2 n with h | h
      · rw [Nat.div_eq_of_lt h]
        omega
      · have e : n = 2 := by omega
        rw [e]
        decide
    have hi : 2 % n < n := Nat.mod_lt _ (by omega)
    have hpos : (0 : ℚ) < (Common.matgen a lda n b).1 (lda * (2 / n) + 2 % n) := by
      have e3 : 2 / n * n + (2 % n + 1) = 3 := by
        have := Nat.div_add_mod 2 n
        rw [Nat.mul_comm] at this
        omega
      rw [hentry a b _ _ hj hi, e3, v3]
      norm_num [lcgEntry]
    exact lt_of_lt_of_le hpos (p2 _ _ hj hi)
  · intro h1 b_res a0 x0 b0 eps
    have e : (Common.checkLocals b_res lda n a0 x0 b0).2.2 = 0 := by
      show (Common.matgenFill a0 lda n).2.2 = 0
      exact (hone a0 b h1).2
    rw [e]
    ring

/-- Claim C24 at `n = lda = 1`, from buffers of zeros. -/
theorem matgen_norma_pos_iff_witness :
    (0 < (Common.matgen zeros 1 1 zeros).2.2 ↔ 2 ≤ 1) ∧
    (1 = 1 → (Common.matgen zeros 1 1 zeros).1 0 < 0 ∧ (Common.matgen zeros 1 1 zeros).2.2 = 0) ∧
    (1 = 1 → ∀ (b_res a0 x0 b0 : Buf) (eps : ℚ),
      ((1 : Nat) : ℚ) * (Common.checkLocals b_res 1 1 a0 x0 b0).2.2 *
        (Common.checkLocals b_res 1 1 a0 x0 b0).2.1 * eps = 0) :=
  matgen_norma_pos_iff zeros zeros 1 1 (le_refl 1)

/-! ## Claim C22: the factorizations stay inside the logical matrix -/

/-- One outer iteration of `gefa_ref` changes no cell outside the `n × n` block. -/
theorem gefaStep_frame (n lda k : Nat) (s : Buf × Idx) (hn : n ≤ lda) (hk : k < n)
    (r c : Nat) (hc : c < lda) (hout : ¬ (r < n ∧ c < n)) :
    (Linpack.gefaStep n lda k s).1 (r * lda + c) = s.1 (r * lda + c) := by
  obtain ⟨hp1, hp2, -, -, -⟩ := Linpack.pivotSearch_spec s.1 n lda k hk
  rw [Linpack.gefaStep_apply n lda k s hn hk r c hc]
  by_cases h1 : k ≤ c ∧ c < n
  · have h2 : ¬ (k < r ∧ r < n) := by omega
    have e1 : Equiv.swap k (Linpack.pivotSearch s.1 n lda k).2 r = r := by
      rw [Equiv.swap_apply_def]
      split_ifs <;> omega
    rw [if_pos h1, if_neg h2, e1]
  · rw [if_neg h1]

/-- One outer iteration of `gefa_ref_nopivot` changes no cell outside the `n × n`
block. -/
theorem nopivot_gefaStep_frame (n lda k : Nat) (a : Buf) (hn : n ≤ lda) (hk : k < n)
    (r c : Nat) (hc : c < lda) (hout : ¬ (r < n ∧ c < n)) :
    Common.gefaStep n lda k a (r * lda + c) = a (r * lda + c) := by
  have h : ¬ (k < r ∧ r < n ∧ k ≤ c ∧ c < n) := by omega
  rw [Common.nopivot_gefaStep_apply n lda k a hn hk r c hc, if_neg h]

/-- Neither factorization changes a cell outside the `n × n` block, after any
number of steps. -/
theorem gefaSteps_frame (a : Buf) (n lda : Nat) (ipvt : Idx) (hn : n ≤ lda) (t : Nat)
    (ht : t ≤ n - 1) (r c : Nat) (hc : c < lda) (hout : ¬ (r < n ∧ c < n)) :
    (Linpack.gefaSteps a n lda ipvt t).1 (r * lda + c) = a (r * lda + c) ∧
    Common.gefaSteps a n lda t (r * lda + c) = a (r * lda + c) := by
  induction t with
  | zero => exact ⟨rfl, rfl⟩
  | succ t ih =>
    obtain ⟨h1, h2⟩ := ih (by omega)
    rw [Linpack.gefaSteps_succ, Common.nopivot_gefaSteps_succ,
      gefaStep_frame n lda t _ hn (by omega) r c hc hout,
      nopivot_gefaStep_frame n lda t _ hn (by omega) r c hc hout]
    exact ⟨h1, h2⟩

/-- Claim C22. For `n ≥ 1` and `lda ≥ n`, `gefa_ref` and `gefa_ref_nopivot` modify only
cells `a[lda*r+c]` with `r < n` and `c < n`: every other cell of the buffer keeps
its value, in particular every padding cell (`n ≤ c < lda`, in any row), so
padding columns that are zero before the factorization are zero afterwards,
whether or not rows are exchanged. -/
theorem gefa_frame (a : Buf) (n lda : Nat) (ipvt : Idx) (hn1 : 1 ≤ n) (hn : n ≤ lda) :
    (∀ x, (∀ r c, r < n → c < n → x ≠ lda * r + c) →
      (Linpack.gefa_ref a n lda ipvt).1 x = a x ∧ Common.gefa_ref_nopivot a n lda x = a x) ∧
    (∀ r c, n ≤ c → c < lda →
      (Linpack.gefa_ref a n lda ipvt).1 (lda * r + c) = a (lda * r + c) ∧
      Common.gefa_ref_nopivot a n lda (lda * r + c) = a (lda * r + c)) ∧
    ((∀ r c, r < n → n ≤ c → c < lda → a (lda * r + c) = 0) →
      ∀ r c, r < n → n ≤ c → c < lda →
        (Linpack.gefa_ref a n lda ipvt).1 (lda * r + c) = 0 ∧
        Common.gefa_ref_nopivot a n lda (lda * r + c) = 0) := by
  have key : ∀ r c, c < lda → ¬ (r < n ∧ c < n) →
      (Linpack.gefa_ref a n lda ipvt).1 (lda * r + c) = a (lda * r + c) ∧
      Common.gefa_ref_nopivot a n lda (lda * r + c) = a (lda * r + c) := by
    intro r c hc hout
    rw [Nat.mul_comm lda r]
    exact gefaSteps_frame a n lda ipvt hn (n - 1) (le_refl _) r c hc hout
  refine ⟨?_, ?_, ?_⟩
  · intro x hx
    have hpos : 0 < lda := by omega
    have hc : x % lda < lda := Nat.mod_lt _ hpos
    have ex : lda * (x / lda) + x % lda = x := Nat.div_add_mod x lda
    have hout : ¬ (x / lda < n ∧ x % lda < n) := by
      rintro ⟨h1, h2⟩
      exact hx _ _ h1 h2 ex.symm
    have h := key (x / lda) (x % lda) hc hout
    rw [ex] at h
    exact h
  · intro r c h1 h2
    exact key r c h2 (by omega)
  · intro hz r c hr h1 h2
    obtain ⟨e1, e2⟩ := key r c h2 (by omega)
    rw [e1, e2]
    exact ⟨hz r c hr h1 h2, hz r c hr h1 h2⟩

/-- The padding cells of the example stored with `lda = 3` are zero. -/
theorem exSwap3_padding : ∀ r c, r < 2 → 2 ≤ c → c < 3 → exSwap3 (3 * r + c) = 0 := by
  intro r c hr h1 h2
  have e : ¬ (3 * r + c = 1 ∨ 3 * r + c = 3 ∨ 3 * r + c = 4) := by omega
  unfold exSwap3
  rw [if_neg e]

/-- Claim C22 at the matrix `[[0, 1], [1, 1]]` stored with `lda = 3` and zero
padding, on which `gefa_ref` exchanges the two rows. -/
theorem gefa_frame_witness :
    (∀ x, (∀ r c, r < 2 → c < 2 → x ≠ 3 * r + c) →
      (Linpack.gefa_ref exSwap3 2 3 (fun _ => 0)).1 x = exSwap3 x ∧
      Common.gefa_ref_nopivot exSwap3 2 3 x = exSwap3 x) ∧
    (∀ r c, 2 ≤ c → c < 3 →
      (Linpack.gefa_ref exSwap3 2 3 (fun _ => 0)).1 (3 * r + c) = exSwap3 (3 * r + c) ∧
      Common.gefa_ref_nopivot exSwap3 2 3 (3 * r + c) = exSwap3 (3 * r + c)) ∧
    (∀ r c, r < 2 → 2 ≤ c → c < 3 →
      (Linpack.gefa_ref exSwap3 2 3 (fun _ => 0)).1 (3 * r + c) = 0 ∧
      Common.gefa_ref_nopivot exSwap3 2 3 (3 * r + c) = 0) :=
  ⟨(gefa_frame exSwap3 2 3 (fun _ => 0) (by decide) (by decide)).1,
    (gefa_frame exSwap3 2 3 (fun _ => 0) (by decide) (by decide)).2.1,
    (gefa_frame exSwap3 2 3 (fun _ => 0) (by decide) (by decide)).2.2 exSwap3_padding⟩

/-! ## Claim C21: the two factorizations when no row is exchanged -/

/-- As long as `gefa_ref` exchanges no row, its matrix after `t` steps is that of
`gefa_ref_nopivot` with the multipliers stored so far negated. -/
theorem gefaSteps_noexchange (a : Buf) (n lda : Nat) (ipvt : Idx) (hn : n ≤ lda)
    (hnoex : ∀ k, k < n - 1 →
      (Linpack.pivotSearch (Linpack.gefaSteps a n lda ipvt k).1 n lda k).2 = k)
    (t : Nat) (ht : t ≤ n - 1) (r c : Nat) (hc : c < lda) :
    (Linpack.gefaSteps a n lda ipvt t).1 (r * lda + c) =
      if c < t ∧ c < r ∧ r < n then -Common.gefaSteps a n lda t (r * lda + c)
      else Common.gefaSteps a n lda t (r * lda + c) := by
  induction t generalizing r c with
  | zero =>
    have e : ¬ (c < 0 ∧ c < r ∧ r < n) := by omega
    rw [if_neg e]
    rfl
  | succ t ih =>
    have hk : t < n := by omega
    have hkl : t < lda := by omega
    have ih1 := fun r c hc => ih (by omega) r c hc
    have hp := hnoex t (by omega)
    have same : ∀ r c, c < lda → t ≤ c →
        (Linpack.gefaSteps a n lda ipvt t).1 (r * lda + c) =
          Common.gefaSteps a n lda t (r * lda + c) := by
      intro r c hc htc
      have e : ¬ (c < t ∧ c < r ∧ r < n) := by omega
      rw [ih1 r c hc, if_neg e]
    rw [Linpack.gefaSteps_succ, Common.nopivot_gefaSteps_succ,
      Linpack.gefaStep_apply n lda t _ hn hk r c hc,
      Common.nopivot_gefaStep_apply n lda t _ hn hk r c hc, hp, Equiv.swap_self,
      Equiv.refl_apply]
    by_cases h1 : t ≤ c ∧ c < n
    · by_cases h2 : t < r ∧ r < n
      · have h3 : t < r ∧ r < n ∧ t ≤ c ∧ c < n := ⟨h2.1, h2.2, h1.1, h1.2⟩
        rw [if_pos h1, if_pos h2, if_pos h3]
        by_cases h4 : c = t
        · have h5 : c < t + 1 ∧ c < r ∧ r < n := by omega
          rw [if_pos h4, if_pos h4, if_pos h5, same r t hkl (le_refl t),
            same t t hkl (le_refl t)]
          ring
        · have h5 : ¬ (c < t + 1 ∧ c < r ∧ r < n) := by omega
          rw [if_neg h4, if_neg h4, if_neg h5, same r c hc h1.1, same r t hkl (le_refl t),
            same t t hkl (le_refl t), same t c hc h1.1]
          ring
      · have h3 : ¬ (t < r ∧ r < n ∧ t ≤ c ∧ c < n) := by tauto
        have h5 : ¬ (c < t + 1 ∧ c < r ∧ r < n) := by omega
        rw [if_pos h1, if_neg h2, if_neg h3, if_neg h5, same r c hc h1.1]
    · have h3 : ¬ (t < r ∧ r < n ∧ t ≤ c ∧ c < n) := by tauto
      rw [if_neg h1, if_neg h3, ih1 r c hc]
      by_cases h6 : c < t ∧ c < r ∧ r < n
      · have h5 : c < t + 1 ∧ c < r ∧ r < n := by omega
        rw [if_pos h6, if_pos h5]
      · have h5 : ¬ (c < t + 1 ∧ c < r ∧ r < n) := by omega
        rw [if_neg h6, if_neg h5]

/-- Claim C21. For `n ≥ 1`, `lda ≥ n` and a matrix `A` on which `gefa_ref` exchanges no
row (`pvt_index = k` at every step) and meets only nonzero pivots, the pivot
table returned is the identity, `gefa_ref_nopivot` meets the same nonzero
pivots, and the two factored matrices coincide on the diagonal and above it
while every entry below the diagonal (a stored multiplier) has opposite signs
in the two: `a_pivot'[i][k] = -a_nopivot'[i][k]` for `i > k`. -/
theorem gefa_ref_vs_nopivot (a : Buf) (n lda : Nat) (ipvt : Idx) (_hn1 : 1 ≤ n) (hn : n ≤ lda)
    (hnoex : ∀ k, k < n - 1 →
      (Linpack.pivotSearch (Linpack.gefaSteps a n lda ipvt k).1 n lda k).2 = k)
    (hpiv : ∀ k, k < n → (Linpack.gefaSteps a n lda ipvt k).1 (k * lda + k) ≠ 0) :
    (∀ k, k < n → (Linpack.gefa_ref a n lda ipvt).2 k = k) ∧
    (∀ k, k < n → Common.gefaSteps a n lda k (k * lda + k) ≠ 0) ∧
    (∀ r c, r < n → c < n → r ≤ c →
      (Linpack.gefa_ref a n lda ipvt).1 (r * lda + c) =
        Common.gefa_ref_nopivot a n lda (r * lda + c)) ∧
    (∀ i k, k < i → i < n →
      (Linpack.gefa_ref a n lda ipvt).1 (i * lda + k) =
        -Common.gefa_ref_nopivot a n lda (i * lda + k)) := by
  refine ⟨?_, ?_, ?_, ?_⟩
  · intro k hk
    show (Linpack.gefaSteps a n lda ipvt (n - 1)).2 k = k
    rw [Linpack.gefaSteps_ipvt]
    by_cases h : k < n - 1
    · rw [if_pos h, hnoex k h]
    · rw [if_neg h, if_pos hk]
  · intro k hk
    have h := gefaSteps_noexchange a n lda ipvt hn hnoex k (by omega) k k (by omega)
    have e : ¬ (k < k ∧ k < k ∧ k < n) := by omega
    rw [if_neg e] at h
    rw [← h]
    exact hpiv k hk
  · intro r c hr hc hrc
    have h := gefaSteps_noexchange a n lda ipvt hn hnoex (n - 1) (le_refl _) r c (by omega)
    have e : ¬ (c < n - 1 ∧ c < r ∧ r < n) := by omega
    rw [if_neg e] at h
    exact h
  · intro i k hki hi
    have h := gefaSteps_noexchange a n lda ipvt hn hnoex (n - 1) (le_refl _) i k (by omega)
    have e : k < n - 1 ∧ k < i ∧ i < n := by omega
    rw [if_pos e] at h
    exact h

/-- On `[[1, 1], [1, 2]]` the pivot search of `gefa_ref` keeps row `0`. -/
theorem exPlain2_noexchange (ipvt : Idx) : ∀ k, k < 2 - 1 →
    (Linpack.pivotSearch (Linpack.gefaSteps exPlain2 2 2 ipvt k).1 2 2 k).2 = k := by
  intro k hk
  have h : k = 0 := by omega
  subst h
  simp [Linpack.gefaSteps_zero, Linpack.pivotSearch, forRange, forUp, exPlain2]

/-- The pivots met by `gefa_ref` on `[[1, 1], [1, 2]]` are `1` and `1`. -/
theorem exPlain2_pivots_pivoting (ipvt : Idx) : ∀ k, k < 2 →
    (Linpack.gefaSteps exPlain2 2 2 ipvt k).1 (k * 2 + k) ≠ 0 := by
  intro k hk
  have h : k = 0 ∨ k = 1 := by omega
  rcases h with rfl | rfl
  · simp [Linpack.gefaSteps_zero, exPlain2]
  · rw [Linpack.gefaSteps_succ,
      Linpack.gefaStep_apply 2 2 0 _ (le_refl 2) (by decide) 1 1 (by decide),
      exPlain2_noexchange ipvt 0 (by decide)]
    norm_num [Linpack.gefaSteps_zero, exPlain2]

/-- Claim C21 at the matrix `[[1, 1], [1, 2]]`. -/
theorem gefa_ref_vs_nopivot_witness :
    (∀ k, k < 2 - 1 →
      (Linpack.pivotSearch (Linpack.gefaSteps exPlain2 2 2 (fun _ => 0) k).1 2 2 k).2 = k) ∧
    (∀ k, k < 2 → (Linpack.gefaSteps exPlain2 2 2 (fun _ => 0) k).1 (k * 2 + k) ≠ 0) ∧
    ((∀ k, k < 2 → (Linpack.gefa_ref exPlain2 2 2 (fun _ => 0)).2 k = k) ∧
    (∀ k, k < 2 → Common.gefaSteps exPlain2 2 2 k (k * 2 + k) ≠ 0) ∧
    (∀ r c, r < 2 → c < 2 → r ≤ c →
      (Linpack.gefa_ref exPlain2 2 2 (fun _ => 0)).1 (r * 2 + c) =
        Common.gefa_ref_nopivot exPlain2 2 2 (r * 2 + c)) ∧
    (∀ i k, k < i → i < 2 →
      (Linpack.gefa_ref exPlain2 2 2 (fun _ => 0)).1 (i * 2 + k) =
        -Common.gefa_ref_nopivot exPlain2 2 2 (i * 2 + k))) :=
  ⟨exPlain2_noexchange _, exPlain2_pivots_pivoting _,
    gefa_ref_vs_nopivot exPlain2 2 2 (fun _ => 0) (by decide) (by decide)
      (exPlain2_noexchange _) (exPlain2_pivots_pivoting _)⟩

/-! ## Claim C25: the order of the additions in the unrolled `dmxpy` -/

/-- A loop run in two parts. -/
theorem forUp_add {σ : Type} (body : Nat → σ → σ) (lo a b : Nat) (s : σ) :
    forUp body lo (a + b) s = forUp body (lo + a) b (forUp body lo a s) := by
  induction b with
  | zero => rfl
  | succ b ih =>
    rw [← Nat.add_assoc, forUp_succ, forUp_succ, ih, Nat.add_assoc]

/-- The loop over `lo .. hi-1` is the loop over `lo .. mid-1` followed by the loop
over `mid .. hi-1`. -/
theorem forUp_split {σ : Type} (body : Nat → σ → σ) (lo mid hi : Nat) (h1 : lo ≤ mid)
    (h2 : mid ≤ hi) (s : σ) :
    forUp body mid (hi - mid) (forUp body lo (mid - lo) s) = forUp body lo (hi - lo) s := by
  have e : hi - lo = (mid - lo) + (hi - mid) := by omega
  have e2 : lo + (mid - lo) = mid := by omega
  rw [e, forUp_add, e2]

/-- An ascending loop is a left fold over `0, 1, ..., n-1`. -/
theorem forUp_foldl {σ : Type} (body : Nat → σ → σ) (n : Nat) (s : σ) :
    forUp body 0 n s = List.foldl (fun v j => body j v) s (List.range n) := by
  induction n with
  | zero => rfl
  | succ n ih =>
    rw [forUp_succ, ih, List.range_succ, List.foldl_append, Nat.zero_add]
    rfl

/-- A loop rewriting every cell `i < n` from its own value, for any type of
values. -/
theorem mapLoopOp_apply {α : Type} (n : Nat) (f : Nat → α → α) (y : Nat → α) (i : Nat) :
    forRange 0 n (fun i (y : Nat → α) => Function.update y i (f i (y i))) y i =
      if i < n then f i (y i) else y i := by
  unfold forRange
  by_cases h : i < n
  · have key := (forUp_update (fun i : Nat => i) (fun i (y : Nat → α) => f i (y i)) 0 (n - 0)
      y).2 (by intro i j hij _; omega) i (by omega)
    simp only [Nat.zero_add] at key
    rw [key, if_pos h,
      (forUp_update (fun i : Nat => i) (fun i (y : Nat → α) => f i (y i)) 0 i y).1 i
        (by intro j hj; omega)]
  · rw [(forUp_update (fun i : Nat => i) (fun i (y : Nat → α) => f i (y i)) 0 (n - 0) y).1 i
      (by intro j hj; omega), if_neg h]

/-- The one additions of a group written out in the source, ending at column
`j = base + 0`, are the ascending loop over the columns `base .. base + 0`. -/
theorem fold1 {α : Type} (add : α → α → α) (T : Nat → α) (v : α) (j base : Nat)
    (hj : j = base + 0) :
    add v (T j) =
      forUp (fun j v => add v (T j)) base 1 v := by
  subst hj
  rfl

/-- The two additions of a group written out in the source, ending at column
`j = base + 1`, are the ascending loop over the columns `base .. base + 1`. -/
theorem fold2 {α : Type} (add : α → α → α) (T : Nat → α) (v : α) (j base : Nat)
    (hj : j = base + 1) :
    add (add v (T (j - 1))) (T j) =
      forUp (fun j v => add v (T j)) base 2 v := by
  subst hj
  have ee : ∀ d, d ≤ 1 → base + 1 - d = base + (1 - d) := fun d hd => by omega
  rw [ee 1 (by decide)]
  rfl

/-- The four additions of a group written out in the source, ending at column
`j = base + 3`, are the ascending loop over the columns `base .. base + 3`. -/
theorem fold4 {α : Type} (add : α → α → α) (T : Nat → α) (v : α) (j base : Nat)
    (hj : j = base + 3) :
    add (add (add (add v (T (j - 3))) (T (j - 2))) (T (j - 1))) (T j) =
      forUp (fun j v => add v (T j)) base 4 v := by
  subst hj
  have ee : ∀ d, d ≤ 3 → base + 3 - d = base + (3 - d) := fun d hd => by omega
  rw [ee 3 (by decide), ee 2 (by decide), ee 1 (by decide)]
  rfl

/-- The eight additions of a group written out in the source, ending at column
`j = base + 7`, are the ascending loop over the columns `base .. base + 7`. -/
theorem fold8 {α : Type} (add : α → α → α) (T : Nat → α) (v : α) (j base : Nat)
    (hj : j = base + 7) :
    add (add (add (add (add (add (add (add v (T (j - 7))) (T (j - 6))) (T (j - 5))) (T (j - 4)))
      (T (j - 3))) (T (j - 2))) (T (j - 1))) (T j) =
      forUp (fun j v => add v (T j)) base 8 v := by
  subst hj
  have ee : ∀ d, d ≤ 7 → base + 7 - d = base + (7 - d) := fun d hd => by omega
  rw [ee 7 (by decide), ee 6 (by decide), ee 5 (by decide), ee 4 (by decide), ee 3 (by decide),
    ee 2 (by decide), ee 1 (by decide)]
  rfl

/-- The sixteen additions of a group written out in the source, ending at column
`j = base + 15`, are the ascending loop over the columns `base .. base + 15`. -/
theorem fold16 {α : Type} (add : α → α → α) (T : Nat → α) (v : α) (j base : Nat)
    (hj : j = base + 15) :
    add (add (add (add (add (add (add (add (add (add (add (add (add (add (add (add v
      (T (j - 15))) (T (j - 14))) (T (j - 13))) (T (j - 12))) (T (j - 11))) (T (j - 10)))
      (T (j - 9))) (T (j - 8))) (T (j - 7))) (T (j - 6))) (T (j - 5))) (T (j - 4))) (T (j - 3)))
      (T (j - 2))) (T (j - 1))) (T j) =
      forUp (fun j v => add v (T j)) base 16 v := by
  subst hj
  have ee : ∀ d, d ≤ 15 → base + 15 - d = base + (15 - d) := fun d hd => by omega
  rw [ee 15 (by decide), ee 14 (by decide), ee 13 (by decide), ee 12 (by decide),
    ee 11 (by decide), ee 10 (by decide), ee 9 (by decide), ee 8 (by decide), ee 7 (by decide),
    ee 6 (by decide), ee 5 (by decide), ee 4 (by decide), ee 3 (by decide), ee 2 (by decide),
    ee 1 (by decide)]
  rfl

/-- A loop over the cells `i < n` whose iteration `i` writes cell `i`: the final
value of cell `i` is the one computed by iteration `i`. -/
theorem rowLoop_eq {α : Type} (n : Nat) (val : Nat → (Nat → α) → α) (y : Nat → α) (i : Nat)
    (hi : i < n) :
    forRange 0 n (fun i (y : Nat → α) => Function.update y i (val i y)) y i =
      val i (forUp (fun i (y : Nat → α) => Function.update y i (val i y)) 0 i y) := by
  unfold forRange
  have key := (forUp_update (fun i : Nat => i) val 0 (n - 0) y).2
    (by intro i j hij _; omega) i (by omega)
  simp only [Nat.zero_add] at key
  exact key

/-- In such a loop, cell `i` still has its initial value when iteration `i`
starts. -/
theorem rowLoop_before {α : Type} (val : Nat → (Nat → α) → α) (y : Nat → α) (i : Nat) :
    forUp (fun i (y : Nat → α) => Function.update y i (val i y)) 0 i y i = y i :=
  (forUp_update (fun i : Nat => i) val 0 i y).1 i (by intro j hj; omega)

/-- A loop `for (j = base + 15; j < n2; j = j + 16)` whose body handles the sixteen
columns `j - 15 .. j` of cell `i` in ascending order handles the columns
`base .. n2 - 1` in ascending order, when `n2 - base` is a multiple of sixteen. -/
theorem forStep_groups {α : Type} (G : Nat → (Nat → α) → (Nat → α)) (f : Nat → α → α)
    (i : Nat) (hG : ∀ base s, G (base + 15) s i = forUp f base 16 (s i)) (n2 q : Nat) :
    ∀ (base fuel : Nat) (s : Nat → α), q ≤ fuel → n2 = base + 16 * q →
      forStep G n2 16 fuel (base + 15) s i = forUp f base (n2 - base) (s i) := by
  induction q with
  | zero =>
    intro base fuel s _ hn2
    have hnot : ¬ base + 15 < n2 := by omega
    have e : n2 - base = 0 := by omega
    rw [e]
    cases fuel with
    | zero => rfl
    | succ fuel => rw [forStep, if_neg hnot]; rfl
  | succ q ih =>
    intro base fuel s hf hn2
    obtain ⟨fuel1, rfl⟩ : ∃ f, fuel = f + 1 := ⟨fuel - 1, by omega⟩
    have hlt : base + 15 < n2 := by omega
    have hb : base + 15 + 16 = base + 16 + 15 := by omega
    have e : n2 - base = 16 + (n2 - (base + 16)) := by omega
    rw [forStep, if_pos hlt, hb, ih (base + 16) fuel1 _ (by omega) (by omega), hG, e,
      forUp_add]

namespace Common

/-- The unrolled `dmxpy` over the rationals is the instance of the general one at
the operations `+` and `*`. -/
theorem dmxpyOp_rat (n1 : Nat) (y : Buf) (n2 ldm : Nat) (x m : Buf) :
    dmxpyOp (fun u v : ℚ => u + v) (fun u v : ℚ => u * v) n1 y n2 ldm x m =
      dmxpy n1 y n2 ldm x m := rfl

/-- The unrolled `dmxpy` over arbitrary operations, cell by cell: the ascending
loop over all columns. -/
theorem dmxpyOp_apply {α : Type} (add mul : α → α → α) (n1 : Nat) (y : Nat → α)
    (n2 ldm : Nat) (x m : Nat → α) (i : Nat) (hi : i < n1) :
    dmxpyOp add mul n1 y n2 ldm x m i =
      forUp (fun j v => add v (termOp mul ldm x m i j)) 0 n2 (y i) := by
  have h1 : ∀ s : Nat → α, cleanup1Op add mul n1 n2 ldm x m s i =
      forUp (fun j v => add v (termOp mul ldm x m i j)) 0 (n2 % 2 - 0) (s i) := by
    intro s
    by_cases h : n2 % 2 ≥ 1
    · have e : n2 % 2 - 0 = 1 := by omega
      simp only [cleanup1Op, if_pos h]
      rw [rowLoop_eq n1 _ s i hi, e]
      simp only [rowLoop_before]
      exact fold1 add (termOp mul ldm x m i) (s i) (n2 % 2 - 1) 0 (by omega)
    · have e : n2 % 2 - 0 = 0 := by omega
      simp only [cleanup1Op, if_neg h]
      rw [e]
      rfl
  have h2 : ∀ s : Nat → α, cleanup2Op add mul n1 n2 ldm x m s i =
      forUp (fun j v => add v (termOp mul ldm x m i j)) (n2 % 2) (n2 % 4 - n2 % 2) (s i) := by
    intro s
    by_cases h : n2 % 4 ≥ 2
    · have e : n2 % 4 - n2 % 2 = 2 := by omega
      simp only [cleanup2Op, if_pos h]
      rw [rowLoop_eq n1 _ s i hi, e]
      simp only [rowLoop_before]
      exact fold2 add (termOp mul ldm x m i) (s i) (n2 % 4 - 1) (n2 % 2) (by omega)
    · have e : n2 % 4 - n2 % 2 = 0 := by omega
      simp only [cleanup2Op, if_neg h]
      rw [e]
      rfl
  have h3 : ∀ s : Nat → α, cleanup4Op add mul n1 n2 ldm x m s i =
      forUp (fun j v => add v (termOp mul ldm x m i j)) (n2 % 4) (n2 % 8 - n2 % 4) (s i) := by
    intro s
    by_cases h : n2 % 8 ≥ 4
    · have e : n2 % 8 - n2 % 4 = 4 := by omega
      simp only [cleanup4Op, if_pos h]
      rw [rowLoop_eq n1 _ s i hi, e]
      simp only [rowLoop_before]
      exact fold4 add (termOp mul ldm x m i) (s i) (n2 % 8 - 1) (n2 % 4) (by omega)
    · have e : n2 % 8 - n2 % 4 = 0 := by omega
      simp only [cleanup4Op, if_neg h]
      rw [e]
      rfl
  have h4 : ∀ s : Nat → α, cleanup8Op add mul n1 n2 ldm x m s i =
      forUp (fun j v => add v (termOp mul ldm x m i j)) (n2 % 8) (n2 % 16 - n2 % 8) (s i) := by
    intro s
    by_cases h : n2 % 16 ≥ 8
    · have e : n2 % 16 - n2 % 8 = 8 := by omega
      simp only [cleanup8Op, if_pos h]
      rw [rowLoop_eq n1 _ s i hi, e]
      simp only [rowLoop_before]
      exact fold8 add (termOp mul ldm x m i) (s i) (n2 % 16 - 1) (n2 % 8) (by omega)
    · have e : n2 % 16 - n2 % 8 = 0 := by omega
      simp only [cleanup8Op, if_neg h]
      rw [e]
      rfl
  have h5 : ∀ s : Nat → α, mainGroupsOp add mul n1 n2 ldm x m s i =
      forUp (fun j v => add v (termOp mul ldm x m i j)) (n2 % 16) (n2 - n2 % 16) (s i) := by
    intro s
    have e : n2 % 16 + 16 - 1 = n2 % 16 + 15 := by omega
    unfold mainGroupsOp
    rw [e]
    refine forStep_groups _ (fun j v => add v (termOp mul ldm x m i j)) i ?_ n2 (n2 / 16)
      (n2 % 16) n2 s (Nat.div_le_self _ _) (by omega)
    intro base s
    rw [rowLoop_eq n1 _ s i hi]
    simp only [rowLoop_before]
    exact fold16 add (termOp mul ldm x m i) (s i) (base + 15) base rfl
  unfold dmxpyOp
  rw [h5, h4, h3, h2, h1,
    forUp_split _ 0 (n2 % 2) (n2 % 4) (Nat.zero_le _) (by omega),
    forUp_split _ 0 (n2 % 4) (n2 % 8) (Nat.zero_le _) (by omega),
    forUp_split _ 0 (n2 % 8) (n2 % 16) (Nat.zero_le _) (by omega),
    forUp_split _ 0 (n2 % 16) n2 (Nat.zero_le _) (Nat.mod_le _ _), Nat.sub_zero]

/-- Claim C25. For all `n1`, `n2` and every output index `i < n1`, the unrolled `dmxpy`
performs the additions of the terms `x[j]*m[ldm*j+i]` onto `y[i]` in strictly
ascending order of `j`, left-associated, exactly like the plain loop
`for j in 0..n2-1: y[i] = y[i] + x[j]*m[ldm*j+i]`: the two are equal on any type of
values, whatever binary operations `add` and `mul` stand for `+` and `*` (nothing
is assumed about them), and the common value is the left fold of
`v, j ↦ add v (mul x[j] m[ldm*j+i])` over `j = 0, 1, ..., n2-1` started at `y[i]`.
Over the rationals with `+` and `*` the general unrolled function is the
`dmxpy` of `common_functionality.cpp`. -/
theorem dmxpy_unrolled_order {α : Type} (add mul : α → α → α) (n1 : Nat) (y : Nat → α)
    (n2 ldm : Nat) (x m : Nat → α) (i : Nat) (hi : i < n1) :
    dmxpyOp add mul n1 y n2 ldm x m i = dmxpyPlainCell add mul y n2 ldm x m i ∧
    dmxpyOp add mul n1 y n2 ldm x m i =
      List.foldl (fun v j => add v (mul (x j) (m (ldm * j + i)))) (y i) (List.range n2) ∧
    ∀ (y1 x1 m1 : Buf),
      dmxpyOp (fun u v : ℚ => u + v) (fun u v : ℚ => u * v) n1 y1 n2 ldm x1 m1 =
        dmxpy n1 y1 n2 ldm x1 m1 := by
  refine ⟨?_, ?_, fun y1 x1 m1 => dmxpyOp_rat n1 y1 n2 ldm x1 m1⟩
  · rw [dmxpyOp_apply add mul n1 y n2 ldm x m i hi]
    rfl
  · rw [dmxpyOp_apply add mul n1 y n2 ldm x m i hi, forUp_foldl]
    rfl

/-- Claim C25 on integers with subtraction in place of both operations (neither
associative nor commutative), `n1 = 2`, `n2 = 19`, `ldm = 2`, cell `1`. -/
theorem dmxpy_unrolled_order_witness :
    dmxpyOp (fun u v : Int => u - v) (fun u v : Int => u - v) 2 exCount 19 2 exCount exCount 1 =
      dmxpyPlainCell (fun u v : Int => u - v) (fun u v : Int => u - v) exCount 19 2 exCount
        exCount 1 ∧
    dmxpyOp (fun u v : Int => u - v) (fun u v : Int => u - v) 2 exCount 19 2 exCount exCount 1 =
      List.foldl (fun v j => v - (exCount j - exCount (2 * j + 1))) (exCount 1)
        (List.range 19) ∧
    ∀ (y1 x1 m1 : Buf),
      dmxpyOp (fun u v : ℚ => u + v) (fun u v : ℚ => u * v) 2 y1 19 2 x1 m1 =
        dmxpy 2 y1 19 2 x1 m1 :=
  dmxpy_unrolled_order (fun u v : Int => u - v) (fun u v : Int => u - v) 2 exCount 19 2 exCount
    exCount 1 (by decide)

end Common

/-! ## Claim C15: numbers as tables of digits -/

theorem packN_succ_bot (w n : Nat) (e : Nat → Nat) :
    packN w (n + 1) e = e 0 + 2 ^ w * packN w n (fun j => e (j + 1)) := by
  unfold packN
  rw [Finset.sum_range_succ', Finset.mul_sum, Nat.mul_zero, pow_zero, Nat.mul_one, Nat.add_comm]
  congr 1
  apply Finset.sum_congr rfl
  intro j _
  rw [Nat.mul_succ, pow_add]
  ring

theorem packN_succ_top (w n : Nat) (e : Nat → Nat) :
    packN w (n + 1) e = packN w n e + 2 ^ (w * n) * e n := by
  unfold packN
  rw [Finset.sum_range_succ, Nat.mul_comm (e n)]

theorem packN_congr (w n : Nat) (e1 e2 : Nat → Nat) (h : ∀ j, j < n → e1 j = e2 j) :
    packN w n e1 = packN w n e2 :=
  Finset.sum_congr rfl (fun j hj => by rw [h j (Finset.mem_range.mp hj)])

theorem packN_add (w n : Nat) (e1 e2 : Nat → Nat) :
    packN w n e1 + packN w n e2 = packN w n (fun j => e1 j + e2 j) := by
  unfold packN
  rw [← Finset.sum_add_distrib]
  exact Finset.sum_congr rfl (fun j _ => by ring)

theorem packN_mul_left (w n a : Nat) (e : Nat → Nat) :
    a * packN w n e = packN w n (fun j => a * e j) := by
  unfold packN
  rw [Finset.mul_sum]
  exact Finset.sum_congr rfl (fun j _ => by ring)

theorem packN_mul_right (w n a : Nat) (e : Nat → Nat) :
    packN w n e * a = packN w n (fun j => e j * a) := by
  rw [Nat.mul_comm, packN_mul_left]
  exact packN_congr w n _ _ (fun j _ => Nat.mul_comm _ _)

theorem packN_sub (w n : Nat) (e1 e2 : Nat → Nat) (h : ∀ j, j < n → e2 j ≤ e1 j) :
    packN w n e1 - packN w n e2 = packN w n (fun j => e1 j - e2 j) := by
  have e : packN w n (fun j => e1 j - e2 j) + packN w n e2 = packN w n e1 := by
    rw [packN_add]
    exact packN_congr w n _ _ (fun j hj => Nat.sub_add_cancel (h j hj))
  omega

/-- A number with `n` digits below `2^w` is below `2^(w*n)`. -/
theorem packN_lt (w n : Nat) (e : Nat → Nat) (h : ∀ j, j < n → e j < 2 ^ w) :
    packN w n e < 2 ^ (w * n) := by
  induction n with
  | zero => simp [packN]
  | succ n ih =>
    have h1 := ih (fun j hj => h j (Nat.lt_succ_of_lt hj))
    have h2 := h n (Nat.lt_succ_self n)
    rw [packN_succ_top, Nat.mul_succ, pow_add]
    have h3 : 2 ^ (w * n) * (e n + 1) ≤ 2 ^ (w * n) * 2 ^ w := Nat.mul_le_mul_left _ h2
    rw [Nat.mul_add, Nat.mul_one] at h3
    omega

/-- The number `repunit w n` has the `n` digits `1`. -/
theorem repunit_eq (w n : Nat) (hw : 1 ≤ w) : repunit w n = packN w n (fun _ => 1) := by
  have h2 : 2 ≤ 2 ^ w := by
    calc 2 = 2 ^ 1 := rfl
      _ ≤ 2 ^ w := Nat.pow_le_pow_right (by decide) hw
  have key : packN w n (fun _ => 1) * (2 ^ w - 1) + 1 = 2 ^ (w * n) := by
    induction n with
    | zero => simp [packN]
    | succ n ih =>
      obtain ⟨b, hb⟩ : ∃ b, 2 ^ w = b + 1 := ⟨2 ^ w - 1, by omega⟩
      rw [hb, Nat.add_sub_cancel] at ih ⊢
      rw [packN_succ_top, Nat.mul_one, Nat.mul_succ, pow_add, hb, Nat.add_mul, Nat.mul_succ]
      omega
  unfold repunit
  rw [← key, Nat.add_sub_cancel]
  exact Nat.mul_div_cancel _ (by omega)

theorem packN_const (w n m : Nat) (hw : 1 ≤ w) : m * repunit w n = packN w n (fun _ => m) := by
  rw [repunit_eq w n hw, packN_mul_left]
  exact packN_congr w n _ _ (fun j _ => Nat.mul_one m)

/-- Bits above a position do not influence the digits below it. -/
theorem digit_add_high (x q v a b : Nat) (h : a + b ≤ v) :
    (x + 2 ^ v * q) / 2 ^ a % 2 ^ b = x / 2 ^ a % 2 ^ b := by
  have e : 2 ^ v = 2 ^ (a + b) * 2 ^ (v - (a + b)) := by
    rw [← pow_add]
    congr 1
    omega
  rw [← Nat.mod_mul_right_div_self, ← Nat.mod_mul_right_div_self, ← pow_add, e, Nat.mul_assoc,
    Nat.add_mul_mod_self_left]

/-- Digit number `c` of a number with `n` digits below `2^w`. -/
theorem packN_digit (w n : Nat) (e : Nat → Nat) (h : ∀ j, j < n → e j < 2 ^ w) (c : Nat)
    (hc : c < n) : packN w n e / 2 ^ (w * c) % 2 ^ w = e c := by
  induction n with
  | zero => omega
  | succ n ih =>
    have h1 := packN_lt w n e (fun j hj => h j (Nat.lt_succ_of_lt hj))
    rw [packN_succ_top]
    rcases Nat.lt_succ_iff_lt_or_eq.mp hc with hlt | heq
    · rw [digit_add_high _ _ _ _ _ (by
        have : w * c + w = w * (c + 1) := by ring
        rw [this]
        exact Nat.mul_le_mul_left w hlt)]
      exact ih (fun j hj => h j (Nat.lt_succ_of_lt hj)) hlt
    · subst heq
      rw [Nat.add_mul_div_left _ _ (by positivity), Nat.div_eq_of_lt h1, Nat.zero_add]
      exact Nat.mod_eq_of_lt (h c (Nat.lt_succ_self c))

/-- The bitwise `and` of two numbers, computed separately below and above bit `t`. -/
theorem and_split (t lo1 hi1 lo2 hi2 : Nat) (h1 : lo1 < 2 ^ t) (h2 : lo2 < 2 ^ t) :
    (lo1 + 2 ^ t * hi1) &&& (lo2 + 2 ^ t * hi2) = (lo1 &&& lo2) + 2 ^ t * (hi1 &&& hi2) := by
  have h3 : lo1 &&& lo2 < 2 ^ t := Nat.and_lt_two_pow lo1 h2
  apply Nat.eq_of_testBit_eq
  intro i
  rw [Nat.add_comm lo1, Nat.add_comm lo2, Nat.add_comm (lo1 &&& lo2), Nat.testBit_and,
    Nat.testBit_mul_pow_two_add _ h1, Nat.testBit_mul_pow_two_add _ h2,
    Nat.testBit_mul_pow_two_add _ h3]
  by_cases hi : i < t
  · rw [if_pos hi, if_pos hi, if_pos hi, Nat.testBit_and]
  · rw [if_neg hi, if_neg hi, if_neg hi, Nat.testBit_and]

/-- With a mask below `2^u`, only the `u` low bits of the other number count. -/
theorem and_mod_of_lt (x m u : Nat) (hm : m < 2 ^ u) : x &&& m = (x % 2 ^ u) &&& m := by
  apply Nat.eq_of_testBit_eq
  intro i
  rw [Nat.testBit_and, Nat.testBit_and, Nat.testBit_mod_two_pow]
  by_cases hi : i < u
  · simp [hi]
  · have : m.testBit i = false :=
      Nat.testBit_lt_two_pow (lt_of_lt_of_le hm (Nat.pow_le_pow_right (by decide) (by omega)))
    simp [this]

/-- Shifting a table of digits right by `s` bits and masking every field with
`m < 2^(w-s)` shifts and masks every digit. -/
theorem packN_shift_and (w s m : Nat) (hs : s ≤ w) (hm : m < 2 ^ (w - s)) (n : Nat) :
    ∀ e : Nat → Nat, (∀ j, j < n → e j < 2 ^ w) →
      (packN w n e >>> s) &&& packN w n (fun _ => m) =
        packN w n (fun j => (e j >>> s) &&& m) := by
  induction n with
  | zero =>
    intro e _
    simp [packN]
  | succ n ih =>
    intro e h
    have h0 := h 0 (Nat.succ_pos n)
    have hw : 2 ^ w = 2 ^ s * 2 ^ (w - s) := by
      rw [← pow_add]
      congr 1
      omega
    have hmw : m < 2 ^ w := lt_of_lt_of_le hm (Nat.pow_le_pow_right (by decide) (by omega))
    have hpos : 0 < 2 ^ s := by positivity
    rw [packN_succ_bot, packN_succ_bot, packN_succ_bot]
    generalize hP : packN w n (fun j => e (j + 1)) = P
    have ihP := ih (fun j => e (j + 1)) (fun j hj => h (j + 1) (Nat.succ_lt_succ hj))
    rw [hP] at ihP
    -- the shifted number, split at bit `w`
    have hshift : (e 0 + 2 ^ w * P) >>> s =
        (e 0 / 2 ^ s + 2 ^ (w - s) * (P % 2 ^ s)) + 2 ^ w * (P >>> s) := by
      rw [Nat.shiftRight_eq_div_pow, Nat.shiftRight_eq_div_pow]
      have e1 : e 0 + 2 ^ w * P = e 0 + 2 ^ s * (2 ^ (w - s) * P) := by rw [hw, Nat.mul_assoc]
      rw [e1, Nat.add_mul_div_left _ _ hpos]
      have e2 : 2 ^ (w - s) * P = 2 ^ (w - s) * (P % 2 ^ s) + 2 ^ w * (P / 2 ^ s) := by
        conv_lhs => rw [← Nat.mod_add_div P (2 ^ s)]
        rw [Nat.mul_add, hw]
        ring
      rw [e2, Nat.add_assoc]
    have hlo : e 0 / 2 ^ s + 2 ^ (w - s) * (P % 2 ^ s) < 2 ^ w := by
      have a1 : e 0 / 2 ^ s < 2 ^ (w - s) := by
        rw [Nat.div_lt_iff_lt_mul hpos, Nat.mul_comm, ← hw]
        exact h0
      have a2 : P % 2 ^ s < 2 ^ s := Nat.mod_lt _ hpos
      have a3 : 2 ^ (w - s) * (P % 2 ^ s + 1) ≤ 2 ^ (w - s) * 2 ^ s := Nat.mul_le_mul_left _ a2
      rw [Nat.mul_add, Nat.mul_one, Nat.mul_comm (2 ^ (w - s)) (2 ^ s), ← hw] at a3
      omega
    have hlow : (e 0 / 2 ^ s + 2 ^ (w - s) * (P % 2 ^ s)) &&& m = (e 0 >>> s) &&& m := by
      rw [and_mod_of_lt _ m (w - s) hm, Nat.add_mul_mod_self_left, ← and_mod_of_lt _ m (w - s) hm,
        Nat.shiftRight_eq_div_pow]
    rw [hshift, and_split w _ _ _ _ hlo hmw, hlow, ihP]

/-- A number with `n ≥ 1` digits below `2^w` whose top digit is below `2^u`. -/
theorem packN_lt_top (w n u : Nat) (e : Nat → Nat) (h : ∀ j, j < n → e j < 2 ^ w)
    (htop : e n < 2 ^ u) : packN w (n + 1) e < 2 ^ (w * n + u) := by
  have h1 := packN_lt w n e h
  rw [packN_succ_top, pow_add]
  have h3 : 2 ^ (w * n) * (e n + 1) ≤ 2 ^ (w * n) * 2 ^ u := Nat.mul_le_mul_left _ htop
  rw [Nat.mul_add, Nat.mul_one] at h3
  omega

/-- The same digit `m` in every field of an `n × n` table. -/
theorem packM_const (n m : Nat) (hn : 1 ≤ n) :
    m * (repunit 36 n * repunit (36 * n) n) = packM n (fun _ _ => m) := by
  unfold packM
  rw [← Nat.mul_assoc, packN_const 36 n m (by decide), packN_const (36 * n) n _ (by omega)]

/-- Shifting an `n × n` table right by `s` bits and masking every field with
`m < 2^(36-s)` shifts and masks every entry. -/
theorem packM_shift_and (n s m : Nat) (hn : 1 ≤ n) (hs : s ≤ 36) (hm : m < 2 ^ (36 - s))
    (E : Nat → Nat → Nat) (hE : ∀ r j, r < n → j < n → E r j < 2 ^ 36) :
    (packM n E >>> s) &&& (m * (repunit 36 n * repunit (36 * n) n)) =
      packM n (fun r j => (E r j >>> s) &&& m) := by
  obtain ⟨k, rfl⟩ : ∃ k, n = k + 1 := ⟨n - 1, by omega⟩
  have hrow : packN 36 (k + 1) (fun _ => m) < 2 ^ (36 * (k + 1) - s) := by
    have h1 := packN_lt_top 36 k (36 - s) (fun _ => m)
      (fun _ _ => lt_of_lt_of_le hm (Nat.pow_le_pow_right (by decide) (by omega))) hm
    have e : 36 * k + (36 - s) = 36 * (k + 1) - s := by omega
    rw [e] at h1
    exact h1
  rw [packM_const (k + 1) m hn]
  unfold packM
  rw [packN_shift_and (36 * (k + 1)) s _ (by omega) hrow (k + 1) _
    (fun r hr => packN_lt 36 (k + 1) (E r) (fun j hj => hE r j hr hj))]
  apply packN_congr
  intro r hr
  exact packN_shift_and 36 s m hs hm (k + 1) (E r) (fun j hj => hE r j hr hj)

/-- Row `i` of a packed table. -/
theorem packM_row (n : Nat) (E : Nat → Nat → Nat) (hE : ∀ r j, r < n → j < n → E r j < 2 ^ 36)
    (i : Nat) (hi : i < n) :
    (packM n E >>> (36 * n * i)) % 2 ^ (36 * n) = packN 36 n (E i) := by
  rw [Nat.shiftRight_eq_div_pow]
  exact packN_digit (36 * n) n _ (fun r hr => packN_lt 36 n (E r) (fun j hj => hE r j hr hj)) i hi

/-- The entry in row `i`, column `c` of a packed table. -/
theorem packM_entry (n : Nat) (E : Nat → Nat → Nat) (hE : ∀ r j, r < n → j < n → E r j < 2 ^ 36)
    (i c : Nat) (hi : i < n) (hc : c < n) :
    (packM n E >>> (36 * n * i + 36 * c)) % 2 ^ 36 = E i c := by
  have hrow := packM_row n E hE i hi
  rw [Nat.shiftRight_eq_div_pow] at hrow
  rw [Nat.shiftRight_eq_div_pow, pow_add, ← Nat.div_div_eq_div_mul,
    ← Nat.mod_add_div (packM n E / 2 ^ (36 * n * i)) (2 ^ (36 * n)), hrow,
    digit_add_high _ _ _ _ _ (by omega)]
  exact packN_digit 36 n (E i) (fun j hj => hE i j hi hj) c hc

/-- The packed column `c` of a packed table. -/
theorem packM_column (n : Nat) (hn : 1 ≤ n) (E : Nat → Nat → Nat)
    (hE : ∀ r j, r < n → j < n → E r j < 2 ^ 36) (c : Nat) (hc : c < n) :
    (packM n E >>> (36 * c)) &&& (68719476735 * repunit (36 * n) n) =
      packN (36 * n) n (fun r => E r c) := by
  have hm : 68719476735 < 2 ^ (36 * n - 36 * c) :=
    lt_of_lt_of_le (by norm_num) (Nat.pow_le_pow_right (by decide) (show 36 ≤ 36 * n - 36 * c by omega))
  rw [packN_const (36 * n) n _ (by omega)]
  unfold packM
  rw [packN_shift_and (36 * n) (36 * c) _ (by omega) hm n _
    (fun r hr => packN_lt 36 n (E r) (fun j hj => hE r j hr hj))]
  apply packN_congr
  intro r hr
  show (_ >>> _) &&& (2 ^ 36 - 1) = _
  rw [Nat.and_pow_two_sub_one_eq_mod, Nat.shiftRight_eq_div_pow]
  exact packN_digit 36 n (E r) (fun j hj => hE r j hr hj) c hc

/-- The map `foldDigits` applies `reduce17` to every entry. -/
theorem foldDigits_eq (n : Nat) (hn : 1 ≤ n) (E : Nat → Nat → Nat)
    (hE : ∀ r j, r < n → j < n → E r j < 2 ^ 36) :
    foldDigits n (packM n E) = packM n (fun r j => reduce17 (E r j)) := by
  have h0 := packM_shift_and n 0 131071 hn (by decide) (by norm_num) E hE
  have h17 := packM_shift_and n 17 524287 hn (by decide) (by norm_num) E hE
  rw [Nat.shiftRight_zero] at h0
  unfold foldDigits
  rw [h0, h17]
  unfold packM
  rw [packN_add]
  apply packN_congr
  intro r hr
  rw [packN_add]
  apply packN_congr
  intro j hj
  have hb := hE r j hr hj
  have e1 : (E r j >>> 0) &&& 131071 = E r j % 131072 := by
    show E r j &&& (2 ^ 17 - 1) = _
    rw [Nat.and_pow_two_sub_one_eq_mod]
  have e2 : (E r j >>> 17) &&& 524287 = E r j / 131072 := by
    have hlt : E r j >>> 17 < 2 ^ 19 := by
      rw [Nat.shiftRight_eq_div_pow]
      omega
    show (E r j >>> 17) &&& (2 ^ 19 - 1) = _
    rw [Nat.and_pow_two_sub_one_of_lt_two_pow hlt, Nat.shiftRight_eq_div_pow]
  show ((E r j >>> 0) &&& 131071) + ((E r j >>> 17) &&& 524287) = reduce17 (E r j)
  rw [e1, e2]
  rfl

/-- The residue found by `headAt`. -/
theorem headAt_eq (n : Nat) (E : Nat → Nat → Nat) (hE : ∀ r j, r < n → j < n → E r j < 2 ^ 36)
    (i c : Nat) (hi : i < n) (hc : c < n) :
    headAt n c i (packM n E) = E i c % 131071 := by
  unfold headAt
  rw [packM_entry n E hE i c hi hc]

/-- The bound kept by the elimination: entries at most `163838` give, in one step,
numbers below `2^36` that `reduce17` brings back under the bound in two
applications. -/
theorem step_bound (a d h t : Nat) (ha : a < 131071) (hd : d ≤ 163838) (ht : t ≤ 163838) :
    a * d + (262142 - h) * t < 2 ^ 36 := by
  have h1 : a * d ≤ 131070 * 163838 := Nat.mul_le_mul (by omega) hd
  have h2 : (262142 - h) * t ≤ 262142 * 163838 := Nat.mul_le_mul (by omega) ht
  have h3 : 131070 * 163838 + 262142 * 163838 < 2 ^ 36 := by norm_num
  omega

theorem reduce17_bound (x : Nat) (h : x < 2 ^ 36) :
    reduce17 x < 2 ^ 36 ∧ reduce17 (reduce17 x) ≤ 163838 := by
  unfold reduce17
  have e : (2 : Nat) ^ 36 = 68719476736 := by norm_num
  rw [e] at h ⊢
  omega

/-- One elimination step on a packed table, entry by entry. -/
theorem elimStep_eq (n : Nat) (hn : 1 ≤ n) (E : Nat → Nat → Nat)
    (hE : ∀ r j, r < n → j < n → E r j ≤ 163838) (c i : Nat) (hc : c < n) (hi : i < n) :
    elimStep n c i (packM n E) =
      packM n (fun r j =>
        reduce17 (reduce17 (E i c % 131071 * E r j + (262142 - E r c) * E i j))) := by
  have hE36 : ∀ r j, r < n → j < n → E r j < 2 ^ 36 := fun r j hr hj =>
    lt_of_le_of_lt (hE r j hr hj) (by norm_num)
  have hnew : ∀ r j, r < n → j < n →
      E i c % 131071 * E r j + (262142 - E r c) * E i j < 2 ^ 36 := fun r j hr hj =>
    step_bound _ _ _ _ (Nat.mod_lt _ (by decide)) (hE r j hr hj) (hE i j hi hj)
  have hfold : ∀ r j, r < n → j < n →
      reduce17 (E i c % 131071 * E r j + (262142 - E r c) * E i j) < 2 ^ 36 := fun r j hr hj =>
    (reduce17_bound _ (hnew r j hr hj)).1
  have hsum : headAt n c i (packM n E) * packM n E +
      (262142 * repunit (36 * n) n -
          ((packM n E >>> (36 * c)) &&& (68719476735 * repunit (36 * n) n))) *
        ((packM n E >>> (36 * n * i)) % 2 ^ (36 * n)) =
      packM n (fun r j => E i c % 131071 * E r j + (262142 - E r c) * E i j) := by
    rw [headAt_eq n E hE36 i c hi hc, packM_row n E hE36 i hi, packM_column n hn E hE36 c hc,
      packN_const (36 * n) n 262142 (by omega),
      packN_sub (36 * n) n _ _ (fun r hr => le_trans (hE r c hr hc) (by norm_num)),
      packN_mul_right]
    unfold packM
    rw [packN_mul_left, packN_add]
    apply packN_congr
    intro r _
    rw [packN_mul_left, packN_mul_left, packN_add]
  unfold elimStep
  rw [hsum, foldDigits_eq n hn _ hnew, foldDigits_eq n hn _ hfold]

/-! ## Claim C15: the packed table of generator states -/

/-- Advancing a generator state by `n` steps is one multiplication. -/
theorem lcgSeq_jump (t n : Nat) : 3125 ^ n % 65536 * lcgSeq t % 65536 = lcgSeq (t + n) := by
  rw [lcgSeq_closed, lcgSeq_closed, ← Nat.mul_mod, ← Nat.mul_assoc, ← pow_add, Nat.add_comm n t]

theorem packedStates_eq (w n : Nat) :
    ∀ t, packedStates w n (lcgSeq t) = packN w n (fun j => lcgSeq (t + 1 + j)) := by
  induction n with
  | zero =>
    intro t
    simp [packedStates, packN]
  | succ n ih =>
    intro t
    rw [packN_succ_bot]
    show lcgSeq (t + 1) + 2 ^ w * packedStates w n (lcgSeq (t + 1)) = _
    rw [ih (t + 1)]
    congr 2
    apply packN_congr
    intro j _
    congr 1
    omega

theorem nextRow_eq (n t : Nat) :
    nextRow n (packN 36 n (fun j => lcgSeq (t + j))) = packN 36 n (fun j => lcgSeq (t + n + j)) := by
  unfold nextRow
  have h := packN_shift_and 36 0 65535 (by decide) (by norm_num) n
    (fun j => 3125 ^ n % 65536 * lcgSeq (t + j))
  rw [Nat.shiftRight_zero] at h
  rw [packN_mul_left, packN_const 36 n 65535 (by decide), h]
  · apply packN_congr
    intro j _
    show (_ &&& (2 ^ 16 - 1)) = _
    rw [Nat.and_pow_two_sub_one_eq_mod, Nat.shiftRight_zero]
    show 3125 ^ n % 65536 * lcgSeq (t + j) % 65536 = _
    rw [lcgSeq_jump]
    congr 1
    omega
  · intro j _
    have h1 : 3125 ^ n % 65536 < 65536 := Nat.mod_lt _ (by decide)
    have h2 := lcgSeq_lt (t + j)
    have h3 : 3125 ^ n % 65536 * lcgSeq (t + j) ≤ 65536 * 65536 :=
      Nat.mul_le_mul (le_of_lt h1) (le_of_lt h2)
    exact lt_of_le_of_lt h3 (by norm_num)

theorem nextRow_iterate (n r : Nat) :
    (nextRow n)^[r] (packN 36 n (fun j => lcgSeq (1 + j))) =
      packN 36 n (fun j => lcgSeq (r * n + 1 + j)) := by
  induction r with
  | zero => simp
  | succ r ih =>
    rw [Function.iterate_succ_apply', ih, nextRow_eq]
    apply packN_congr
    intro j _
    congr 1
    ring

theorem packedRows_eq (n k : Nat) :
    ∀ R, packedRows n k R = packN (36 * n) k (fun r => (nextRow n)^[r] R) := by
  induction k with
  | zero =>
    intro R
    simp [packedRows, packN]
  | succ k ih =>
    intro R
    rw [packN_succ_bot]
    show R + 2 ^ (36 * n) * packedRows n k (nextRow n R) = _
    rw [ih (nextRow n R)]
    rfl

/-- The packed table built by `packedMatgen`: entry `(r, j)` is `s + 98303` for the
generator state `s` number `r*n + j + 1`. -/
theorem packedMatgen_eq (n : Nat) (hn : 1 ≤ n) :
    packedMatgen n = packM n (fun r j => lcgSeq (r * n + j + 1) + 98303) := by
  have h0 : packedStates 36 n 1325 = packN 36 n (fun j => lcgSeq (1 + j)) := by
    have h := packedStates_eq 36 n 0
    rw [Nat.zero_add] at h
    exact h
  unfold packedMatgen
  rw [h0, packedRows_eq, packM_const n 98303 hn]
  unfold packM
  rw [packN_add]
  apply packN_congr
  intro r _
  rw [nextRow_iterate, packN_add]
  apply packN_congr
  intro j _
  show lcgSeq (r * n + 1 + j) + 98303 = lcgSeq (r * n + j + 1) + 98303
  congr 2
  omega

/-! ## Claim C15: soundness of the elimination modulo `131071` -/

theorem prime_131071 : Nat.Prime 131071 := by norm_num

theorem cast_reduce17 (x : Nat) : ((reduce17 x : Nat) : ZMod 131071) = (x : ZMod 131071) := by
  have h0 : ((131071 : Nat) : ZMod 131071) = 0 := ZMod.natCast_self 131071
  have h1 : ((131072 : Nat) : ZMod 131071) = 1 := by
    have e : (131072 : Nat) = 131071 + 1 := rfl
    rw [e, Nat.cast_add, h0, Nat.cast_one, zero_add]
  conv_rhs => rw [← Nat.mod_add_div x 131072]
  unfold reduce17
  rw [Nat.cast_add, Nat.cast_add, Nat.cast_mul, h1, one_mul]

/-- The entry computed by an elimination step, modulo `131071`. -/
theorem cast_step_entry (a d h t : Nat) (hh : h ≤ 262142) :
    ((reduce17 (reduce17 (a % 131071 * d + (262142 - h) * t)) : Nat) : ZMod 131071) =
      (a : ZMod 131071) * d - h * t := by
  have h0 : ((131071 : Nat) : ZMod 131071) = 0 := ZMod.natCast_self 131071
  have h2 : ((262142 : Nat) : ZMod 131071) = 0 := by
    have e : (262142 : Nat) = 131071 + 131071 := rfl
    rw [e, Nat.cast_add, h0, zero_add]
  rw [cast_reduce17, cast_reduce17, Nat.cast_add, Nat.cast_mul, Nat.cast_mul, Nat.cast_sub hh, h2,
    ZMod.natCast_mod]
  ring

/-- One elimination step on the linear system `A x = 0`: every solution solves the
reduced system, and its component `c` is zero as soon as the later ones are. -/
theorem elim_kernel {K : Type} [Field K] (n c i : Nat) (A B : Nat → Nat → K) (hi : i < n)
    (hc : c < n) (hcol : ∀ r j, r < n → j < c → A r j = 0) (ha : A i c ≠ 0)
    (hB : ∀ r j, r < n → j < n → B r j = A i c * A r j - A r c * A i j)
    (x : Nat → K) (hx : ∀ r, r < n → ∑ j ∈ Finset.range n, A r j * x j = 0) :
    (∀ r, r < n → ∑ j ∈ Finset.range n, B r j * x j = 0) ∧
    ((∀ j, c < j → j < n → x j = 0) → x c = 0) := by
  constructor
  · intro r hr
    have e : ∑ j ∈ Finset.range n, B r j * x j =
        A i c * ∑ j ∈ Finset.range n, A r j * x j -
          A r c * ∑ j ∈ Finset.range n, A i j * x j := by
      rw [Finset.mul_sum, Finset.mul_sum, ← Finset.sum_sub_distrib]
      apply Finset.sum_congr rfl
      intro j hj
      rw [hB r j hr (Finset.mem_range.mp hj)]
      ring
    rw [e, hx r hr, hx i hi, mul_zero, mul_zero, sub_zero]
  · intro hlater
    have e : ∑ j ∈ Finset.range n, A i j * x j = A i c * x c := by
      apply Finset.sum_eq_single c
      · intro j hj hne
        have hjn := Finset.mem_range.mp hj
        rcases Nat.lt_or_gt_of_ne hne with h | h
        · rw [hcol i j hi h, zero_mul]
        · rw [hlater j h hjn, mul_zero]
      · intro hnot
        exact absurd (Finset.mem_range.mpr hc) hnot
    have h0 := hx i hi
    rw [e] at h0
    rcases mul_eq_zero.mp h0 with h | h
    · exact absurd h ha
    · exact h

/-- A system whose only solution is zero has a nonzero determinant. -/
theorem det_ne_zero_of_kernel {K : Type} [Field K] (n : Nat) (A : Nat → Nat → K)
    (h : ∀ x : Nat → K, (∀ r, r < n → ∑ j ∈ Finset.range n, A r j * x j = 0) →
      ∀ j, j < n → x j = 0) :
    (Matrix.of fun (r j : Fin n) => A r.val j.val).det ≠ 0 := by
  intro hdet
  obtain ⟨v, hv0, hv⟩ := Matrix.exists_mulVec_eq_zero_iff.mpr hdet
  apply hv0
  have key := h (fun j => if hj : j < n then v ⟨j, hj⟩ else 0) (by
    intro r hr
    have e := congrFun hv ⟨r, hr⟩
    simp only [Matrix.mulVec, Matrix.dotProduct, Matrix.of_apply, Pi.zero_apply] at e
    rw [Finset.sum_range]
    refine Eq.trans (Finset.sum_congr rfl (fun j _ => ?_)) e
    show A r j.val * (if hj : j.val < n then v ⟨j.val, hj⟩ else 0) = A r j.val * v j
    rw [dif_pos j.isLt])
  funext j
  have e : (if hj : j.val < n then v ⟨j.val, hj⟩ else 0) = 0 := key j.val j.isLt
  rw [dif_pos j.isLt] at e
  exact e

theorem findPivot_spec (n c X : Nat) (hn : 1 ≤ n) (i : Nat) :
    ∀ f i0, findPivot n c X f i0 = some i → i < n ∧ headAt n c i X ≠ 0 := by
  intro f
  induction f with
  | zero =>
    intro i0 h
    simp [findPivot] at h
  | succ f ih =>
    intro i0 h
    unfold findPivot at h
    by_cases hh : headAt n c (i0 % n) X ≠ 0
    · rw [if_pos hh] at h
      have e : i0 % n = i := Option.some.inj h
      rw [← e]
      exact ⟨Nat.mod_lt _ (by omega), hh⟩
    · rw [if_neg hh] at h
      exact ih (i0 + 1) h

/-- When the elimination started at column `c` finds a pivot in every column, the
system has no solution with a nonzero component from `c` on. -/
theorem elimLoop_sound (n : Nat) (hn : 1 ≤ n) :
    ∀ (f c : Nat) (E : Nat → Nat → Nat), c + f = n →
      (∀ r j, r < n → j < n → E r j ≤ 163838) →
      (∀ r j, r < n → j < c → ((E r j : Nat) : ZMod 131071) = 0) →
      elimLoop n f c (packM n E) = true →
      ∀ x : Nat → ZMod 131071,
        (∀ r, r < n → ∑ j ∈ Finset.range n, ((E r j : Nat) : ZMod 131071) * x j = 0) →
        ∀ j, c ≤ j → j < n → x j = 0 := by
  haveI : Fact (Nat.Prime 131071) := ⟨prime_131071⟩
  intro f
  induction f with
  | zero =>
    intro c E hcf _ _ _ x _ j h1 h2
    omega
  | succ f ih =>
    intro c E hcf hE hcol hloop x hx j hcj hjn
    have hc : c < n := by omega
    have hE36 : ∀ r j, r < n → j < n → E r j < 2 ^ 36 := fun r j hr hj =>
      lt_of_le_of_lt (hE r j hr hj) (by norm_num)
    unfold elimLoop at hloop
    cases hfp : findPivot n c (packM n E) n c with
    | none =>
      simp [hfp] at hloop
    | some i =>
      simp only [hfp] at hloop
      obtain ⟨hi, hhead⟩ := findPivot_spec n c _ hn i n c hfp
      rw [headAt_eq n E hE36 i c hi hc] at hhead
      have ha : ((E i c : Nat) : ZMod 131071) ≠ 0 := by
        intro h0
        rw [ZMod.natCast_zmod_eq_zero_iff_dvd] at h0
        exact hhead (Nat.mod_eq_zero_of_dvd h0)
      have hB : ∀ r j, r < n → j < n →
          ((reduce17 (reduce17 (E i c % 131071 * E r j + (262142 - E r c) * E i j)) : Nat) :
              ZMod 131071) =
            ((E i c : Nat) : ZMod 131071) * ((E r j : Nat) : ZMod 131071) -
              ((E r c : Nat) : ZMod 131071) * ((E i j : Nat) : ZMod 131071) := fun r j hr _ =>
        cast_step_entry _ _ _ _ (le_trans (hE r c hr hc) (by norm_num))
      obtain ⟨hx2, hxc⟩ := elim_kernel n c i (fun r j => ((E r j : Nat) : ZMod 131071))
        (fun r j => ((reduce17 (reduce17 (E i c % 131071 * E r j + (262142 - E r c) * E i j)) :
          Nat) : ZMod 131071)) hi hc hcol ha hB x hx
      rw [elimStep_eq n hn E hE c i hc hi] at hloop
      have hlater := ih (c + 1)
        (fun r j => reduce17 (reduce17 (E i c % 131071 * E r j + (262142 - E r c) * E i j)))
        (by omega)
        (fun r j hr hj => (reduce17_bound _
          (step_bound _ _ _ _ (Nat.mod_lt _ (by decide)) (hE r j hr hj) (hE i j hi hj))).2)
        (by
          intro r j hr hj
          rw [hB r j hr (by omega)]
          rcases Nat.lt_succ_iff_lt_or_eq.mp hj with h | h
          · rw [hcol r j hr h, hcol i j hi h, mul_zero, mul_zero, sub_zero]
          · rw [h]
            ring)
        hloop x hx2
      rcases Nat.lt_or_eq_of_le hcj with h | h
      · exact hlater j h hjn
      · rw [← h]
        exact hxc (fun j h1 h2 => hlater j h1 h2)

theorem nonsingularFrom_spec (lo k : Nat) :
    nonsingularFrom lo k = true → ∀ n, lo < n → n ≤ lo + k → nonsingularCheck n = true := by
  induction k with
  | zero =>
    intro _ n h1 h2
    omega
  | succ k ih =>
    intro h n h1 h2
    unfold nonsingularFrom at h
    rw [Bool.and_eq_true] at h
    rcases Nat.lt_or_ge n (lo + k + 1) with hlt | hge
    · exact ih h.2 n h1 (by omega)
    · have e : n = lo + k + 1 := by omega
      rw [e]
      exact h.1

/-- The matrix of `matgen` has a nonzero determinant when the test succeeds. -/
theorem matgen_det_of_check (a b : Buf) (lda n : Nat) (hn1 : 1 ≤ n) (hn : n ≤ lda)
    (hcheck : nonsingularCheck n = true) :
    (rowMajor (Common.matgen a lda n b).1 lda n).det ≠ 0 := by
  haveI : Fact (Nat.Prime 131071) := ⟨prime_131071⟩
  -- the integer matrix of the numerators
  let N : Matrix (Fin n) (Fin n) ℤ := Matrix.of fun r j =>
    (lcgSeq (r.val * n + j.val + 1) : ℤ) - 32768
  have hker := elimLoop_sound n hn1 n 0 (fun r j => lcgSeq (r * n + j + 1) + 98303)
    (Nat.zero_add n)
    (fun r j _ _ => by
      have := lcgSeq_lt (r * n + j + 1)
      show lcgSeq (r * n + j + 1) + 98303 ≤ 163838
      omega)
    (fun r j _ hj => absurd hj (Nat.not_lt_zero j))
    (by
      rw [← packedMatgen_eq n hn1]
      exact hcheck)
  have hdetF := det_ne_zero_of_kernel n
    (fun r j => ((lcgSeq (r * n + j + 1) + 98303 : Nat) : ZMod 131071))
    (fun x hx j hj => hker x hx j (Nat.zero_le j) hj)
  have hmapF : (Int.castRingHom (ZMod 131071)).mapMatrix N =
      Matrix.of fun (r j : Fin n) =>
        ((lcgSeq (r.val * n + j.val + 1) + 98303 : Nat) : ZMod 131071) := by
    ext r j
    have h0 : ((131071 : Nat) : ZMod 131071) = 0 := ZMod.natCast_self 131071
    have h1 : (98303 : ZMod 131071) + 32768 = 0 := by exact_mod_cast h0
    simp only [RingHom.mapMatrix_apply, Matrix.map_apply, Matrix.of_apply, N, eq_intCast]
    push_cast
    linear_combination -h1
  have hdetZ : N.det ≠ 0 := by
    intro h0
    apply hdetF
    rw [← hmapF, ← RingHom.map_det, h0, map_zero]
  have hmapQ : rowMajor (Common.matgen a lda n b).1 lda n =
      (1 / 16384 : ℚ) • (Int.castRingHom ℚ).mapMatrix N := by
    ext r j
    rw [rowMajor_matgen a b lda n hn r j, lcgEntry, lcgState_eq]
    simp only [RingHom.mapMatrix_apply, Matrix.smul_apply, Matrix.map_apply, Matrix.of_apply, N,
      smul_eq_mul, eq_intCast]
    push_cast
    ring_nf
  rw [hmapQ, Matrix.det_smul, ← RingHom.map_det]
  apply mul_ne_zero
  · exact pow_ne_zero _ (by norm_num)
  · simpa using hdetZ

/-! ## Claim C15: the generated matrix of size `128` is singular -/

/-- In every row of the `128 × 128` table of generator states, the states in the
columns `24`, `33`, `70`, `127` and those in the columns `1`, `31`, `102`, `120`
have the same sum. -/
theorem lcgSeq_columns_128 : ∀ r, r < 128 →
    3125 ^ (r * 128 + 25) * 1325 % 65536 + 3125 ^ (r * 128 + 34) * 1325 % 65536 +
      3125 ^ (r * 128 + 71) * 1325 % 65536 + 3125 ^ (r * 128 + 128) * 1325 % 65536 =
    3125 ^ (r * 128 + 2) * 1325 % 65536 + 3125 ^ (r * 128 + 32) * 1325 % 65536 +
      3125 ^ (r * 128 + 103) * 1325 % 65536 + 3125 ^ (r * 128 + 121) * 1325 % 65536 := by
  decide!

/-- For `n = 128` the matrix produced by the deterministic `matgen` is singular: the
columns `24`, `33`, `70`, `127` and the columns `1`, `31`, `102`, `120` have the
same sum. -/
theorem matgen_singular_128 (a b : Buf) (lda : Nat) (hn : 128 ≤ lda) :
    (rowMajor (Common.matgen a lda 128 b).1 lda 128).det = 0 := by
  apply Matrix.exists_mulVec_eq_zero_iff.mp
  refine ⟨Pi.single 24 1 + Pi.single 33 1 + Pi.single 70 1 + Pi.single 127 1 -
    (Pi.single 1 1 + Pi.single 31 1 + Pi.single 102 1 + Pi.single 120 1), ?_, ?_⟩
  · intro h
    have h24 := congrFun h 24
    simp [Pi.single_apply] at h24
  · funext r
    have hcol := lcgSeq_columns_128 r.val r.isLt
    rw [← lcgSeq_closed, ← lcgSeq_closed, ← lcgSeq_closed, ← lcgSeq_closed, ← lcgSeq_closed,
      ← lcgSeq_closed, ← lcgSeq_closed, ← lcgSeq_closed] at hcol
    have hq : ((lcgSeq (r.val * 128 + 25) : ℚ) + lcgSeq (r.val * 128 + 34) +
        lcgSeq (r.val * 128 + 71) + lcgSeq (r.val * 128 + 128)) =
        (lcgSeq (r.val * 128 + 2) : ℚ) + lcgSeq (r.val * 128 + 32) +
          lcgSeq (r.val * 128 + 103) + lcgSeq (r.val * 128 + 121) := by
      exact_mod_cast hcol
    have hentry : ∀ c : Fin 128, rowMajor (Common.matgen a lda 128 b).1 lda 128 r c =
        ((lcgSeq (r.val * 128 + (c.val + 1)) : ℚ) - 32768) / 16384 := by
      intro c
      rw [rowMajor_matgen a b lda 128 hn r c, lcgEntry, lcgState_eq, Int.cast_natCast]
    simp only [Matrix.mulVec_sub, Matrix.mulVec_add, Matrix.mulVec_single, Pi.sub_apply,
      Pi.add_apply, Pi.zero_apply, mul_one, hentry]
    have v24 : ((24 : Fin 128).val + 1) = 25 := rfl
    have v33 : ((33 : Fin 128).val + 1) = 34 := rfl
    have v70 : ((70 : Fin 128).val + 1) = 71 := rfl
    have v127 : ((127 : Fin 128).val + 1) = 128 := rfl
    have v1 : ((1 : Fin 128).val + 1) = 2 := rfl
    have v31 : ((31 : Fin 128).val + 1) = 32 := rfl
    have v102 : ((102 : Fin 128).val + 1) = 103 := rfl
    have v120 : ((120 : Fin 128).val + 1) = 121 := rfl
    rw [v24, v33, v70, v127, v1, v31, v102, v120]
    linear_combination hq / 16384

/-! ## Claim C15, amended: the sizes `1` to `127`

The test succeeds for every size from `1` to `127`; the sizes are checked in
groups. -/

theorem nonsingular_1_64 : nonsingularFrom 0 64 = true := by decide!

theorem nonsingular_65_76 : nonsingularFrom 64 12 = true := by decide!

theorem nonsingular_77_85 : nonsingularFrom 76 9 = true := by decide!

theorem nonsingular_86_92 : nonsingularFrom 85 7 = true := by decide!

theorem nonsingular_93_98 : nonsingularFrom 92 6 = true := by decide!

theorem nonsingular_99_103 : nonsingularFrom 98 5 = true := by decide!

theorem nonsingular_104_108 : nonsingularFrom 103 5 = true := by decide!

theorem nonsingular_109_112 : nonsingularFrom 108 4 = true := by decide!

theorem nonsingular_113_116 : nonsingularFrom 112 4 = true := by decide!

theorem nonsingular_117_120 : nonsingularFrom 116 4 = true := by decide!

theorem nonsingular_121_124 : nonsingularFrom 120 4 = true := by decide!

theorem nonsingular_125_127 : nonsingularFrom 124 3 = true := by decide!

/-- The elimination modulo `131071` finds a pivot in every column, for every size
from `1` to `127`. -/
theorem nonsingularCheck_below_128 (n : Nat) (hn1 : 1 ≤ n) (hn127 : n ≤ 127) :
    nonsingularCheck n = true := by
  have hcase : (0 < n ∧ n ≤ 64) ∨
      (64 < n ∧ n ≤ 76) ∨
      (76 < n ∧ n ≤ 85) ∨
      (85 < n ∧ n ≤ 92) ∨
      (92 < n ∧ n ≤ 98) ∨
      (98 < n ∧ n ≤ 103) ∨
      (103 < n ∧ n ≤ 108) ∨
      (108 < n ∧ n ≤ 112) ∨
      (112 < n ∧ n ≤ 116) ∨
      (116 < n ∧ n ≤ 120) ∨
      (120 < n ∧ n ≤ 124) ∨
      (124 < n ∧ n ≤ 127) := by omega
  rcases hcase with ⟨h1, h2⟩ | ⟨h1, h2⟩ | ⟨h1, h2⟩ | ⟨h1, h2⟩ | ⟨h1, h2⟩ | ⟨h1, h2⟩ |
    ⟨h1, h2⟩ | ⟨h1, h2⟩ | ⟨h1, h2⟩ | ⟨h1, h2⟩ | ⟨h1, h2⟩ | ⟨h1, h2⟩
  · exact nonsingularFrom_spec 0 64 nonsingular_1_64 n h1 h2
  · exact nonsingularFrom_spec 64 12 nonsingular_65_76 n h1 h2
  · exact nonsingularFrom_spec 76 9 nonsingular_77_85 n h1 h2
  · exact nonsingularFrom_spec 85 7 nonsingular_86_92 n h1 h2
  · exact nonsingularFrom_spec 92 6 nonsingular_93_98 n h1 h2
  · exact nonsingularFrom_spec 98 5 nonsingular_99_103 n h1 h2
  · exact nonsingularFrom_spec 103 5 nonsingular_104_108 n h1 h2
  · exact nonsingularFrom_spec 108 4 nonsingular_109_112 n h1 h2
  · exact nonsingularFrom_spec 112 4 nonsingular_113_116 n h1 h2
  · exact nonsingularFrom_spec 116 4 nonsingular_117_120 n h1 h2
  · exact nonsingularFrom_spec 120 4 nonsingular_121_124 n h1 h2
  · exact nonsingularFrom_spec 124 3 nonsingular_125_127 n h1 h2

/-- Claim C15, amended. For every `n` from `1` to `127` and `lda ≥ n` the matrix
produced by the deterministic `matgen` is nonsingular, and `gefa_ref` on it
meets no zero pivot. The range cannot be extended: for `n = 128` and every
`lda ≥ 128` the generated matrix is singular. -/
theorem matgen_nonsingular_below_128 (a b : Buf) (lda n : Nat) (ipvt : Idx) (hn1 : 1 ≤ n)
    (hn127 : n ≤ 127) (hn : n ≤ lda) :
    ((rowMajor (Common.matgen a lda n b).1 lda n).det ≠ 0 ∧
      ∀ k, k < n →
        (Linpack.gefa_ref (Common.matgen a lda n b).1 n lda ipvt).1 (k * lda + k) ≠ 0) ∧
    ∀ (a1 b1 : Buf) (lda1 : Nat), 128 ≤ lda1 →
      (rowMajor (Common.matgen a1 lda1 128 b1).1 lda1 128).det = 0 := by
  have hdet := matgen_det_of_check a b lda n hn1 hn
    (nonsingularCheck_below_128 n hn1 hn127)
  exact ⟨⟨hdet, fun k hk => Linpack.gefa_ref_diag_ne_zero _ n lda ipvt hn hdet k hk⟩,
    fun a1 b1 lda1 h => matgen_singular_128 a1 b1 lda1 h⟩

/-- Claim C15, amended, at `n = 127`, `lda = 128`, from buffers of zeros. -/
theorem matgen_nonsingular_below_128_witness :
    ((rowMajor (Common.matgen zeros 128 127 zeros).1 128 127).det ≠ 0 ∧
      ∀ k, k < 127 →
        (Linpack.gefa_ref (Common.matgen zeros 128 127 zeros).1 127 128 (fun _ => 0)).1
          (k * 128 + k) ≠ 0) ∧
    ∀ (a1 b1 : Buf) (lda1 : Nat), 128 ≤ lda1 →
      (rowMajor (Common.matgen a1 lda1 128 b1).1 lda1 128).det = 0 :=
  matgen_nonsingular_below_128 zeros zeros 128 127 (fun _ => 0) (by decide) (by decide)
    (by decide)

end Flinpack
